import Mathlib

/-!
# Verification of the barrel-loader core pipeline

Shallow embedding of the Rust barrel-loader (src/lib.rs and its modular
mirrors under src/parser, src/deduplication.rs, src/reconstruction,
src/barrel_loader, src/rs_utils) together with proofs of the behavioural
claims about it.

Modelling conventions:
* Rust `&str` is modelled as `String` / `List Char` (Rust `char` and Lean
  `Char` are both Unicode scalar values).
* The three regular expressions of the parser are hand-compiled into
  deterministic matching functions over `List Char`; backtracking of the
  optional groups is resolved by the commit arguments recorded in the
  comments of each matcher (the relevant continuation always fails on the
  fallback branch, so committing is equivalent to the regex semantics).
* The regex class `\s` and Rust `char::is_whitespace` both denote the
  Unicode White_Space set, modelled in full by `rsIsWs`.  The regex class
  `\w` is modelled by its ASCII part (`isWordChar`).
* `HashMap` grouping iteration order (documented as implementation-defined
  in the spec, section 4.5/9) is resolved to first-insertion order.
* Rust `u32` line counters are modelled as `Nat` reduced mod 2^32.
-/

/-- Unicode White_Space test: model of Rust `char::is_whitespace` and of the
regex class `\s` of the `regex` crate. -/
def rsIsWs (c : Char) : Bool :=
  c.toNat == 0x20 || c.toNat == 0x9 || c.toNat == 0xa || c.toNat == 0xb ||
  c.toNat == 0xc || c.toNat == 0xd || c.toNat == 0x85 || c.toNat == 0xa0 ||
  c.toNat == 0x1680 || (0x2000 ≤ c.toNat && c.toNat ≤ 0x200a) ||
  c.toNat == 0x2028 || c.toNat == 0x2029 || c.toNat == 0x202f ||
  c.toNat == 0x205f || c.toNat == 0x3000

/-- ASCII model of the regex class `\w` (word character). -/
def isWordChar (c : Char) : Bool :=
  (0x61 ≤ c.toNat && c.toNat ≤ 0x7a) || (0x41 ≤ c.toNat && c.toNat ≤ 0x5a) ||
  (0x30 ≤ c.toNat && c.toNat ≤ 0x39) || c.toNat == 0x5f

/-- The regex class `['"]`: a single or double quote. -/
def isQuote (c : Char) : Bool := c == '\'' || c == '"'

/-- Left brace character. -/
def lb : Char := '\x7b'

/-- Right brace character. -/
def rb : Char := '\x7d'

/-- Asterisk character. -/
def starChar : Char := '*'

def exportChars : List Char := "export".data
def typeChars : List Char := "type".data
def fromChars : List Char := "from".data
def asChars : List Char := "as".data
def defaultChars : List Char := "default".data
def exportTypeChars : List Char := "export type".data

/-- Match a literal at the head of the input, returning the rest. -/
def stripLit : List Char → List Char → Option (List Char)
  | [], cs => some cs
  | _ :: _, [] => none
  | l :: ls, c :: cs => if c = l then stripLit ls cs else none

/-- The regex `\s+`: at least one whitespace character, consumed maximally. -/
def ws1 (cs : List Char) : Option (List Char) :=
  match cs with
  | [] => none
  | c :: cs' => if rsIsWs c then some (cs'.dropWhile rsIsWs) else none

/-- The regex `(?:type\s+)?`.  If `type` followed by whitespace is present it
is committed; in every use site the continuation expects a character that is
neither `t` nor whitespace, so committing agrees with regex backtracking. -/
def typeOpt (cs : List Char) : List Char :=
  match stripLit typeChars cs with
  | none => cs
  | some cs2 =>
    match ws1 cs2 with
    | none => cs
    | some cs3 => cs3

/-- Expect one specific character. -/
def expectChar (c : Char) : List Char → Option (List Char)
  | [] => none
  | x :: xs => if x = c then some xs else none

/-- Expect one quote character (the regex `['"]`). -/
def expectQuote : List Char → Option (List Char)
  | [] => none
  | x :: xs => if isQuote x then some xs else none

/-- The regex tail `['"]([^'"]+)['"]`: a quoted, non-empty module path. -/
def quotedSource (cs : List Char) : Option (List Char) :=
  (expectQuote cs).bind fun cs10 =>
  let src := cs10.takeWhile (fun c => !(isQuote c))
  let cs11 := cs10.dropWhile (fun c => !(isQuote c))
  if src = [] then none else
  (expectQuote cs11).bind fun _ => some src

/-- The regex tail `from\s+['"]([^'"]+)['"]`. -/
def fromSource (cs : List Char) : Option (List Char) :=
  (stripLit fromChars cs).bind fun cs8 =>
  (ws1 cs8).bind fun cs9 => quotedSource cs9

/-- One attempt, at a fixed start position, of the named-export regex
`export\s+(?:type\s+)?\{([^}]+)\}\s+from\s+['"]([^'"]+)['"]`.
Returns (brace contents, module path). -/
def matchNamedAt (cs : List Char) : Option (List Char × List Char) :=
  (stripLit exportChars cs).bind fun cs1 =>
  (ws1 cs1).bind fun cs2 =>
  (expectChar lb (typeOpt cs2)).bind fun cs4 =>
  let inner := cs4.takeWhile (fun c => !(c == rb))
  let cs5 := cs4.dropWhile (fun c => !(c == rb))
  if inner = [] then none else
  (expectChar rb cs5).bind fun cs6 =>
  (ws1 cs6).bind fun cs7 =>
  (fromSource cs7).bind fun src => some (inner, src)

/-- One attempt, at a fixed start position, of the default-export regex
`export\s+(?:type\s+)?\{\s*default\s*(?:as\s+(\w+))?\s*\}\s+from\s+['"]([^'"]+)['"]`.
Returns (optional alias, module path).  The optional `as` group is committed:
if `as` matches but the rest of the group fails, the regex fallback (empty
group) would have to read `\s*\}` at a position starting with `a`, which
fails, so the whole attempt fails either way. -/
def matchDefaultAt (cs : List Char) : Option (Option (List Char) × List Char) :=
  (stripLit exportChars cs).bind fun cs1 =>
  (ws1 cs1).bind fun cs2 =>
  (expectChar lb (typeOpt cs2)).bind fun cs3 =>
  (stripLit defaultChars (cs3.dropWhile rsIsWs)).bind fun cs4 =>
  let cs5 := cs4.dropWhile rsIsWs
  match stripLit asChars cs5 with
  | some csA =>
    (ws1 csA).bind fun csB =>
    let w := csB.takeWhile isWordChar
    if w = [] then none else
    (expectChar rb ((csB.dropWhile isWordChar).dropWhile rsIsWs)).bind fun cs6 =>
    (ws1 cs6).bind fun cs7 =>
    (fromSource cs7).bind fun src => some (some w, src)
  | none =>
    (expectChar rb cs5).bind fun cs6 =>
    (ws1 cs6).bind fun cs7 =>
    (fromSource cs7).bind fun src => some (none, src)

/-- One attempt, at a fixed start position, of the namespace-export regex
`export\s+(?:type\s+)?\*\s+(?:as\s+(\w+)\s+)?from\s+['"]([^'"]+)['"]`.
The optional `as` group is committed: on group failure the regex falls back
to reading `from` at a position starting with `a`, which fails. -/
def matchNamespaceAt (cs : List Char) : Option (Option (List Char) × List Char) :=
  (stripLit exportChars cs).bind fun cs1 =>
  (ws1 cs1).bind fun cs2 =>
  (expectChar starChar (typeOpt cs2)).bind fun cs3 =>
  (ws1 cs3).bind fun cs4 =>
  match stripLit asChars cs4 with
  | some csA =>
    (ws1 csA).bind fun csB =>
    let w := csB.takeWhile isWordChar
    if w = [] then none else
    (ws1 (csB.dropWhile isWordChar)).bind fun csD =>
    (fromSource csD).bind fun src => some (some w, src)
  | none => (fromSource cs4).bind fun src => some (none, src)

/-- Leftmost search for the named-export regex (`Regex::captures`). -/
def searchNamed : List Char → Option (List Char × List Char)
  | [] => none
  | c :: cs =>
    match matchNamedAt (c :: cs) with
    | some r => some r
    | none => searchNamed cs

/-- Leftmost search for the default-export regex. -/
def searchDefault : List Char → Option (Option (List Char) × List Char)
  | [] => none
  | c :: cs =>
    match matchDefaultAt (c :: cs) with
    | some r => some r
    | none => searchDefault cs

/-- Leftmost search for the namespace-export regex. -/
def searchNamespace : List Char → Option (Option (List Char) × List Char)
  | [] => none
  | c :: cs =>
    match matchNamespaceAt (c :: cs) with
    | some r => some r
    | none => searchNamespace cs

/-- Split a character list on a separator character (Rust `str::split`). -/
def splitOnChar (sep : Char) : List Char → List (List Char)
  | [] => [[]]
  | c :: cs =>
    match splitOnChar sep cs with
    | [] => [[c]]
    | g :: gs => if c = sep then [] :: g :: gs else (c :: g) :: gs

/-- Rust `str::trim` (both ends, Unicode whitespace). -/
def rsTrim (cs : List Char) : List Char :=
  ((cs.dropWhile rsIsWs).reverse.dropWhile rsIsWs).reverse

/-- Prefix test on character lists (Rust `str::starts_with`). -/
def isPrefixL : List Char → List Char → Bool
  | [], _ => true
  | _ :: _, [] => false
  | p :: ps, c :: cs => p == c && isPrefixL ps cs

/-- Substring test (Rust `str::contains`). -/
def containsSub (t : List Char) : List Char → Bool
  | [] => isPrefixL t []
  | c :: cs => isPrefixL t (c :: cs) || containsSub t cs

/-- Embedding of `parse_named_export` (src/lib.rs, src/parser/named.rs):
first regex match, split the brace contents on commas, trim, drop empties,
pair each surviving token with the module path; `None` if no token survives. -/
def parse_named_export (line : List Char) : Option (List (List Char × List Char)) :=
  match searchNamed line with
  | none => none
  | some (inner, src) =>
    let pairs := (((splitOnChar ',' inner).map rsTrim).filter
        (fun s => !(s.isEmpty))).map (fun s => (s, src))
    if pairs.isEmpty then none else some pairs

/-- Embedding of `parse_default_export` (src/lib.rs, src/rs_utils/parser/default.rs). -/
def parse_default_export (line : List Char) : Option (List Char × List Char) :=
  (searchDefault line).map fun r => (r.1.getD defaultChars, r.2)

/-- Embedding of `parse_namespace_export` (src/lib.rs, src/rs_utils/parser/namespace.rs). -/
def parse_namespace_export (line : List Char) : Option (List Char × List Char) :=
  (searchNamespace line).map fun r => (r.1.getD [starChar], r.2)

/-- Embedding of the Rust `ExportInfo` record
("specifier", "source", "type", "is_type_export", "line"). -/
structure ExportInfo where
  specifier : String
  source : String
  export_type : String
  is_type_export : Bool
  line : Nat
  deriving Repr, DecidableEq

/-- Embedding of one iteration of the line loop of `parse_exports`
(src/lib.rs lines 62-107), equivalently `parse_line`
(src/rs_utils/parser/line_parser.rs): trim, require the `export` prefix,
compute the type flag, then try the three patterns in order. -/
def parse_line (line : List Char) (n : Nat) : List ExportInfo :=
  let trimmed := rsTrim line
  if !(isPrefixL exportChars trimmed) then []
  else
    let isT := containsSub exportTypeChars trimmed
    match parse_named_export trimmed with
    | some pairs =>
      pairs.map fun p =>
        ⟨String.mk p.1, String.mk p.2, "named", isT, n % 4294967296⟩
    | none =>
      match parse_default_export trimmed with
      | some p => [⟨String.mk p.1, String.mk p.2, "default", isT, n % 4294967296⟩]
      | none =>
        match parse_namespace_export trimmed with
        | some p => [⟨String.mk p.1, String.mk p.2, "namespace", isT, n % 4294967296⟩]
        | none => []

/-- Strip one trailing carriage return (the `\r` of a `\r\n` line ending). -/
def stripCR (l : List Char) : List Char :=
  match l.getLast? with
  | some c => if c = '\r' then l.dropLast else l
  | none => l

/-- Helper for `rustLines`: every segment except the last came from a `\n`
split and has a potential `\r` stripped; a final empty segment (text ended
with a newline) is dropped. -/
def rustLinesAux : List (List Char) → List (List Char)
  | [] => []
  | [last] => if last = [] then [] else [last]
  | seg :: rest => stripCR seg :: rustLinesAux rest

/-- Embedding of Rust `str::lines`. -/
def rustLines (cs : List Char) : List (List Char) :=
  rustLinesAux (splitOnChar '\n' cs)

/-- The enumerated line loop of `parse_exports`: line numbers are 1-based. -/
def parseAll : Nat → List (List Char) → List ExportInfo
  | _, [] => []
  | i, l :: ls => parse_line l i ++ parseAll (i + 1) ls

/-- All records parsed from a source text. -/
def parsedRecords (source : String) : List ExportInfo :=
  parseAll 1 (rustLines source.data)

/-- Embedding of `BarrelLoader::parse_exports` (src/lib.rs lines 57-110) and
`parse_exports` (src/rs_utils/parser/mod.rs): the fallible signature whose
only return is `Ok`. -/
def parse_exports (source : String) : Except String (List ExportInfo) :=
  Except.ok (parsedRecords source)

example : parse_exports "export \x7b Button \x7d from \"./Button\";"
    = .ok [⟨"Button", "./Button", "named", false, 1⟩] := rfl

example : parse_exports "export \x7b Button, Form \x7d from \"./components\";"
    = .ok [⟨"Button", "./components", "named", false, 1⟩,
           ⟨"Form", "./components", "named", false, 1⟩] := rfl

example : parse_exports "export \x7b default as App \x7d from \"./App\";"
    = .ok [⟨"default as App", "./App", "named", false, 1⟩] := rfl

example : parse_exports "export * from \"./utils\";"
    = .ok [⟨"*", "./utils", "namespace", false, 1⟩] := rfl

example : parse_exports "export type * as NS from \"./t\";"
    = .ok [⟨"NS", "./t", "namespace", true, 1⟩] := rfl

example : parse_exports "export \x7b  \x7d from \"m\"; export \x7b default as App \x7d from \"./App\";"
    = .ok [⟨"App", "./App", "default", false, 1⟩] := rfl

example : parse_exports "export const x = 1;" = .ok [] := rfl

/-- Embedding of the duplicate key of `remove_duplicates`
(src/lib.rs lines 160-166, src/deduplication.rs): the colon-joined
`format!("{}:{}:{}:{}", export_type, specifier, source, is_type_export)`. -/
def dedupKey (e : ExportInfo) : String :=
  e.export_type ++ ":" ++ e.specifier ++ ":" ++ e.source ++ ":" ++
    (if e.is_type_export then "true" else "false")

/-- The `HashSet` filter loop of `remove_duplicates`, with the set of seen
keys modelled as a list. -/
def removeDupsAux (seen : List String) : List ExportInfo → List ExportInfo
  | [] => []
  | e :: es =>
    if seen.contains (dedupKey e) then removeDupsAux seen es
    else e :: removeDupsAux (dedupKey e :: seen) es

/-- Embedding of `BarrelLoader::remove_duplicates` (src/lib.rs lines 153-170)
and `remove_duplicates` (src/deduplication.rs). -/
def remove_duplicates (exports : List ExportInfo) : List ExportInfo :=
  removeDupsAux [] exports

/-- Embedding of the comparator of `sort_exports` (src/lib.rs lines 175-180,
src/sorting.rs); `String` comparison in Lean is code-point lexicographic,
which agrees with Rust's byte-wise UTF-8 comparison. -/
def exportCmp (a b : ExportInfo) : Ordering :=
  if a.source ≠ b.source then compare a.source b.source
  else compare a.specifier b.specifier

/-- Embedding of `BarrelLoader::sort_exports` (a stable sort by the
comparator, as Rust `sort_by`). -/
def sort_exports (exports : List ExportInfo) : List ExportInfo :=
  exports.mergeSort (fun a b => !(exportCmp a b == Ordering.gt))

/-- `export_type == "namespace"` test of the reconstruction filters. -/
def isNsK (e : ExportInfo) : Bool := e.export_type == "namespace"

/-- `export_type == "default"` test of the reconstruction filters. -/
def isDefaultK (e : ExportInfo) : Bool := e.export_type == "default"

/-- `export_type == "named"` test of the reconstruction filters. -/
def isNamedK (e : ExportInfo) : Bool := e.export_type == "named"

/-- Join with a separator (Rust `Vec::join`). -/
def intercalateC (sep : List Char) : List (List Char) → List Char
  | [] => []
  | [x] => x
  | x :: y :: xs => x ++ sep ++ intercalateC sep (y :: xs)

/-- Value-pass namespace statement (src/lib.rs lines 233-239). -/
def nsStmtV (source : String) (e : ExportInfo) : List Char :=
  if e.specifier == "*" then
    "export * from \"".data ++ source.data ++ "\";".data
  else
    "export * as ".data ++ e.specifier.data ++ " from \"".data ++ source.data ++ "\";".data

/-- Value-pass default statement (src/lib.rs lines 242-248). -/
def defStmtV (source : String) (e : ExportInfo) : List Char :=
  if e.specifier == "default" then
    "export \x7b default \x7d from \"".data ++ source.data ++ "\";".data
  else
    "export \x7b default as ".data ++ e.specifier.data ++ " \x7d from \"".data ++
      source.data ++ "\";".data

/-- Value-pass combined named statement (src/lib.rs lines 251-258). -/
def namedStmtV (source : String) (specs : List String) : List Char :=
  "export \x7b ".data ++ intercalateC ", ".data (specs.map String.data) ++
    " \x7d from \"".data ++ source.data ++ "\";".data

/-- Type-pass namespace statement (src/lib.rs lines 275-281,
src/reconstruction/type_exports.rs). -/
def nsStmtT (source : String) (e : ExportInfo) : List Char :=
  if e.specifier == "*" then
    "export type * from \"".data ++ source.data ++ "\";".data
  else
    "export type * as ".data ++ e.specifier.data ++ " from \"".data ++
      source.data ++ "\";".data

/-- Type-pass default statement (src/lib.rs lines 284-290). -/
def defStmtT (source : String) (e : ExportInfo) : List Char :=
  if e.specifier == "default" then
    "export type \x7b default \x7d from \"".data ++ source.data ++ "\";".data
  else
    "export type \x7b default as ".data ++ e.specifier.data ++ " \x7d from \"".data ++
      source.data ++ "\";".data

/-- Type-pass combined named statement (src/lib.rs lines 293-300). -/
def namedStmtT (source : String) (specs : List String) : List Char :=
  "export type \x7b ".data ++ intercalateC ", ".data (specs.map String.data) ++
    " \x7d from \"".data ++ source.data ++ "\";".data

/-- Embedding of the value pass of the per-group generation
(src/lib.rs lines 218-258): filter by kind, then the three push loops in
order (namespace, default, combined named). -/
def genValueExports (exps : List ExportInfo) (source : String) : List (List Char) :=
  let namespace_exports := exps.filter isNsK
  let default_exports := exps.filter isDefaultK
  let named_exports := exps.filter isNamedK
  let l1 := namespace_exports.foldl (fun acc e => acc ++ [nsStmtV source e]) []
  let l2 := default_exports.foldl (fun acc e => acc ++ [defStmtV source e]) l1
  if named_exports.isEmpty then l2
  else l2 ++ [namedStmtV source (named_exports.map (fun e => e.specifier))]

/-- Embedding of the type pass of the per-group generation
(src/lib.rs lines 261-300, src/reconstruction/type_exports.rs). -/
def genTypeExports (exps : List ExportInfo) (source : String) : List (List Char) :=
  let namespace_exports := exps.filter isNsK
  let default_exports := exps.filter isDefaultK
  let named_exports := exps.filter isNamedK
  let l1 := namespace_exports.foldl (fun acc e => acc ++ [nsStmtT source e]) []
  let l2 := default_exports.foldl (fun acc e => acc ++ [defStmtT source e]) l1
  if named_exports.isEmpty then l2
  else l2 ++ [namedStmtT source (named_exports.map (fun e => e.specifier))]

/-- One step of the `HashMap::entry` grouping loop (src/lib.rs lines 205-214,
src/rs_utils/reconstruction/grouping.rs), with the map modelled as an
association list in first-insertion order (the iteration order of the map is
implementation-defined; the spec, sections 4.5 and 9, leaves it to the
implementation, and this embedding fixes first-seen order). -/
def insertGrouped (m : List (String × List ExportInfo × List ExportInfo))
    (e : ExportInfo) : List (String × List ExportInfo × List ExportInfo) :=
  match m with
  | [] => if e.is_type_export then [(e.source, [], [e])] else [(e.source, [e], [])]
  | (k, vs, ts) :: rest =>
    if k = e.source then
      (if e.is_type_export then (k, vs, ts ++ [e]) else (k, vs ++ [e], ts)) :: rest
    else (k, vs, ts) :: insertGrouped rest e

/-- Embedding of `group_exports_by_source`. -/
def groupBySource (exports : List ExportInfo) :
    List (String × List ExportInfo × List ExportInfo) :=
  exports.foldl insertGrouped []

/-- The keep-condition of the leading-content scan of `reconstruct_source`:
non-blank and not a `//` comment (src/lib.rs lines 194-202). -/
def keepLine (l : List Char) : Bool :=
  let t := rsTrim l
  !(t.isEmpty) && !(isPrefixL "//".data t)

/-- The leading-content scan of `reconstruct_source`: copy kept lines until
the first line whose trimmed form starts with `export`. -/
def preservedPrefix : List (List Char) → List (List Char)
  | [] => []
  | l :: ls =>
    if isPrefixL exportChars (rsTrim l) then []
    else if keepLine l then l :: preservedPrefix ls
    else preservedPrefix ls

/-- Embedding of `BarrelLoader::reconstruct_source` (src/lib.rs lines
186-308) and `reconstruct_source` (src/reconstruction/mod.rs). -/
def reconstruct_source (original : String) (exports : List ExportInfo) : String :=
  if exports.isEmpty then original
  else
    let pres := preservedPrefix (rustLines original.data)
    let lines := (groupBySource exports).foldl
      (fun acc g => acc ++ genValueExports g.2.1 g.1 ++ genTypeExports g.2.2 g.1) pres
    let lines := if lines.isEmpty then lines else lines ++ [[]]
    String.mk (intercalateC ['\n'] lines)

/-- Embedding of `Path::file_name` for Unix path strings: the last path
component, with empty and `.` components normalized away; `None` when the
path is empty, a root, or ends in a `..` component. -/
def rsFileName (p : String) : Option String :=
  let segs := (splitOnChar '/' p.data).filter
    (fun s => !(s.isEmpty) && !(s == ['.']))
  match segs.getLast? with
  | none => none
  | some s => if s == "..".data then none else some (String.mk s)

/-- Embedding of `BarrelLoader::is_barrel_file` (src/lib.rs lines 45-54,
src/rs_utils/barrel_loader/file_check.rs). -/
def is_barrel_file (file_path : String) : Bool :=
  match rsFileName file_path with
  | none => false
  | some n => n == "index.ts" || n == "index.js" || n == "index.tsx" || n == "index.jsx"

/-- Embedding of `BarrelLoaderOptions` (src/lib.rs lines 23-30, src/types.rs). -/
structure BarrelLoaderOptions where
  optimize : Option Bool := none
  sort : Option Bool := none
  remove_duplicates : Option Bool := none
  verbose : Option Bool := none
  convert_namespace_to_named : Option Bool := none
  resolve_barrel_exports : Option Bool := none
  deriving Repr, DecidableEq

/-- Embedding of `BarrelLoader::process` (src/lib.rs lines 311-358) and
`BarrelLoader::process` / `process_file` (src/barrel_loader).  The
`verbose`-gated `eprintln!` diagnostics write to stderr only and are not part
of the returned value, so they have no counterpart here. -/
def process (opts : BarrelLoaderOptions) (source file_path : String) :
    Except String String :=
  if !(is_barrel_file file_path) then Except.ok source
  else
    match parse_exports source with
    | .error e => .error e
    | .ok exports0 =>
      if exports0.isEmpty then Except.ok source
      else
        let exports1 :=
          if opts.remove_duplicates.getD true then remove_duplicates exports0
          else exports0
        let exports2 :=
          if opts.sort.getD false then sort_exports exports1 else exports1
        Except.ok (reconstruct_source source exports2)

/-- Specification-side deduplication: keep each record and drop every later
record with an equal key (the amended duplicate criterion). -/
def specDedup : List ExportInfo → List ExportInfo
  | [] => []
  | e :: es =>
    e :: specDedup (es.filter (fun x => !(dedupKey x == dedupKey e)))
termination_by l => l.length
decreasing_by
  exact Nat.lt_succ_of_le (List.length_filter_le _ _)

/-- Specification-side first-occurrence list of keys. -/
def specKeys : List String → List String
  | [] => []
  | k :: ks => k :: specKeys (ks.filter (fun x => !(x == k)))
termination_by l => l.length
decreasing_by
  exact Nat.lt_succ_of_le (List.length_filter_le _ _)

example :
    process {} "export \x7b Button \x7d from \"./Button\";\nexport \x7b Button \x7d from \"./Button\";"
      "/path/to/index.ts"
    = .ok "export \x7b Button \x7d from \"./Button\";\n" := rfl

example :
    process {} "const a = 1;\nexport \x7b B \x7d from \"./b\";\nexport * from \"./c\";\nexport type \x7b T \x7d from \"./b\";"
      "index.ts"
    = .ok "const a = 1;\nexport \x7b B \x7d from \"./b\";\nexport type \x7b T \x7d from \"./b\";\nexport * from \"./c\";\n" := rfl

/-! ## General list lemmas -/

theorem foldl_push {α β : Type} (f : α → β) (l : List α) :
    ∀ acc : List β, l.foldl (fun a e => a ++ [f e]) acc = acc ++ l.map f := by
  induction l with
  | nil => intro acc; simp
  | cons x xs ih => intro acc; simp [List.foldl_cons, ih]

/-- The value pass written as filters and maps. -/
theorem genValueExports_eq (exps : List ExportInfo) (src : String) :
    genValueExports exps src
      = (exps.filter isNsK).map (nsStmtV src)
        ++ (exps.filter isDefaultK).map (defStmtV src)
        ++ (if (exps.filter isNamedK).isEmpty then []
            else [namedStmtV src ((exps.filter isNamedK).map (fun e => e.specifier))]) := by
  simp only [genValueExports, foldl_push]
  cases h : (exps.filter isNamedK).isEmpty <;> simp [h, List.append_assoc]

/-- The type pass written as filters and maps. -/
theorem genTypeExports_eq (exps : List ExportInfo) (src : String) :
    genTypeExports exps src
      = (exps.filter isNsK).map (nsStmtT src)
        ++ (exps.filter isDefaultK).map (defStmtT src)
        ++ (if (exps.filter isNamedK).isEmpty then []
            else [namedStmtT src ((exps.filter isNamedK).map (fun e => e.specifier))]) := by
  simp only [genTypeExports, foldl_push]
  cases h : (exps.filter isNamedK).isEmpty <;> simp [h, List.append_assoc]

/-! ## Deduplication lemmas -/

theorem removeDupsAux_eq (l : List ExportInfo) :
    ∀ seen : List String,
      removeDupsAux seen l
        = specDedup (l.filter fun e => !(seen.contains (dedupKey e))) := by
  induction l with
  | nil => intro seen; simp [removeDupsAux, specDedup]
  | cons e es ih =>
    intro seen
    by_cases h : dedupKey e ∈ seen
    · simp [removeDupsAux, h, List.filter_cons, ih]
    · simp only [removeDupsAux, List.elem_eq_mem, h, decide_False, Bool.false_eq_true,
        if_false, List.filter_cons, decide_not, Bool.not_eq_true', decide_eq_false_iff_not,
        not_false_eq_true, if_true, Bool.not_false]
      rw [ih, specDedup]
      congr 2
      rw [List.filter_filter]
      apply List.filter_congr
      intro x _
      by_cases h1 : dedupKey x = dedupKey e <;> by_cases h2 : dedupKey x ∈ seen <;>
        simp [h1, h2]

theorem remove_duplicates_eq_specDedup (l : List ExportInfo) :
    remove_duplicates l = specDedup l := by
  have h := removeDupsAux_eq l []
  simpa [remove_duplicates] using h

theorem specDedup_nil : specDedup [] = [] := by rw [specDedup]

theorem specDedup_cons (e : ExportInfo) (es : List ExportInfo) :
    specDedup (e :: es)
      = e :: specDedup (es.filter (fun x => !(dedupKey x == dedupKey e))) := by
  rw [specDedup]

theorem specKeys_nil : specKeys [] = [] := by rw [specKeys]

theorem specKeys_cons (k : String) (ks : List String) :
    specKeys (k :: ks) = k :: specKeys (ks.filter (fun x => !(x == k))) := by
  rw [specKeys]

theorem specDedup_sublist : ∀ l : List ExportInfo, List.Sublist (specDedup l) l := by
  intro l
  induction l using specDedup.induct with
  | case1 => simp [specDedup]
  | case2 e es ih =>
    rw [specDedup]
    exact List.Sublist.cons₂ e (ih.trans (List.filter_sublist es))

theorem specDedup_keys : ∀ l : List ExportInfo,
    (specDedup l).map dedupKey = specKeys (l.map dedupKey) := by
  intro l
  induction l using specDedup.induct with
  | case1 => simp [specDedup, specKeys]
  | case2 e es ih =>
    rw [specDedup_cons, List.map_cons, ih]
    conv_rhs => rw [List.map_cons, specKeys_cons]
    congr 2
    rw [List.filter_map]
    rfl

/-! ## Grouping and generation lemmas -/

theorem insertGrouped_pres (P : ExportInfo → Prop) (e : ExportInfo) (he : P e) :
    ∀ m, (∀ g ∈ m, (∀ x ∈ g.2.1, P x) ∧ (∀ x ∈ g.2.2, P x)) →
      ∀ g ∈ insertGrouped m e, (∀ x ∈ g.2.1, P x) ∧ (∀ x ∈ g.2.2, P x) := by
  intro m
  induction m with
  | nil =>
    intro _ g hg
    unfold insertGrouped at hg
    split at hg <;> rw [List.mem_singleton] at hg <;> subst hg <;>
      constructor <;> intro x hx <;> simp at hx <;> try exact hx.symm ▸ he
  | cons gm m ih =>
    intro hm g hg
    obtain ⟨k, vs, ts⟩ := gm
    unfold insertGrouped at hg
    split at hg
    · rcases List.mem_cons.mp hg with h | h
      · subst h
        have hk := hm (k, vs, ts) (List.mem_cons_self _ _)
        split <;> constructor <;> intro x hx
        · exact hk.1 x hx
        · rcases List.mem_append.mp hx with h' | h'
          · exact hk.2 x h'
          · rw [List.mem_singleton] at h'; exact h' ▸ he
        · rcases List.mem_append.mp hx with h' | h'
          · exact hk.1 x h'
          · rw [List.mem_singleton] at h'; exact h' ▸ he
        · exact hk.2 x hx
      · exact hm g (List.mem_cons_of_mem _ h)
    · rcases List.mem_cons.mp hg with h | h
      · subst h; exact hm (k, vs, ts) (List.mem_cons_self _ _)
      · exact ih (fun g' hg' => hm g' (List.mem_cons_of_mem _ hg')) g h

theorem groupBySource_pres (P : ExportInfo → Prop) :
    ∀ (l : List ExportInfo) (m : List (String × List ExportInfo × List ExportInfo)),
      (∀ e ∈ l, P e) → (∀ g ∈ m, (∀ x ∈ g.2.1, P x) ∧ (∀ x ∈ g.2.2, P x)) →
      ∀ g ∈ l.foldl insertGrouped m, (∀ x ∈ g.2.1, P x) ∧ (∀ x ∈ g.2.2, P x) := by
  intro l
  induction l with
  | nil => intro m _ hm; simpa using hm
  | cons e es ih =>
    intro m hl hm
    simp only [List.foldl_cons]
    exact ih _ (fun x hx => hl x (List.mem_cons_of_mem e hx))
      (insertGrouped_pres P e (hl e (List.mem_cons_self e es)) m hm)

theorem genValueExports_eq_nil (exps : List ExportInfo) (src : String)
    (h : ∀ e ∈ exps, e.export_type ≠ "named" ∧ e.export_type ≠ "default" ∧
      e.export_type ≠ "namespace") :
    genValueExports exps src = [] := by
  have h1 : exps.filter isNsK = [] :=
    List.filter_eq_nil_iff.mpr (fun a ha => by simp [isNsK]; exact (h a ha).2.2)
  have h2 : exps.filter isDefaultK = [] :=
    List.filter_eq_nil_iff.mpr (fun a ha => by simp [isDefaultK]; exact (h a ha).2.1)
  have h3 : exps.filter isNamedK = [] :=
    List.filter_eq_nil_iff.mpr (fun a ha => by simp [isNamedK]; exact (h a ha).1)
  rw [genValueExports_eq, h1, h2, h3]
  simp

theorem genTypeExports_eq_nil (exps : List ExportInfo) (src : String)
    (h : ∀ e ∈ exps, e.export_type ≠ "named" ∧ e.export_type ≠ "default" ∧
      e.export_type ≠ "namespace") :
    genTypeExports exps src = [] := by
  have h1 : exps.filter isNsK = [] :=
    List.filter_eq_nil_iff.mpr (fun a ha => by simp [isNsK]; exact (h a ha).2.2)
  have h2 : exps.filter isDefaultK = [] :=
    List.filter_eq_nil_iff.mpr (fun a ha => by simp [isDefaultK]; exact (h a ha).2.1)
  have h3 : exps.filter isNamedK = [] :=
    List.filter_eq_nil_iff.mpr (fun a ha => by simp [isNamedK]; exact (h a ha).1)
  rw [genTypeExports_eq, h1, h2, h3]
  simp

theorem foldl_groups_nil (groups : List (String × List ExportInfo × List ExportInfo))
    (h : ∀ g ∈ groups,
      genValueExports g.2.1 g.1 = [] ∧ genTypeExports g.2.2 g.1 = []) :
    groups.foldl
      (fun acc g => acc ++ genValueExports g.2.1 g.1 ++ genTypeExports g.2.2 g.1) []
      = [] := by
  induction groups with
  | nil => rfl
  | cons g gs ih =>
    simp only [List.foldl_cons, (h g (List.mem_cons_self _ _)).1,
      (h g (List.mem_cons_self _ _)).2, List.append_nil]
    exact ih (fun g' hg' => h g' (List.mem_cons_of_mem _ hg'))

/-! ## Parser kind lemmas -/

theorem parse_line_kinds (l : List Char) (n : Nat) :
    ∀ e ∈ parse_line l n,
      e.export_type = "named" ∨ e.export_type = "default" ∨
        e.export_type = "namespace" := by
  intro e he
  simp only [parse_line] at he
  split at he
  · exact absurd he (List.not_mem_nil e)
  · split at he
    · obtain ⟨p, _, rfl⟩ := List.mem_map.mp he
      exact Or.inl rfl
    · split at he
      · rw [List.mem_singleton] at he; subst he; exact Or.inr (Or.inl rfl)
      · split at he
        · rw [List.mem_singleton] at he; subst he; exact Or.inr (Or.inr rfl)
        · exact absurd he (List.not_mem_nil e)

theorem parseAll_mem_kinds :
    ∀ (ls : List (List Char)) (i : Nat) (e : ExportInfo), e ∈ parseAll i ls →
      e.export_type = "named" ∨ e.export_type = "default" ∨
        e.export_type = "namespace" := by
  intro ls
  induction ls with
  | nil => intro i e he; exact absurd he (List.not_mem_nil e)
  | cons l ls ih =>
    intro i e he
    simp only [parseAll] at he
    rcases List.mem_append.mp he with h | h
    · exact parse_line_kinds l i e h
    · exact ih (i + 1) e h

/-! ## Claim theorems (C1, C2, C4 - C10) -/

/-- C1 counterexample: for the input line
`export { default as App } from "./App";` the parser emits one record of kind
`named` with specifier `"default as App"` — not, as claimed, a record of kind
`Default` with specifier `"App"`. -/
theorem c1_counterexample :
    parse_exports "export \x7b default as App \x7d from \"./App\";"
      = Except.ok [⟨"default as App", "./App", "named", false, 1⟩]
    ∧ ("named" : String) ≠ "default" ∧ ("default as App" : String) ≠ "App" :=
  ⟨rfl, by decide, by decide⟩

/-- C1 (amended): for the input line
`export { default as App } from "./App";` the parser emits exactly one record
of kind `named` whose specifier is the trimmed brace text `"default as App"`;
a default-export form line is captured by the named-export pattern, which is
tried first, so it yields a single `named` record whose specifier is the
literal brace content (`"default"` when no alias is given). -/
theorem c1_default_line_parses_as_named :
    parse_exports "export \x7b default as App \x7d from \"./App\";"
      = Except.ok [⟨"default as App", "./App", "named", false, 1⟩]
    ∧ parse_exports "export \x7b default \x7d from \"./App\";"
      = Except.ok [⟨"default", "./App", "named", false, 1⟩]
    ∧ parse_exports "export type \x7b default as T \x7d from \"./t\";"
      = Except.ok [⟨"default as T", "./t", "named", true, 1⟩] :=
  ⟨rfl, rfl, rfl⟩

/-- C2 counterexample: the two records below have different field tuples
(`export_type` differs), yet the second is dropped as a duplicate of the
first, because the colon-joined keys `"named:a:b:c:false"` coincide.  So
records are not dropped "iff the four fields are all equal". -/
theorem c2_counterexample :
    remove_duplicates
        [⟨"a:b", "c", "named", false, 1⟩, ⟨"b", "c", "named:a", false, 2⟩]
      = [⟨"a:b", "c", "named", false, 1⟩]
    ∧ (ExportInfo.mk "a:b" "c" "named" false 1).export_type
        ≠ (ExportInfo.mk "b" "c" "named:a" false 2).export_type :=
  ⟨rfl, by decide⟩

/-- C2 (amended): deduplication is an order-preserving stable filter on the
colon-joined key string `export_type:specifier:origin:is_type_only`
(`dedupKey`): it keeps exactly the first occurrence of each distinct key
(`specDedup`), is a sublist of the input (order-preserving, `source_line`
never participates), and its keys are the first-seen distinct keys, so the
output length is the number of distinct keys.  Key equality coincides with
four-field equality except when colons in the fields make distinct tuples
collide. -/
theorem c2_dedup_stable_filter_by_key (l : List ExportInfo) :
    remove_duplicates l = specDedup l
    ∧ List.Sublist (remove_duplicates l) l
    ∧ (remove_duplicates l).map dedupKey = specKeys (l.map dedupKey)
    ∧ (remove_duplicates l).length = (specKeys (l.map dedupKey)).length := by
  refine ⟨remove_duplicates_eq_specDedup l, ?_, ?_, ?_⟩
  · rw [remove_duplicates_eq_specDedup]; exact specDedup_sublist l
  · rw [remove_duplicates_eq_specDedup]; exact specDedup_keys l
  · rw [← specDedup_keys, ← remove_duplicates_eq_specDedup, List.length_map]

/-- C4: within a group the reconstructor emits the value pass before the type
pass, and within each pass: namespace statements (one line per record, in
record order), then default statements (one line per record), then at most
one combined named line joining the specifiers with `", "` in record order,
omitted when the pass has no named records.  As the right-hand side is a
function of the filtered record sequences only, any two inputs with the same
per-group record sequences emit byte-identical statements. -/
theorem c4_canonical_group_statement_order (src : String)
    (vals types : List ExportInfo) :
    genValueExports vals src ++ genTypeExports types src
      = ((vals.filter isNsK).map (nsStmtV src)
          ++ (vals.filter isDefaultK).map (defStmtV src)
          ++ (if (vals.filter isNamedK).isEmpty then []
              else [namedStmtV src ((vals.filter isNamedK).map (fun e => e.specifier))]))
        ++ ((types.filter isNsK).map (nsStmtT src)
          ++ (types.filter isDefaultK).map (defStmtT src)
          ++ (if (types.filter isNamedK).isEmpty then []
              else [namedStmtT src ((types.filter isNamedK).map (fun e => e.specifier))])) := by
  rw [genValueExports_eq, genTypeExports_eq]

/-- C5: the parsing stage never fails: for every input text the fallible
signature returns `Ok`; its error branch is structurally unreachable. -/
theorem c5_parse_never_fails (source : String) :
    (parse_exports source).isOk = true := rfl

/-- C6 counterexample: the default branch of the parser is reachable: on this
line the named pattern's only match has an all-empty specifier list, so the
named parse fails, and the default pattern then matches later in the line,
producing a record of kind `default` — refuting the claim that every record
has kind `named` or `namespace`. -/
theorem c6_counterexample :
    parse_exports
        "export \x7b  \x7d from \"m\"; export \x7b default as App \x7d from \"./App\";"
      = Except.ok [⟨"App", "./App", "default", false, 1⟩]
    ∧ ("default" : String) ≠ "named" ∧ ("default" : String) ≠ "namespace" :=
  ⟨rfl, by decide, by decide⟩

/-- C6 (amended): every record the parser produces has kind `named`,
`default` or `namespace`.  Records of kind `default` can be produced (the
default branch is not dead code): this happens exactly when the named
pattern yields no usable specifier while the default pattern matches, as the
counterexample shows. -/
theorem c6_parser_kind_invariant (source : String) (e : ExportInfo)
    (he : e ∈ parsedRecords source) :
    e.export_type = "named" ∨ e.export_type = "default" ∨
      e.export_type = "namespace" :=
  parseAll_mem_kinds _ _ _ he

theorem c6_witness :
    (ExportInfo.mk "A" "m" "named" false 1).export_type = "named"
    ∨ (ExportInfo.mk "A" "m" "named" false 1).export_type = "default"
    ∨ (ExportInfo.mk "A" "m" "named" false 1).export_type = "namespace" :=
  c6_parser_kind_invariant "export \x7b A \x7d from \"m\";" _ (by decide)

/-- C7: the returned text of `process` does not depend on `verbose`,
`convert_namespace_to_named` or `resolve_barrel_exports`: any two
configurations that agree on the remaining fields (`optimize`, `sort`,
`remove_duplicates`) produce identical results on every input. -/
theorem c7_output_independent_of_unused_flags
    (o1 o2 : BarrelLoaderOptions) (source file_path : String)
    (_hopt : o1.optimize = o2.optimize) (hsort : o1.sort = o2.sort)
    (hdup : o1.remove_duplicates = o2.remove_duplicates) :
    process o1 source file_path = process o2 source file_path := by
  unfold process
  rw [hsort, hdup]

theorem c7_witness :
    process { verbose := some true, convert_namespace_to_named := some true,
              resolve_barrel_exports := some true }
        "export \x7b A \x7d from \"m\";" "index.ts"
      = process {} "export \x7b A \x7d from \"m\";" "index.ts" :=
  c7_output_independent_of_unused_flags _ _ _ _ rfl rfl rfl

/-- C8: `is_barrel_file` returns true iff the path's final component
(basename, with empty and `.` segments normalized away and no basename for
directory-only paths such as roots or paths ending in `..`) is exactly one of
the four recognized names; the right-hand side depends only on the basename,
so the property holds regardless of directory depth or absence of one, and
the comparison is case-sensitive string equality. -/
theorem c8_is_barrel_iff_basename (p : String) :
    is_barrel_file p = true ↔
      (rsFileName p = some "index.ts" ∨ rsFileName p = some "index.js" ∨
       rsFileName p = some "index.tsx" ∨ rsFileName p = some "index.jsx") := by
  unfold is_barrel_file
  cases h : rsFileName p with
  | none => simp
  | some n =>
    simp only [Option.some.injEq, Bool.or_eq_true, beq_iff_eq]
    tauto

theorem c8_witness :
    is_barrel_file "/path/to/index.ts" = true
    ∧ is_barrel_file "deep/a/b/index.jsx" = true
    ∧ is_barrel_file "index.tsx" = true
    ∧ is_barrel_file "/path/to/Index.ts" = false
    ∧ is_barrel_file ".." = false ∧ is_barrel_file "" = false :=
  ⟨(c8_is_barrel_iff_basename _).mpr (Or.inl rfl),
   (c8_is_barrel_iff_basename _).mpr (Or.inr (Or.inr (Or.inr rfl))),
   (c8_is_barrel_iff_basename _).mpr (Or.inr (Or.inr (Or.inl rfl))),
   by decide, by decide, by decide⟩

/-- C9: for every configuration and every source text, a path that is not
classified as a barrel makes `process` return the input unchanged. -/
theorem c9_non_barrel_identity (opts : BarrelLoaderOptions)
    (source file_path : String) (h : is_barrel_file file_path = false) :
    process opts source file_path = Except.ok source := by
  simp [process, h]

theorem c9_witness :
    process { sort := some true, remove_duplicates := some false }
        "export \x7b A \x7d from \"m\";\nexport \x7b A \x7d from \"m\";"
        "/x/component.ts"
      = Except.ok "export \x7b A \x7d from \"m\";\nexport \x7b A \x7d from \"m\";" :=
  c9_non_barrel_identity _ _ _ rfl

/-- C10: when `reconstruct_source` receives a non-empty record list in which
no record has one of the three recognized kinds, every record is silently
dropped; if additionally the original text has no preserved leading lines the
result is the empty string (no trailing blank line). -/
theorem c10_unrecognized_kinds_dropped (orig : String) (recs : List ExportInfo)
    (hne : recs ≠ [])
    (hk : ∀ r ∈ recs, r.export_type ≠ "named" ∧ r.export_type ≠ "default" ∧
      r.export_type ≠ "namespace")
    (hp : preservedPrefix (rustLines orig.data) = []) :
    reconstruct_source orig recs = "" := by
  have hgroups := groupBySource_pres
    (fun r => r.export_type ≠ "named" ∧ r.export_type ≠ "default" ∧
      r.export_type ≠ "namespace") recs [] hk (by simp)
  have hfold : (groupBySource recs).foldl
      (fun acc g => acc ++ genValueExports g.2.1 g.1 ++ genTypeExports g.2.2 g.1) []
      = [] := by
    refine foldl_groups_nil _ (fun g hg => ⟨?_, ?_⟩)
    · exact genValueExports_eq_nil _ _ (fun e he => (hgroups g hg).1 e he)
    · exact genTypeExports_eq_nil _ _ (fun e he => (hgroups g hg).2 e he)
  simp only [reconstruct_source, groupBySource] at hfold ⊢
  rw [if_neg (by simpa [List.isEmpty_iff] using hne), hp, hfold]
  rfl

theorem c10_witness :
    reconstruct_source "" [⟨"X", "m", "weird", false, 1⟩] = "" :=
  c10_unrecognized_kinds_dropped "" _ (by decide) (by decide) rfl

/-! ## Basic lemmas for the matcher analysis -/

theorem stripLit_eq_some {l cs cs' : List Char} :
    stripLit l cs = some cs' ↔ cs = l ++ cs' := by
  induction l generalizing cs with
  | nil => simp [stripLit, eq_comm]
  | cons a l ih =>
    cases cs with
    | nil => simp [stripLit]
    | cons c cs =>
      by_cases h : c = a
      · subst h; simp [stripLit, ih]
      · simp [stripLit, h]

theorem stripLit_self_append (l rest : List Char) :
    stripLit l (l ++ rest) = some rest :=
  stripLit_eq_some.mpr rfl

theorem takeWhile_append_stop {p : Char → Bool} (a : List Char) (b0 : Char)
    (bs : List Char) (ha : ∀ c ∈ a, p c = true) (hb : p b0 = false) :
    (a ++ b0 :: bs).takeWhile p = a ∧ (a ++ b0 :: bs).dropWhile p = b0 :: bs := by
  induction a with
  | nil => simp [List.takeWhile_cons, List.dropWhile_cons, hb]
  | cons x a ih =>
    have hx : p x = true := ha x (List.mem_cons_self _ _)
    have := ih (fun c hc => ha c (List.mem_cons_of_mem _ hc))
    simp [List.takeWhile_cons, List.dropWhile_cons, hx, this]

theorem dropWhile_cons_neg {p : Char → Bool} {c : Char} (cs : List Char)
    (h : p c = false) : (c :: cs).dropWhile p = c :: cs := by
  simp [List.dropWhile_cons, h]

theorem ws1_space (cs : List Char) (c : Char) (hc : rsIsWs c = false) :
    ws1 (' ' :: c :: cs) = some (c :: cs) := by
  simp [ws1, rsIsWs, dropWhile_cons_neg _ hc]

/-! ## splitOnChar lemmas -/

theorem splitOnChar_ne_nil (sep : Char) (cs : List Char) :
    splitOnChar sep cs ≠ [] := by
  cases cs with
  | nil => simp [splitOnChar]
  | cons c cs =>
    simp only [splitOnChar]
    cases h : splitOnChar sep cs with
    | nil => simp
    | cons g gs => by_cases hc : c = sep <;> simp [hc]

theorem splitOnChar_no_sep (sep : Char) (cs : List Char) (h : sep ∉ cs) :
    splitOnChar sep cs = [cs] := by
  induction cs with
  | nil => rfl
  | cons c cs ih =>
    have hc : c ≠ sep := fun hc => h (hc ▸ List.mem_cons_self _ _)
    have := ih (fun hm => h (List.mem_cons_of_mem _ hm))
    simp [splitOnChar, this, hc]

theorem splitOnChar_append_sep (sep : Char) (a b : List Char) (h : sep ∉ a) :
    splitOnChar sep (a ++ sep :: b) = a :: splitOnChar sep b := by
  induction a with
  | nil => simp [splitOnChar]; cases hb : splitOnChar sep b with
    | nil => exact absurd hb (splitOnChar_ne_nil sep b)
    | cons g gs => simp
  | cons c a ih =>
    have hc : c ≠ sep := fun hc => h (hc ▸ List.mem_cons_self _ _)
    have h2 := ih (fun hm => h (List.mem_cons_of_mem _ hm))
    simp only [List.cons_append, splitOnChar, List.append_eq, h2, hc, if_false]

/-! ## Trim lemmas -/

theorem dropWhile_head?_false {p : Char → Bool} :
    ∀ (l : List Char) (c : Char), (l.dropWhile p).head? = some c → p c = false := by
  intro l
  induction l with
  | nil => intro c h; simp at h
  | cons x xs ih =>
    intro c h
    rw [List.dropWhile_cons] at h
    by_cases hp : p x = true
    · rw [if_pos hp] at h; exact ih c h
    · rw [if_neg hp] at h
      simp only [List.head?_cons, Option.some.injEq] at h
      subst h
      simpa using hp

theorem dropWhile_append_all {p : Char → Bool} :
    ∀ (a b : List Char), (∀ c ∈ a, p c = true) →
      (a ++ b).dropWhile p = b.dropWhile p := by
  intro a
  induction a with
  | nil => simp
  | cons x xs ih =>
    intro b h
    simp [List.dropWhile_cons, h x (List.mem_cons_self _ _),
      ih b fun c hc => h c (List.mem_cons_of_mem _ hc)]

theorem rsTrim_head? (l : List Char) (c : Char) (h : (rsTrim l).head? = some c) :
    rsIsWs c = false := by
  unfold rsTrim at h
  rw [List.head?_reverse] at h
  set r := (l.dropWhile rsIsWs).reverse.dropWhile rsIsWs with hr
  rcases hrn : r with _ | ⟨x, xs⟩
  · rw [hrn] at h; simp at h
  · have hsuf : r <:+ (l.dropWhile rsIsWs).reverse := by
      rw [hr]; exact List.dropWhile_suffix _
    rw [hrn] at hsuf h
    obtain ⟨u, hu⟩ := hsuf
    have hlast : (x :: xs).getLast? = ((l.dropWhile rsIsWs).reverse).getLast? := by
      rw [← hu]
      exact (List.getLast?_append_of_ne_nil u (by simp)).symm
    rw [List.getLast?_reverse] at hlast
    rw [h] at hlast
    exact dropWhile_head?_false l c hlast.symm

theorem rsTrim_getLast? (l : List Char) (c : Char)
    (h : (rsTrim l).getLast? = some c) : rsIsWs c = false := by
  unfold rsTrim at h
  rw [List.getLast?_reverse] at h
  exact dropWhile_head?_false _ c h

theorem rsTrim_eq_self (l : List Char)
    (hh : ∀ c, l.head? = some c → rsIsWs c = false)
    (hl : ∀ c, l.getLast? = some c → rsIsWs c = false) :
    rsTrim l = l := by
  unfold rsTrim
  have h1 : l.dropWhile rsIsWs = l := by
    cases l with
    | nil => rfl
    | cons x xs => exact dropWhile_cons_neg _ (hh x rfl)
  rw [h1]
  have h2 : l.reverse.dropWhile rsIsWs = l.reverse := by
    rcases hrev : l.reverse with _ | ⟨x, xs⟩
    · rfl
    · refine dropWhile_cons_neg _ (hl x ?_)
      rw [← List.head?_reverse, hrev]
      rfl
  rw [h2, List.reverse_reverse]

theorem rsTrim_idem (l : List Char) : rsTrim (rsTrim l) = rsTrim l :=
  rsTrim_eq_self _ (rsTrim_head? l) (rsTrim_getLast? l)

theorem rsTrim_pad (wl s wr : List Char)
    (hwl : ∀ c ∈ wl, rsIsWs c = true) (hwr : ∀ c ∈ wr, rsIsWs c = true)
    (hs : rsTrim s = s) :
    rsTrim (wl ++ s ++ wr) = s := by
  rcases hsn : s with _ | ⟨x, xs⟩
  · subst hsn
    unfold rsTrim
    have h1 : (wl ++ ([] : List Char) ++ wr).dropWhile rsIsWs = [] := by
      rw [List.dropWhile_eq_nil_iff]
      intro c hc
      rcases List.mem_append.mp hc with h | h
      · exact hwl c (by simpa using h)
      · exact hwr c h
    rw [h1]
    rfl
  · subst hsn
    unfold rsTrim
    have hx : rsIsWs x = false := by
      have h := rsTrim_head? (x :: xs) x
      rw [hs] at h
      exact h rfl
    have hd1 : (wl ++ (x :: xs) ++ wr).dropWhile rsIsWs = x :: (xs ++ wr) := by
      rw [List.append_assoc, dropWhile_append_all wl _ hwl, List.cons_append]
      exact dropWhile_cons_neg _ hx
    rw [hd1]
    have hy : rsIsWs ((x :: xs).getLast (by simp)) = false := by
      have h := rsTrim_getLast? (x :: xs) ((x :: xs).getLast (by simp))
      rw [hs] at h
      exact h (List.getLast?_eq_getLast _ _)
    have hrw : (x :: (xs ++ wr)) = (x :: xs) ++ wr := by simp
    rw [hrw, List.reverse_append]
    rw [dropWhile_append_all wr.reverse _ (fun c hc => hwr c (List.mem_reverse.mp hc))]
    rcases hrev : (x :: xs).reverse with _ | ⟨z, zs⟩
    · exact absurd hrev (by simp)
    · have hz : (x :: xs).getLast? = some z := by
        rw [← List.head?_reverse, hrev]; rfl
      rw [List.getLast?_eq_getLast _ (by simp)] at hz
      have hzws : rsIsWs z = false := by
        rw [Option.some.injEq] at hz
        exact hz ▸ hy
      rw [dropWhile_cons_neg _ hzws, ← hrev, List.reverse_reverse]

/-! ## Prefix, substring and infix lemmas -/

theorem isPrefixL_iff {p s : List Char} : isPrefixL p s = true ↔ p <+: s := by
  induction p generalizing s with
  | nil => simp [isPrefixL]
  | cons a p ih =>
    cases s with
    | nil => simp [isPrefixL]
    | cons c cs => simp [isPrefixL, ih, List.cons_prefix_cons]

theorem containsSub_iff {t s : List Char} : containsSub t s = true ↔ t <:+: s := by
  induction s with
  | nil =>
    simp [containsSub, isPrefixL_iff]
  | cons c cs ih =>
    simp [containsSub, isPrefixL_iff, ih, List.infix_cons_iff]

theorem infix_append_split {t a b : List Char} (h : t <:+: a ++ b) :
    t <:+: a ∨ t <:+: b ∨
      ∃ t1 t2, t = t1 ++ t2 ∧ t1 ≠ [] ∧ t2 ≠ [] ∧ t1 <:+ a ∧ t2 <+: b := by
  obtain ⟨p, q, hpq⟩ := h
  have hpq' : p ++ (t ++ q) = a ++ b := by simpa [List.append_assoc] using hpq
  rcases List.append_eq_append_iff.mp hpq' with ⟨w, hw1, hw2⟩ | ⟨z, hz1, hz2⟩
  · rcases List.append_eq_append_iff.mp hw2 with ⟨x, hx1, hx2⟩ | ⟨y, hy1, hy2⟩
    · left
      exact ⟨p, x, by rw [hw1, hx1, List.append_assoc]⟩
    · rcases hyn : y with _ | ⟨y0, ys⟩
      · subst hyn
        left
        rw [List.append_nil] at hy1
        exact ((hy1 ▸ hw1 ▸ List.suffix_append p w).isInfix)
      · rcases hwn : w with _ | ⟨w0, ws⟩
        · subst hwn
          right; left
          rw [List.nil_append] at hy1
          exact ⟨[], q, by rw [hy2, hy1, List.nil_append]⟩
        · right; right
          refine ⟨w, y, hy1, by simp [hwn], by simp [hyn], ?_, ⟨q, hy2.symm⟩⟩
          exact hw1 ▸ List.suffix_append p w
  · right; left
    exact ⟨z, q, by rw [hz2, List.append_assoc]⟩

theorem split_concrete {t t1 t2 : List Char} (h : t = t1 ++ t2) :
    t1 = t.take t1.length ∧ t2 = t.drop t1.length := by
  subst h
  simp

theorem suffix_cons_append_cases {x : Char} {v a b : List Char}
    (h : (x :: v) <:+ (a ++ b)) :
    (x :: v) <:+ b ∨ ∃ a', (x :: a') <:+ a ∧ v = a' ++ b := by
  obtain ⟨u, hu⟩ := h
  rcases List.append_eq_append_iff.mp hu with ⟨w, hw1, hw2⟩ | ⟨z, hz1, hz2⟩
  · rcases hwn : w with _ | ⟨w0, ws⟩
    · subst hwn
      left
      rw [List.append_nil] at hw1
      exact hw2 ▸ List.suffix_refl b
    · subst hwn
      right
      have hx : w0 = x := by
        have := congrArg List.head? hw2
        simpa using this.symm
      subst hx
      refine ⟨ws, hw1 ▸ List.suffix_append u (w0 :: ws), ?_⟩
      have := congrArg List.tail hw2
      simpa using this
  · left
    exact ⟨z, hz2.symm⟩

/-! ## Matcher step inversions -/

def countQ (cs : List Char) : Nat := cs.countP isQuote

theorem countQ_suffix_le {t s : List Char} (h : t <:+ s) : countQ t ≤ countQ s := by
  obtain ⟨u, hu⟩ := h
  subst hu
  simp [countQ, List.countP_append]

theorem ws1_suffix {cs cs' : List Char} (h : ws1 cs = some cs') : cs' <:+ cs := by
  cases cs with
  | nil => simp [ws1] at h
  | cons c cs =>
    by_cases hc : rsIsWs c
    · simp only [ws1, if_pos hc, Option.some.injEq] at h
      subst h
      exact (List.dropWhile_suffix _).trans (List.suffix_cons c cs)
    · simp [ws1, hc] at h

theorem typeOpt_suffix (cs : List Char) : typeOpt cs <:+ cs := by
  simp only [typeOpt]
  cases h : stripLit typeChars cs with
  | none => exact List.suffix_refl cs
  | some cs2 =>
    simp only []
    cases h2 : ws1 cs2 with
    | none => exact List.suffix_refl cs
    | some cs3 =>
      have h1 : cs = typeChars ++ cs2 := stripLit_eq_some.mp h
      exact (ws1_suffix h2).trans (h1 ▸ List.suffix_append typeChars cs2)

theorem expectChar_eq_some {c : Char} {cs cs' : List Char} :
    expectChar c cs = some cs' ↔ cs = c :: cs' := by
  cases cs with
  | nil => simp [expectChar]
  | cons x xs =>
    by_cases h : x = c
    · subst h; simp [expectChar]
    · simp [expectChar, h, List.cons.injEq, Ne.symm h]

theorem expectQuote_some {cs cs' : List Char} (h : expectQuote cs = some cs') :
    ∃ q, isQuote q = true ∧ cs = q :: cs' := by
  cases cs with
  | nil => simp [expectQuote] at h
  | cons x xs =>
    by_cases hq : isQuote x
    · simp only [expectQuote, if_pos hq, Option.some.injEq] at h
      exact ⟨x, hq, by rw [h]⟩
    · simp [expectQuote, hq] at h

theorem quotedSource_inv {cs src : List Char} (h : quotedSource cs = some src) :
    2 ≤ countQ cs ∧ src ≠ [] ∧ (∀ c ∈ src, isQuote c = false) ∧ src <:+: cs := by
  unfold quotedSource at h
  cases hq : expectQuote cs with
  | none => simp [hq] at h
  | some cs10 =>
    simp only [hq, Option.some_bind] at h
    by_cases hemp : cs10.takeWhile (fun c => !(isQuote c)) = []
    · simp [hemp] at h
    · simp only [hemp, if_false] at h
      cases hq2 : expectQuote (cs10.dropWhile fun c => !(isQuote c)) with
      | none => simp [hq2] at h
      | some rest =>
        simp only [hq2, Option.some_bind, Option.some.injEq] at h
        obtain ⟨q, hqt, hcs⟩ := expectQuote_some hq
        obtain ⟨q2, hqt2, hcs2⟩ := expectQuote_some hq2
        subst hcs
        refine ⟨?_, ?_, ?_, ?_⟩
        · have hd : (q2 :: rest) <:+ cs10 := hcs2 ▸ List.dropWhile_suffix _
          have := countQ_suffix_le hd
          simp only [countQ, List.countP_cons, hqt, hqt2, if_pos] at *
          omega
        · rw [← h]; exact hemp
        · intro c hc
          rw [← h] at hc
          have := List.mem_takeWhile_imp hc
          simpa using this
        · rw [← h]
          exact ((List.takeWhile_prefix _).isInfix).trans
            (List.infix_cons (List.infix_refl cs10))

theorem fromSource_inv {cs src : List Char} (h : fromSource cs = some src) :
    2 ≤ countQ cs ∧ src ≠ [] ∧ (∀ c ∈ src, isQuote c = false) ∧ src <:+: cs := by
  unfold fromSource at h
  cases h1 : stripLit fromChars cs with
  | none => simp [h1] at h
  | some cs8 =>
    simp only [h1, Option.some_bind] at h
    cases h2 : ws1 cs8 with
    | none => simp [h2] at h
    | some cs9 =>
      simp only [h2, Option.some_bind] at h
      obtain ⟨hcnt, hne, hqf, hinf⟩ := quotedSource_inv h
      have hsuf : cs9 <:+ cs := by
        have hc8 : cs8 <:+ cs := (stripLit_eq_some.mp h1) ▸ List.suffix_append _ _
        exact (ws1_suffix h2).trans hc8
      refine ⟨le_trans hcnt (countQ_suffix_le hsuf), hne, hqf,
        hinf.trans hsuf.isInfix⟩

theorem suffix_of_stripLit {l cs cs' : List Char} (h : stripLit l cs = some cs') :
    cs' <:+ cs :=
  (stripLit_eq_some.mp h) ▸ List.suffix_append l cs'

theorem matchNamedAt_needs {cs : List Char} {r : List Char × List Char}
    (h : matchNamedAt cs = some r) :
    ∃ u v, cs = u ++ lb :: v ∧ 2 ≤ countQ v := by
  unfold matchNamedAt at h
  cases h1 : stripLit exportChars cs with
  | none => simp [h1] at h
  | some cs1 =>
    simp only [h1, Option.some_bind] at h
    cases h2 : ws1 cs1 with
    | none => simp [h2] at h
    | some cs2 =>
      simp only [h2, Option.some_bind] at h
      cases h3 : expectChar lb (typeOpt cs2) with
      | none => simp [h3] at h
      | some cs4 =>
        simp only [h3, Option.some_bind] at h
        by_cases hemp : cs4.takeWhile (fun c => !(c == rb)) = []
        · simp [hemp] at h
        · rw [if_neg hemp] at h
          cases h4 : expectChar rb (cs4.dropWhile fun c => !(c == rb)) with
          | none => simp [h4] at h
          | some cs6 =>
            simp only [h4, Option.some_bind] at h
            cases h5 : ws1 cs6 with
            | none => simp [h5] at h
            | some cs7 =>
              simp only [h5, Option.some_bind] at h
              cases h6 : fromSource cs7 with
              | none => simp [h6] at h
              | some src =>
                have hq := (fromSource_inv h6).1
                have hs7 : cs7 <:+ cs4 := by
                  have hs5 : (cs4.dropWhile fun c => !(c == rb)) <:+ cs4 :=
                    List.dropWhile_suffix _
                  have h4' := expectChar_eq_some.mp h4
                  have hc6 : cs6 <:+ cs4 := by
                    rw [h4'] at hs5
                    exact (List.suffix_cons rb cs6).trans hs5
                  exact (ws1_suffix h5).trans hc6
                have hlb : (lb :: cs4) <:+ cs := by
                  have h3' := expectChar_eq_some.mp h3
                  have : (lb :: cs4) <:+ cs2 := h3' ▸ typeOpt_suffix cs2
                  exact (this.trans (ws1_suffix h2)).trans (suffix_of_stripLit h1)
                obtain ⟨u, hu⟩ := hlb
                exact ⟨u, cs4, hu.symm, le_trans hq (countQ_suffix_le hs7)⟩

theorem matchDefaultAt_needs {cs : List Char} {r : Option (List Char) × List Char}
    (h : matchDefaultAt cs = some r) :
    ∃ u v, cs = u ++ lb :: v ∧ 2 ≤ countQ v := by
  unfold matchDefaultAt at h
  cases h1 : stripLit exportChars cs with
  | none => simp [h1] at h
  | some cs1 =>
    simp only [h1, Option.some_bind] at h
    cases h2 : ws1 cs1 with
    | none => simp [h2] at h
    | some cs2 =>
      simp only [h2, Option.some_bind] at h
      cases h3 : expectChar lb (typeOpt cs2) with
      | none => simp [h3] at h
      | some cs3 =>
        simp only [h3, Option.some_bind] at h
        cases hd : stripLit defaultChars (cs3.dropWhile rsIsWs) with
        | none => simp [hd] at h
        | some cs4 =>
          simp only [hd, Option.some_bind] at h
          have hlb : (lb :: cs3) <:+ cs := by
            have h3' := expectChar_eq_some.mp h3
            have : (lb :: cs3) <:+ cs2 := h3' ▸ typeOpt_suffix cs2
            exact (this.trans (ws1_suffix h2)).trans (suffix_of_stripLit h1)
          obtain ⟨u, hu⟩ := hlb
          have hc4 : cs4 <:+ cs3 :=
            (suffix_of_stripLit hd).trans (List.dropWhile_suffix _)
          have key : ∃ cs7 src, fromSource cs7 = some src ∧ cs7 <:+ cs3 := by
            cases ha : stripLit asChars (cs4.dropWhile rsIsWs) with
            | none =>
              rw [ha] at h
              cases h4 : expectChar rb (cs4.dropWhile rsIsWs) with
              | none => simp [h4] at h
              | some cs6 =>
                simp only [h4, Option.some_bind] at h
                cases h5 : ws1 cs6 with
                | none => simp [h5] at h
                | some cs7 =>
                  simp only [h5, Option.some_bind] at h
                  cases h6 : fromSource cs7 with
                  | none => simp [h6] at h
                  | some src =>
                    refine ⟨cs7, src, h6, ?_⟩
                    have h4' := expectChar_eq_some.mp h4
                    have hc6 : cs6 <:+ cs4 := by
                      have := List.dropWhile_suffix (p := rsIsWs) (l := cs4)
                      rw [h4'] at this
                      exact (List.suffix_cons rb cs6).trans this
                    exact ((ws1_suffix h5).trans hc6).trans hc4
            | some csA =>
              rw [ha] at h
              cases hB : ws1 csA with
              | none => simp [hB] at h
              | some csB =>
                simp only [hB, Option.some_bind] at h
                by_cases hw : csB.takeWhile isWordChar = []
                · simp [hw] at h
                · rw [if_neg hw] at h
                  cases h4 : expectChar rb ((csB.dropWhile isWordChar).dropWhile rsIsWs) with
                  | none => simp [h4] at h
                  | some cs6 =>
                    simp only [h4, Option.some_bind] at h
                    cases h5 : ws1 cs6 with
                    | none => simp [h5] at h
                    | some cs7 =>
                      simp only [h5, Option.some_bind] at h
                      cases h6 : fromSource cs7 with
                      | none => simp [h6] at h
                      | some src =>
                        refine ⟨cs7, src, h6, ?_⟩
                        have hcA : csA <:+ cs4 :=
                          (suffix_of_stripLit ha).trans (List.dropWhile_suffix _)
                        have hcB : csB <:+ csA := ws1_suffix hB
                        have h4' := expectChar_eq_some.mp h4
                        have hdd : ((csB.dropWhile isWordChar).dropWhile rsIsWs) <:+ csB :=
                          (List.dropWhile_suffix _).trans (List.dropWhile_suffix _)
                        have hc6 : cs6 <:+ csB := by
                          rw [h4'] at hdd
                          exact ((List.suffix_cons rb cs6).trans hdd)
                        exact ((((ws1_suffix h5).trans hc6).trans hcB).trans hcA).trans hc4
          obtain ⟨cs7, src, h6, hsuf⟩ := key
          exact ⟨u, cs3, hu.symm,
            le_trans (fromSource_inv h6).1 (countQ_suffix_le hsuf)⟩

theorem searchNamed_eq_none {cs : List Char}
    (h : ∀ t, t <:+ cs → matchNamedAt t = none) : searchNamed cs = none := by
  induction cs with
  | nil => rfl
  | cons c cs ih =>
    have h0 := h (c :: cs) (List.suffix_refl _)
    simp only [searchNamed, h0]
    exact ih (fun t ht => h t (ht.trans (List.suffix_cons c cs)))

theorem searchDefault_eq_none {cs : List Char}
    (h : ∀ t, t <:+ cs → matchDefaultAt t = none) : searchDefault cs = none := by
  induction cs with
  | nil => rfl
  | cons c cs ih =>
    have h0 := h (c :: cs) (List.suffix_refl _)
    simp only [searchDefault, h0]
    exact ih (fun t ht => h t (ht.trans (List.suffix_cons c cs)))

theorem searchNamed_none_of_lb {line : List Char}
    (hlb : ∀ v, (lb :: v) <:+ line → countQ v ≤ 1) : searchNamed line = none := by
  refine searchNamed_eq_none (fun t ht => ?_)
  cases hm : matchNamedAt t with
  | none => rfl
  | some r =>
    obtain ⟨u, v, hu, hv⟩ := matchNamedAt_needs hm
    have : (lb :: v) <:+ line := (hu ▸ List.suffix_append u _).trans ht
    exact absurd (hlb v this) (by omega)

theorem searchDefault_none_of_lb {line : List Char}
    (hlb : ∀ v, (lb :: v) <:+ line → countQ v ≤ 1) : searchDefault line = none := by
  refine searchDefault_eq_none (fun t ht => ?_)
  cases hm : matchDefaultAt t with
  | none => rfl
  | some r =>
    obtain ⟨u, v, hu, hv⟩ := matchDefaultAt_needs hm
    have : (lb :: v) <:+ line := (hu ▸ List.suffix_append u _).trans ht
    exact absurd (hlb v this) (by omega)

/-! ## Computation lemmas on generated statement lines -/

theorem typeChars_eq : typeChars = ['t', 'y', 'p', 'e'] := rfl

theorem expectChar_cons_self (c : Char) (cs : List Char) :
    expectChar c (c :: cs) = some cs := by simp [expectChar]

theorem typeOpt_no {c : Char} (cs : List Char) (h : c ≠ 't') :
    typeOpt (c :: cs) = c :: cs := by
  have h1 : stripLit typeChars (c :: cs) = none := by
    rw [typeChars_eq]
    simp [stripLit, h]
  simp [typeOpt, h1]

theorem typeOpt_yes {c : Char} (cs : List Char) (hc : rsIsWs c = false) :
    typeOpt ('t' :: 'y' :: 'p' :: 'e' :: ' ' :: c :: cs) = c :: cs := by
  have h1 : stripLit typeChars ('t' :: 'y' :: 'p' :: 'e' :: ' ' :: c :: cs)
      = some (' ' :: c :: cs) := stripLit_self_append typeChars (' ' :: c :: cs)
  simp [typeOpt, h1, ws1_space _ _ hc]

theorem fromSource_compute (src tail : List Char) (hne : src ≠ [])
    (hq : ∀ c ∈ src, isQuote c = false) :
    fromSource (fromChars ++ ' ' :: '"' :: (src ++ '"' :: tail)) = some src := by
  unfold fromSource
  rw [stripLit_self_append]
  simp only [Option.some_bind]
  rw [ws1_space _ _ (by decide)]
  simp only [Option.some_bind]
  unfold quotedSource
  rw [show expectQuote ('"' :: (src ++ '"' :: tail)) = some (src ++ '"' :: tail) from
    by simp [expectQuote, isQuote]]
  simp only [Option.some_bind]
  obtain ⟨ht, hd⟩ := takeWhile_append_stop (p := fun c => !(isQuote c)) src '"' tail
    (fun c hc => by simp [hq c hc]) (by simp [isQuote])
  rw [ht, hd, if_neg hne]
  rw [show expectQuote ('"' :: tail) = some tail from by simp [expectQuote, isQuote]]
  rfl

theorem stripLit_export (cs : List Char) :
    stripLit exportChars ('e' :: 'x' :: 'p' :: 'o' :: 'r' :: 't' :: cs) = some cs :=
  stripLit_self_append exportChars cs

theorem stripLit_from (cs : List Char) :
    stripLit fromChars ('f' :: 'r' :: 'o' :: 'm' :: cs) = some cs :=
  stripLit_self_append fromChars cs

theorem stripLit_as (cs : List Char) :
    stripLit asChars ('a' :: 's' :: cs) = some cs :=
  stripLit_self_append asChars cs

theorem fromSource_compute' (src tail : List Char) (hne : src ≠ [])
    (hq : ∀ c ∈ src, isQuote c = false) :
    fromSource ('f' :: 'r' :: 'o' :: 'm' :: ' ' :: '"' :: (src ++ '"' :: tail))
      = some src :=
  fromSource_compute src tail hne hq

theorem starChar_eq : starChar = '*' := rfl

theorem lb_eq : lb = '\x7b' := rfl

theorem rb_eq : rb = '\x7d' := rfl

theorem matchNs_V (src : List Char) (hne : src ≠ [])
    (hq : ∀ c ∈ src, isQuote c = false) :
    matchNamespaceAt ('e' :: 'x' :: 'p' :: 'o' :: 'r' :: 't' :: ' ' :: '*' :: ' ' ::
        'f' :: 'r' :: 'o' :: 'm' :: ' ' :: '"' :: (src ++ '"' :: [';']))
      = some (none, src) := by
  unfold matchNamespaceAt
  rw [stripLit_export]
  simp only [Option.some_bind]
  rw [ws1_space _ _ (by decide)]
  simp only [Option.some_bind]
  rw [typeOpt_no _ (by decide), starChar_eq, expectChar_cons_self]
  simp only [Option.some_bind]
  rw [ws1_space _ _ (by decide)]
  simp only [Option.some_bind]
  rw [show stripLit asChars ('f' :: 'r' :: 'o' :: 'm' :: ' ' :: '"' ::
      (src ++ '"' :: [';'])) = none from by rw [show asChars = ['a', 's'] from rfl]; simp [stripLit]]
  rw [fromSource_compute' src [';'] hne hq]
  rfl

theorem word_not_ws (c : Char) (h : isWordChar c = true) : rsIsWs c = false := by
  simp only [isWordChar, rsIsWs, Bool.or_eq_true, Bool.and_eq_true, beq_iff_eq,
    decide_eq_true_eq] at h ⊢
  simp only [Bool.or_eq_false_iff, Bool.and_eq_false_iff, beq_eq_false_iff_ne,
    ne_eq, decide_eq_false_iff_not, not_le]
  omega

theorem matchNs_VAs (w src : List Char) (hwne : w ≠ [])
    (hw : ∀ c ∈ w, isWordChar c = true) (hne : src ≠ [])
    (hq : ∀ c ∈ src, isQuote c = false) :
    matchNamespaceAt ('e' :: 'x' :: 'p' :: 'o' :: 'r' :: 't' :: ' ' :: '*' :: ' ' ::
        'a' :: 's' :: ' ' ::
        (w ++ ' ' :: 'f' :: 'r' :: 'o' :: 'm' :: ' ' :: '"' :: (src ++ '"' :: [';'])))
      = some (some w, src) := by
  obtain ⟨w0, w', rfl⟩ : ∃ w0 w', w = w0 :: w' := by
    cases w with
    | nil => exact absurd rfl hwne
    | cons a b => exact ⟨a, b, rfl⟩
  have hw0 : isWordChar w0 = true := hw _ (List.mem_cons_self _ _)
  have hw0ws : rsIsWs w0 = false := word_not_ws _ hw0
  unfold matchNamespaceAt
  rw [stripLit_export]
  simp only [Option.some_bind]
  rw [ws1_space _ _ (by decide)]
  simp only [Option.some_bind]
  rw [typeOpt_no _ (by decide), starChar_eq, expectChar_cons_self]
  simp only [Option.some_bind]
  rw [ws1_space _ _ (by decide)]
  simp only [Option.some_bind]
  rw [stripLit_as]
  rw [show (' ' :: ((w0 :: w') ++ ' ' :: 'f' :: 'r' :: 'o' :: 'm' :: ' ' :: '"' ::
      (src ++ '"' :: [';'])))
      = ' ' :: w0 :: (w' ++ ' ' :: 'f' :: 'r' :: 'o' :: 'm' :: ' ' :: '"' ::
        (src ++ '"' :: [';'])) from rfl]
  simp only []
  rw [ws1_space _ _ hw0ws]
  simp only [Option.some_bind]
  rw [show (w0 :: (w' ++ ' ' :: 'f' :: 'r' :: 'o' :: 'm' :: ' ' :: '"' ::
      (src ++ '"' :: [';'])))
      = ((w0 :: w') ++ ' ' :: 'f' :: 'r' :: 'o' :: 'm' :: ' ' :: '"' ::
        (src ++ '"' :: [';'])) from rfl]
  obtain ⟨ht, hd⟩ := takeWhile_append_stop (p := isWordChar) (w0 :: w') ' '
    ('f' :: 'r' :: 'o' :: 'm' :: ' ' :: '"' :: (src ++ '"' :: [';'])) hw (by decide)
  rw [ht, hd, if_neg hwne]
  rw [ws1_space _ _ (by decide)]
  simp only [Option.some_bind]
  rw [fromSource_compute' src [';'] hne hq]
  rfl

theorem matchNs_T (src : List Char) (hne : src ≠ [])
    (hq : ∀ c ∈ src, isQuote c = false) :
    matchNamespaceAt ('e' :: 'x' :: 'p' :: 'o' :: 'r' :: 't' :: ' ' ::
        't' :: 'y' :: 'p' :: 'e' :: ' ' :: '*' :: ' ' ::
        'f' :: 'r' :: 'o' :: 'm' :: ' ' :: '"' :: (src ++ '"' :: [';']))
      = some (none, src) := by
  unfold matchNamespaceAt
  rw [stripLit_export]
  simp only [Option.some_bind]
  rw [ws1_space _ _ (by decide)]
  simp only [Option.some_bind]
  rw [typeOpt_yes _ (by decide), starChar_eq, expectChar_cons_self]
  simp only [Option.some_bind]
  rw [ws1_space _ _ (by decide)]
  simp only [Option.some_bind]
  rw [show stripLit asChars ('f' :: 'r' :: 'o' :: 'm' :: ' ' :: '"' ::
      (src ++ '"' :: [';'])) = none from by rw [show asChars = ['a', 's'] from rfl]; simp [stripLit]]
  rw [fromSource_compute' src [';'] hne hq]
  rfl

theorem matchNs_TAs (w src : List Char) (hwne : w ≠ [])
    (hw : ∀ c ∈ w, isWordChar c = true) (hne : src ≠ [])
    (hq : ∀ c ∈ src, isQuote c = false) :
    matchNamespaceAt ('e' :: 'x' :: 'p' :: 'o' :: 'r' :: 't' :: ' ' ::
        't' :: 'y' :: 'p' :: 'e' :: ' ' :: '*' :: ' ' :: 'a' :: 's' :: ' ' ::
        (w ++ ' ' :: 'f' :: 'r' :: 'o' :: 'm' :: ' ' :: '"' :: (src ++ '"' :: [';'])))
      = some (some w, src) := by
  obtain ⟨w0, w', rfl⟩ : ∃ w0 w', w = w0 :: w' := by
    cases w with
    | nil => exact absurd rfl hwne
    | cons a b => exact ⟨a, b, rfl⟩
  have hw0 : isWordChar w0 = true := hw _ (List.mem_cons_self _ _)
  have hw0ws : rsIsWs w0 = false := word_not_ws _ hw0
  unfold matchNamespaceAt
  rw [stripLit_export]
  simp only [Option.some_bind]
  rw [ws1_space _ _ (by decide)]
  simp only [Option.some_bind]
  rw [typeOpt_yes _ (by decide), starChar_eq, expectChar_cons_self]
  simp only [Option.some_bind]
  rw [ws1_space _ _ (by decide)]
  simp only [Option.some_bind]
  rw [stripLit_as]
  rw [show (' ' :: ((w0 :: w') ++ ' ' :: 'f' :: 'r' :: 'o' :: 'm' :: ' ' :: '"' ::
      (src ++ '"' :: [';'])))
      = ' ' :: w0 :: (w' ++ ' ' :: 'f' :: 'r' :: 'o' :: 'm' :: ' ' :: '"' ::
        (src ++ '"' :: [';'])) from rfl]
  simp only []
  rw [ws1_space _ _ hw0ws]
  simp only [Option.some_bind]
  rw [show (w0 :: (w' ++ ' ' :: 'f' :: 'r' :: 'o' :: 'm' :: ' ' :: '"' ::
      (src ++ '"' :: [';'])))
      = ((w0 :: w') ++ ' ' :: 'f' :: 'r' :: 'o' :: 'm' :: ' ' :: '"' ::
        (src ++ '"' :: [';'])) from rfl]
  obtain ⟨ht, hd⟩ := takeWhile_append_stop (p := isWordChar) (w0 :: w') ' '
    ('f' :: 'r' :: 'o' :: 'm' :: ' ' :: '"' :: (src ++ '"' :: [';'])) hw (by decide)
  rw [ht, hd, if_neg hwne]
  rw [ws1_space _ _ (by decide)]
  simp only [Option.some_bind]
  rw [fromSource_compute' src [';'] hne hq]
  rfl

theorem matchNamed_V (J src : List Char) (hJne : J ≠ []) (hJrb : rb ∉ J)
    (hne : src ≠ []) (hq : ∀ c ∈ src, isQuote c = false) :
    matchNamedAt ('e' :: 'x' :: 'p' :: 'o' :: 'r' :: 't' :: ' ' :: '\x7b' :: ' ' ::
        (J ++ ' ' :: '\x7d' :: ' ' :: 'f' :: 'r' :: 'o' :: 'm' :: ' ' :: '"' ::
          (src ++ '"' :: [';'])))
      = some (' ' :: (J ++ [' ']), src) := by
  unfold matchNamedAt
  rw [stripLit_export]
  simp only [Option.some_bind]
  rw [ws1_space _ _ (by decide)]
  simp only [Option.some_bind]
  rw [typeOpt_no _ (by decide), ← lb_eq, expectChar_cons_self]
  simp only [Option.some_bind]
  have hall : ∀ c ∈ ' ' :: (J ++ [' ']), (!(c == rb)) = true := by
    intro c hc
    rcases List.mem_cons.mp hc with h | h
    · subst h; decide
    · rcases List.mem_append.mp h with h | h
      · have : c ≠ rb := fun he => hJrb (he ▸ h)
        simpa using this
      · rw [List.mem_singleton] at h; subst h; decide
  obtain ⟨ht, hd⟩ := takeWhile_append_stop (p := fun c => !(c == rb))
    (' ' :: (J ++ [' '])) '\x7d'
    (' ' :: 'f' :: 'r' :: 'o' :: 'm' :: ' ' :: '"' :: (src ++ '"' :: [';']))
    hall (by decide)
  rw [show (' ' :: (J ++ ' ' :: '\x7d' :: ' ' :: 'f' :: 'r' :: 'o' :: 'm' :: ' ' :: '"' ::
      (src ++ '"' :: [';'])))
      = ((' ' :: (J ++ [' '])) ++ '\x7d' ::
          (' ' :: 'f' :: 'r' :: 'o' :: 'm' :: ' ' :: '"' :: (src ++ '"' :: [';'])))
      from by simp]
  rw [ht, hd]
  rw [if_neg (by simp)]
  rw [show rb = '\x7d' from rfl, expectChar_cons_self]
  simp only [Option.some_bind]
  rw [ws1_space _ _ (by decide)]
  simp only [Option.some_bind]
  rw [fromSource_compute' src [';'] hne hq]
  rfl

theorem matchNamed_T (J src : List Char) (hJne : J ≠ []) (hJrb : rb ∉ J)
    (hne : src ≠ []) (hq : ∀ c ∈ src, isQuote c = false) :
    matchNamedAt ('e' :: 'x' :: 'p' :: 'o' :: 'r' :: 't' :: ' ' ::
        't' :: 'y' :: 'p' :: 'e' :: ' ' :: '\x7b' :: ' ' ::
        (J ++ ' ' :: '\x7d' :: ' ' :: 'f' :: 'r' :: 'o' :: 'm' :: ' ' :: '"' ::
          (src ++ '"' :: [';'])))
      = some (' ' :: (J ++ [' ']), src) := by
  unfold matchNamedAt
  rw [stripLit_export]
  simp only [Option.some_bind]
  rw [ws1_space _ _ (by decide)]
  simp only [Option.some_bind]
  rw [typeOpt_yes _ (by decide), ← lb_eq, expectChar_cons_self]
  simp only [Option.some_bind]
  have hall : ∀ c ∈ ' ' :: (J ++ [' ']), (!(c == rb)) = true := by
    intro c hc
    rcases List.mem_cons.mp hc with h | h
    · subst h; decide
    · rcases List.mem_append.mp h with h | h
      · have : c ≠ rb := fun he => hJrb (he ▸ h)
        simpa using this
      · rw [List.mem_singleton] at h; subst h; decide
  obtain ⟨ht, hd⟩ := takeWhile_append_stop (p := fun c => !(c == rb))
    (' ' :: (J ++ [' '])) '\x7d'
    (' ' :: 'f' :: 'r' :: 'o' :: 'm' :: ' ' :: '"' :: (src ++ '"' :: [';']))
    hall (by decide)
  rw [show (' ' :: (J ++ ' ' :: '\x7d' :: ' ' :: 'f' :: 'r' :: 'o' :: 'm' :: ' ' :: '"' ::
      (src ++ '"' :: [';'])))
      = ((' ' :: (J ++ [' '])) ++ '\x7d' ::
          (' ' :: 'f' :: 'r' :: 'o' :: 'm' :: ' ' :: '"' :: (src ++ '"' :: [';'])))
      from by simp]
  rw [ht, hd]
  rw [if_neg (by simp)]
  rw [show rb = '\x7d' from rfl, expectChar_cons_self]
  simp only [Option.some_bind]
  rw [ws1_space _ _ (by decide)]
  simp only [Option.some_bind]
  rw [fromSource_compute' src [';'] hne hq]
  rfl

/-! ## Absence of the `export type` marker in value-pass lines -/

theorem concrete_left_straddle {A t1 t2 : List Char}
    (hchk : (A.tails.filter
        (fun t => !(t.isEmpty) && isPrefixL t exportTypeChars)) = [])
    (hsuf : t1 <:+ A) (h1 : t1 ≠ []) (hpre : t1 ++ t2 = exportTypeChars) : False := by
  have hmem : t1 ∈ A.tails := (List.mem_tails _ _).mpr hsuf
  have hx : t1 ∈ A.tails.filter
      (fun t => !(t.isEmpty) && isPrefixL t exportTypeChars) := by
    rw [List.mem_filter]
    refine ⟨hmem, ?_⟩
    have hp : isPrefixL t1 exportTypeChars = true := isPrefixL_iff.mpr ⟨t2, hpre⟩
    simp [h1, hp]
  rw [hchk] at hx
  exact absurd hx (List.not_mem_nil t1)

theorem concrete_right_straddle {B X t1 t2 : List Char}
    (hchk : (exportTypeChars.tails.filter
        (fun t => !(t.isEmpty) && isPrefixL t B)) = [])
    (hinf : ¬ (B <:+: exportTypeChars))
    (hpre : t2 <+: B ++ X) (h2 : t2 ≠ []) (hsp : t1 ++ t2 = exportTypeChars) :
    False := by
  have hsuf : t2 <:+ exportTypeChars := ⟨t1, hsp⟩
  rcases List.prefix_or_prefix_of_prefix hpre (List.prefix_append B X) with h | h
  · have hmem : t2 ∈ exportTypeChars.tails := (List.mem_tails _ _).mpr hsuf
    have hx : t2 ∈ exportTypeChars.tails.filter
        (fun t => !(t.isEmpty) && isPrefixL t B) := by
      rw [List.mem_filter]
      exact ⟨hmem, by simp [h2, isPrefixL_iff.mpr h]⟩
    rw [hchk] at hx
    exact absurd hx (List.not_mem_nil t2)
  · exact hinf ((h.isInfix).trans hsuf.isInfix)

theorem no_et_src_tail {src : List Char} (hsrc : ¬ (exportTypeChars <:+: src))
    (h : exportTypeChars <:+: src ++ ['"', ';']) : False := by
  rcases infix_append_split h with h | h | ⟨t1, t2, hsp, h1, h2, hsuf, hpre⟩
  · exact hsrc h
  · revert h; decide
  · exact concrete_right_straddle (B := ['"', ';']) (X := ([] : List Char))
      (by decide) (by decide) (by simpa using hpre) h2 (hsp.symm)

theorem no_et_nsV (src : List Char) (hsrc : ¬ (exportTypeChars <:+: src)) :
    ¬ (exportTypeChars <:+:
        (['e', 'x', 'p', 'o', 'r', 't', ' ', '*', ' ', 'f', 'r', 'o', 'm', ' ', '"']
          ++ (src ++ ['"', ';']))) := by
  intro h
  rcases infix_append_split h with h | h | ⟨t1, t2, hsp, h1, h2, hsuf, hpre⟩
  · revert h; decide
  · exact no_et_src_tail hsrc h
  · exact concrete_left_straddle (by decide) hsuf h1 (hsp.symm)

theorem no_et_nsVAs (w src : List Char)
    (hw : ∀ c ∈ w, isWordChar c = true)
    (hsrc : ¬ (exportTypeChars <:+: src)) :
    ¬ (exportTypeChars <:+:
        (['e', 'x', 'p', 'o', 'r', 't', ' ', '*', ' ', 'a', 's', ' ']
          ++ (w ++ ([' ', 'f', 'r', 'o', 'm', ' ', '"'] ++ (src ++ ['"', ';']))))) := by
  intro h
  rcases infix_append_split h with h | h | ⟨t1, t2, hsp, h1, h2, hsuf, hpre⟩
  · revert h; decide
  · rcases infix_append_split h with h | h | ⟨t1, t2, hsp, h1, h2, hsuf, hpre⟩
    · exact absurd (hw ' ' (h.sublist.subset (by decide))) (by decide)
    · rcases infix_append_split h with h | h | ⟨t1, t2, hsp, h1, h2, hsuf, hpre⟩
      · revert h; decide
      · exact no_et_src_tail hsrc h
      · exact concrete_left_straddle (by decide) hsuf h1 (hsp.symm)
    · exact concrete_right_straddle (by decide) (by decide) hpre h2 (hsp.symm)
  · exact concrete_left_straddle (by decide) hsuf h1 (hsp.symm)

theorem no_et_joined (specs : List (List Char))
    (hs : ∀ s ∈ specs, ¬ (exportTypeChars <:+: s)) :
    ¬ (exportTypeChars <:+: intercalateC [',', ' '] specs) := by
  induction specs with
  | nil => intro h; revert h; simp [intercalateC]; decide
  | cons s rest ih =>
    cases rest with
    | nil =>
      simpa [intercalateC] using hs s (List.mem_cons_self _ _)
    | cons s2 rest2 =>
      intro h
      rw [intercalateC, List.append_assoc] at h
      rcases infix_append_split h with h | h | ⟨t1, t2, hsp, h1, h2, hsuf, hpre⟩
      · exact hs s (List.mem_cons_self _ _) h
      · rcases infix_append_split h with h | h | ⟨t1, t2, hsp, h1, h2, hsuf, hpre⟩
        · revert h; decide
        · exact ih (fun x hx => hs x (List.mem_cons_of_mem _ hx)) h
        · exact concrete_left_straddle (by decide) hsuf h1 (hsp.symm)
      · exact concrete_right_straddle (by decide) (by decide) hpre h2 (hsp.symm)

theorem no_et_namedV (J src : List Char)
    (hJ : ¬ (exportTypeChars <:+: J))
    (hsrc : ¬ (exportTypeChars <:+: src)) :
    ¬ (exportTypeChars <:+:
        (['e', 'x', 'p', 'o', 'r', 't', ' ', '\x7b', ' ']
          ++ (J ++ ([' ', '\x7d', ' ', 'f', 'r', 'o', 'm', ' ', '"']
            ++ (src ++ ['"', ';']))))) := by
  intro h
  rcases infix_append_split h with h | h | ⟨t1, t2, hsp, h1, h2, hsuf, hpre⟩
  · revert h; decide
  · rcases infix_append_split h with h | h | ⟨t1, t2, hsp, h1, h2, hsuf, hpre⟩
    · exact hJ h
    · rcases infix_append_split h with h | h | ⟨t1, t2, hsp, h1, h2, hsuf, hpre⟩
      · revert h; decide
      · exact no_et_src_tail hsrc h
      · exact concrete_left_straddle (by decide) hsuf h1 (hsp.symm)
    · exact concrete_right_straddle (by decide) (by decide) hpre h2 (hsp.symm)
  · exact concrete_left_straddle (by decide) hsuf h1 (hsp.symm)

theorem countQ_le_one_of_lb_suffix {P src : List Char} (hP : lb ∉ P)
    (hq : ∀ c ∈ src, isQuote c = false) :
    ∀ v, (lb :: v) <:+ (P ++ (src ++ ['"', ';'])) → countQ v ≤ 1 := by
  intro v hv
  rcases suffix_cons_append_cases hv with h | ⟨a', ha', hv'⟩
  · rcases suffix_cons_append_cases h with h | ⟨a', ha', hv'⟩
    · exact absurd (h.sublist.subset (List.mem_cons_self _ _)) (by decide)
    · subst hv'
      have ha0 : countQ a' = 0 := by
        refine List.countP_eq_zero.mpr (fun c hc => ?_)
        have hm : c ∈ src := ha'.sublist.subset (List.mem_cons_of_mem _ hc)
        simp [hq c hm]
      have hcc : countQ (a' ++ ['"', ';']) = countQ a' + countQ ['"', ';'] := by
        simp [countQ, List.countP_append]
      rw [hcc, ha0]
      decide
  · exact absurd (ha'.sublist.subset (List.mem_cons_self _ _)) hP

theorem ns_searches_none_V (src : List Char)
    (hq : ∀ c ∈ src, isQuote c = false) :
    searchNamed ('e' :: 'x' :: 'p' :: 'o' :: 'r' :: 't' :: ' ' :: '*' :: ' ' ::
        'f' :: 'r' :: 'o' :: 'm' :: ' ' :: '"' :: (src ++ '"' :: [';'])) = none
    ∧ searchDefault ('e' :: 'x' :: 'p' :: 'o' :: 'r' :: 't' :: ' ' :: '*' :: ' ' ::
        'f' :: 'r' :: 'o' :: 'm' :: ' ' :: '"' :: (src ++ '"' :: [';'])) = none := by
  have hb := countQ_le_one_of_lb_suffix
    (P := ['e', 'x', 'p', 'o', 'r', 't', ' ', '*', ' ', 'f', 'r', 'o', 'm', ' ', '"'])
    (by decide) hq
  exact ⟨searchNamed_none_of_lb hb, searchDefault_none_of_lb hb⟩

theorem ns_searches_none_T (src : List Char)
    (hq : ∀ c ∈ src, isQuote c = false) :
    searchNamed ('e' :: 'x' :: 'p' :: 'o' :: 'r' :: 't' :: ' ' ::
        't' :: 'y' :: 'p' :: 'e' :: ' ' :: '*' :: ' ' ::
        'f' :: 'r' :: 'o' :: 'm' :: ' ' :: '"' :: (src ++ '"' :: [';'])) = none
    ∧ searchDefault ('e' :: 'x' :: 'p' :: 'o' :: 'r' :: 't' :: ' ' ::
        't' :: 'y' :: 'p' :: 'e' :: ' ' :: '*' :: ' ' ::
        'f' :: 'r' :: 'o' :: 'm' :: ' ' :: '"' :: (src ++ '"' :: [';'])) = none := by
  have hb := countQ_le_one_of_lb_suffix
    (P := ['e', 'x', 'p', 'o', 'r', 't', ' ', 't', 'y', 'p', 'e', ' ', '*', ' ',
      'f', 'r', 'o', 'm', ' ', '"'])
    (by decide) hq
  exact ⟨searchNamed_none_of_lb hb, searchDefault_none_of_lb hb⟩

theorem ns_searches_none_VAs (w src : List Char)
    (hw : ∀ c ∈ w, isWordChar c = true)
    (hq : ∀ c ∈ src, isQuote c = false) :
    searchNamed ('e' :: 'x' :: 'p' :: 'o' :: 'r' :: 't' :: ' ' :: '*' :: ' ' ::
        'a' :: 's' :: ' ' ::
        (w ++ ' ' :: 'f' :: 'r' :: 'o' :: 'm' :: ' ' :: '"' :: (src ++ '"' :: [';'])))
      = none
    ∧ searchDefault ('e' :: 'x' :: 'p' :: 'o' :: 'r' :: 't' :: ' ' :: '*' :: ' ' ::
        'a' :: 's' :: ' ' ::
        (w ++ ' ' :: 'f' :: 'r' :: 'o' :: 'm' :: ' ' :: '"' :: (src ++ '"' :: [';'])))
      = none := by
  have heq : ('e' :: 'x' :: 'p' :: 'o' :: 'r' :: 't' :: ' ' :: '*' :: ' ' ::
        'a' :: 's' :: ' ' ::
        (w ++ ' ' :: 'f' :: 'r' :: 'o' :: 'm' :: ' ' :: '"' :: (src ++ '"' :: [';'])))
      = (['e', 'x', 'p', 'o', 'r', 't', ' ', '*', ' ', 'a', 's', ' ']
          ++ (w ++ [' ', 'f', 'r', 'o', 'm', ' ', '"'])) ++ (src ++ ['"', ';']) := by
    simp
  have hP : lb ∉ (['e', 'x', 'p', 'o', 'r', 't', ' ', '*', ' ', 'a', 's', ' ']
      ++ (w ++ [' ', 'f', 'r', 'o', 'm', ' ', '"'])) := by
    intro hmem
    rcases List.mem_append.mp hmem with h | h
    · revert h; decide
    · rcases List.mem_append.mp h with h | h
      · exact absurd (hw lb h) (by decide)
      · revert h; decide
  have hb : ∀ v, (lb :: v) <:+ ('e' :: 'x' :: 'p' :: 'o' :: 'r' :: 't' :: ' ' :: '*' ::
      ' ' :: 'a' :: 's' :: ' ' ::
      (w ++ ' ' :: 'f' :: 'r' :: 'o' :: 'm' :: ' ' :: '"' :: (src ++ '"' :: [';']))) →
      countQ v ≤ 1 := by
    intro v hv
    rw [heq] at hv
    exact countQ_le_one_of_lb_suffix hP hq v hv
  exact ⟨searchNamed_none_of_lb hb, searchDefault_none_of_lb hb⟩

theorem ns_searches_none_TAs (w src : List Char)
    (hw : ∀ c ∈ w, isWordChar c = true)
    (hq : ∀ c ∈ src, isQuote c = false) :
    searchNamed ('e' :: 'x' :: 'p' :: 'o' :: 'r' :: 't' :: ' ' ::
        't' :: 'y' :: 'p' :: 'e' :: ' ' :: '*' :: ' ' :: 'a' :: 's' :: ' ' ::
        (w ++ ' ' :: 'f' :: 'r' :: 'o' :: 'm' :: ' ' :: '"' :: (src ++ '"' :: [';'])))
      = none
    ∧ searchDefault ('e' :: 'x' :: 'p' :: 'o' :: 'r' :: 't' :: ' ' ::
        't' :: 'y' :: 'p' :: 'e' :: ' ' :: '*' :: ' ' :: 'a' :: 's' :: ' ' ::
        (w ++ ' ' :: 'f' :: 'r' :: 'o' :: 'm' :: ' ' :: '"' :: (src ++ '"' :: [';'])))
      = none := by
  have heq : ('e' :: 'x' :: 'p' :: 'o' :: 'r' :: 't' :: ' ' ::
        't' :: 'y' :: 'p' :: 'e' :: ' ' :: '*' :: ' ' :: 'a' :: 's' :: ' ' ::
        (w ++ ' ' :: 'f' :: 'r' :: 'o' :: 'm' :: ' ' :: '"' :: (src ++ '"' :: [';'])))
      = (['e', 'x', 'p', 'o', 'r', 't', ' ', 't', 'y', 'p', 'e', ' ', '*', ' ',
          'a', 's', ' ']
          ++ (w ++ [' ', 'f', 'r', 'o', 'm', ' ', '"'])) ++ (src ++ ['"', ';']) := by
    simp
  have hP : lb ∉ (['e', 'x', 'p', 'o', 'r', 't', ' ', 't', 'y', 'p', 'e', ' ', '*',
      ' ', 'a', 's', ' '] ++ (w ++ [' ', 'f', 'r', 'o', 'm', ' ', '"'])) := by
    intro hmem
    rcases List.mem_append.mp hmem with h | h
    · revert h; decide
    · rcases List.mem_append.mp h with h | h
      · exact absurd (hw lb h) (by decide)
      · revert h; decide
  have hb : ∀ v, (lb :: v) <:+ ('e' :: 'x' :: 'p' :: 'o' :: 'r' :: 't' :: ' ' ::
      't' :: 'y' :: 'p' :: 'e' :: ' ' :: '*' :: ' ' :: 'a' :: 's' :: ' ' ::
      (w ++ ' ' :: 'f' :: 'r' :: 'o' :: 'm' :: ' ' :: '"' :: (src ++ '"' :: [';']))) →
      countQ v ≤ 1 := by
    intro v hv
    rw [heq] at hv
    exact countQ_le_one_of_lb_suffix hP hq v hv
  exact ⟨searchNamed_none_of_lb hb, searchDefault_none_of_lb hb⟩

/-! ## Line-level roundtrip lemmas -/

theorem searchNamed_cons {c : Char} {cs : List Char} {r : List Char × List Char}
    (h : matchNamedAt (c :: cs) = some r) : searchNamed (c :: cs) = some r := by
  simp [searchNamed, h]

theorem searchNamespace_cons {c : Char} {cs : List Char}
    {r : Option (List Char) × List Char}
    (h : matchNamespaceAt (c :: cs) = some r) :
    searchNamespace (c :: cs) = some r := by
  simp [searchNamespace, h]

theorem rsTrim_template (l : List Char) (hl : l.getLast? = some ';')
    (hh : l.head? = some 'e') : rsTrim l = l := by
  refine rsTrim_eq_self _ (fun c hc => ?_) (fun c hc => ?_)
  · rw [hh, Option.some.injEq] at hc; subst hc; decide
  · rw [hl, Option.some.injEq] at hc; subst hc; decide

theorem getLast?_two (X Y : List Char) :
    (X ++ (Y ++ ['"', ';'])).getLast? = some ';' := by
  rw [List.getLast?_append_of_ne_nil X (by simp),
    List.getLast?_append_of_ne_nil Y (by simp)]
  rfl

theorem mem_intercalateC {c : Char} {sep : List Char} :
    ∀ {L : List (List Char)}, c ∈ intercalateC sep L →
      c ∈ sep ∨ ∃ l ∈ L, c ∈ l := by
  intro L
  induction L with
  | nil => intro h; simp [intercalateC] at h
  | cons x xs ih =>
    cases xs with
    | nil =>
      intro h
      simp only [intercalateC] at h
      exact Or.inr ⟨x, List.mem_cons_self _ _, h⟩
    | cons y ys =>
      intro h
      rw [intercalateC] at h
      rcases List.mem_append.mp h with h | h
      · rcases List.mem_append.mp h with h | h
        · exact Or.inr ⟨x, List.mem_cons_self _ _, h⟩
        · exact Or.inl h
      · rcases ih h with h | ⟨l, hl, hc⟩
        · exact Or.inl h
        · exact Or.inr ⟨l, List.mem_cons_of_mem _ hl, hc⟩

theorem intercalateC_ne_nil {sep : List Char} {L : List (List Char)}
    (hL : L ≠ []) (h0 : ∀ l ∈ L, l ≠ []) : intercalateC sep L ≠ [] := by
  cases L with
  | nil => exact absurd rfl hL
  | cons x xs =>
    cases xs with
    | nil => exact h0 x (List.mem_cons_self _ _)
    | cons y ys =>
      rw [intercalateC]
      intro h
      rcases List.append_eq_nil.mp h with ⟨h1, _⟩
      rcases List.append_eq_nil.mp h1 with ⟨h2, _⟩
      exact h0 x (List.mem_cons_self _ _) h2

theorem split_trim_joined (specs : List (List Char)) (hne : specs ≠ [])
    (hs : ∀ s ∈ specs, s ≠ [] ∧ rsTrim s = s ∧ ',' ∉ s) :
    ((splitOnChar ',' (' ' :: (intercalateC [',', ' '] specs ++ [' ']))).map rsTrim).filter
      (fun s => !(s.isEmpty)) = specs := by
  induction specs with
  | nil => exact absurd rfl hne
  | cons s rest ih =>
    cases rest with
    | nil =>
      have hcs : ',' ∉ (' ' :: (s ++ [' '])) := by
        intro h
        rcases List.mem_cons.mp h with h | h
        · simp at h
        · rcases List.mem_append.mp h with h | h
          · exact (hs s (List.mem_cons_self _ _)).2.2 h
          · simp at h
      rw [show intercalateC [',', ' '] [s] = s from rfl]
      rw [splitOnChar_no_sep _ _ hcs]
      have htr : rsTrim (' ' :: (s ++ [' '])) = s := by
        have h1 := rsTrim_pad [' '] s [' '] (by decide) (by decide)
          (hs s (List.mem_cons_self _ _)).2.1
        exact h1
      have hsne : s.isEmpty = false := by
        rcases hsn : s with _ | ⟨a, b⟩
        · exact absurd hsn (hs s (List.mem_cons_self _ _)).1
        · rfl
      simp [htr, hsne]
    | cons s2 rest2 =>
      have hcomma : ',' ∉ (' ' :: s) := by
        intro h
        rcases List.mem_cons.mp h with h | h
        · simp at h
        · exact (hs s (List.mem_cons_self _ _)).2.2 h
      have hre : (' ' :: (intercalateC [',', ' '] (s :: s2 :: rest2) ++ [' '])) =
          ((' ' :: s) ++ ',' :: (' ' :: (intercalateC [',', ' '] (s2 :: rest2) ++ [' ']))) := by
        rw [intercalateC]
        simp [List.append_assoc]
      rw [hre, splitOnChar_append_sep _ _ _ hcomma]
      have htr : rsTrim (' ' :: s) = s := by
        have h1 := rsTrim_pad [' '] s [] (by decide) (by decide)
          (hs s (List.mem_cons_self _ _)).2.1
        simpa using h1
      have hsne : s.isEmpty = false := by
        rcases hsn : s with _ | ⟨a, b⟩
        · exact absurd hsn (hs s (List.mem_cons_self _ _)).1
        · rfl
      simp only [List.map_cons, List.filter_cons, htr, hsne, Bool.not_false, if_true]
      rw [ih (by simp) (fun x hx => hs x (List.mem_cons_of_mem _ hx))]

theorem parse_line_nsV (src : List Char) (n : Nat) (hne : src ≠ [])
    (hq : ∀ c ∈ src, isQuote c = false)
    (hET : ¬ (exportTypeChars <:+: src)) :
    parse_line ('e' :: 'x' :: 'p' :: 'o' :: 'r' :: 't' :: ' ' :: '*' :: ' ' ::
        'f' :: 'r' :: 'o' :: 'm' :: ' ' :: '"' :: (src ++ '"' :: [';'])) n
      = [⟨"*", String.mk src, "namespace", false, n % 4294967296⟩] := by
  have hl : ('e' :: 'x' :: 'p' :: 'o' :: 'r' :: 't' :: ' ' :: '*' :: ' ' ::
      'f' :: 'r' :: 'o' :: 'm' :: ' ' :: '"' :: (src ++ '"' :: [';'])).getLast?
      = some ';' :=
    getLast?_two ['e', 'x', 'p', 'o', 'r', 't', ' ', '*', ' ', 'f', 'r', 'o', 'm', ' ', '"'] src
  have htrim := rsTrim_template _ hl rfl
  have hpre : isPrefixL exportChars ('e' :: 'x' :: 'p' :: 'o' :: 'r' :: 't' :: ' ' ::
      '*' :: ' ' :: 'f' :: 'r' :: 'o' :: 'm' :: ' ' :: '"' :: (src ++ '"' :: [';'])) = true :=
    isPrefixL_iff.mpr ⟨_, rfl⟩
  have hcsub : containsSub exportTypeChars ('e' :: 'x' :: 'p' :: 'o' :: 'r' :: 't' :: ' ' ::
      '*' :: ' ' :: 'f' :: 'r' :: 'o' :: 'm' :: ' ' :: '"' :: (src ++ '"' :: [';'])) = false :=
    Bool.eq_false_iff.mpr (fun h => no_et_nsV src hET (containsSub_iff.mp h))
  have hnamed : parse_named_export ('e' :: 'x' :: 'p' :: 'o' :: 'r' :: 't' :: ' ' ::
      '*' :: ' ' :: 'f' :: 'r' :: 'o' :: 'm' :: ' ' :: '"' :: (src ++ '"' :: [';'])) = none := by
    unfold parse_named_export
    rw [(ns_searches_none_V src hq).1]
  have hdef : parse_default_export ('e' :: 'x' :: 'p' :: 'o' :: 'r' :: 't' :: ' ' ::
      '*' :: ' ' :: 'f' :: 'r' :: 'o' :: 'm' :: ' ' :: '"' :: (src ++ '"' :: [';'])) = none := by
    unfold parse_default_export
    rw [(ns_searches_none_V src hq).2]
    rfl
  have hns : parse_namespace_export ('e' :: 'x' :: 'p' :: 'o' :: 'r' :: 't' :: ' ' ::
      '*' :: ' ' :: 'f' :: 'r' :: 'o' :: 'm' :: ' ' :: '"' :: (src ++ '"' :: [';']))
      = some ([starChar], src) := by
    unfold parse_namespace_export
    rw [searchNamespace_cons (matchNs_V src hne hq)]
    rfl
  unfold parse_line
  simp only [htrim, hpre, Bool.not_true, Bool.false_eq_true, if_false, hcsub,
    hnamed, hdef, hns]
  rfl

theorem parse_line_nsT (src : List Char) (n : Nat) (hne : src ≠ [])
    (hq : ∀ c ∈ src, isQuote c = false) :
    parse_line ('e' :: 'x' :: 'p' :: 'o' :: 'r' :: 't' :: ' ' ::
        't' :: 'y' :: 'p' :: 'e' :: ' ' :: '*' :: ' ' ::
        'f' :: 'r' :: 'o' :: 'm' :: ' ' :: '"' :: (src ++ '"' :: [';'])) n
      = [⟨"*", String.mk src, "namespace", true, n % 4294967296⟩] := by
  have hl : ('e' :: 'x' :: 'p' :: 'o' :: 'r' :: 't' :: ' ' ::
      't' :: 'y' :: 'p' :: 'e' :: ' ' :: '*' :: ' ' ::
      'f' :: 'r' :: 'o' :: 'm' :: ' ' :: '"' :: (src ++ '"' :: [';'])).getLast?
      = some ';' :=
    getLast?_two ['e', 'x', 'p', 'o', 'r', 't', ' ', 't', 'y', 'p', 'e', ' ', '*', ' ',
      'f', 'r', 'o', 'm', ' ', '"'] src
  have htrim := rsTrim_template _ hl rfl
  have hpre : isPrefixL exportChars ('e' :: 'x' :: 'p' :: 'o' :: 'r' :: 't' :: ' ' ::
      't' :: 'y' :: 'p' :: 'e' :: ' ' :: '*' :: ' ' ::
      'f' :: 'r' :: 'o' :: 'm' :: ' ' :: '"' :: (src ++ '"' :: [';'])) = true :=
    isPrefixL_iff.mpr ⟨_, rfl⟩
  have hcsub : containsSub exportTypeChars ('e' :: 'x' :: 'p' :: 'o' :: 'r' :: 't' :: ' ' ::
      't' :: 'y' :: 'p' :: 'e' :: ' ' :: '*' :: ' ' ::
      'f' :: 'r' :: 'o' :: 'm' :: ' ' :: '"' :: (src ++ '"' :: [';'])) = true :=
    containsSub_iff.mpr ⟨[], _, rfl⟩
  have hnamed : parse_named_export ('e' :: 'x' :: 'p' :: 'o' :: 'r' :: 't' :: ' ' ::
      't' :: 'y' :: 'p' :: 'e' :: ' ' :: '*' :: ' ' ::
      'f' :: 'r' :: 'o' :: 'm' :: ' ' :: '"' :: (src ++ '"' :: [';'])) = none := by
    unfold parse_named_export
    rw [(ns_searches_none_T src hq).1]
  have hdef : parse_default_export ('e' :: 'x' :: 'p' :: 'o' :: 'r' :: 't' :: ' ' ::
      't' :: 'y' :: 'p' :: 'e' :: ' ' :: '*' :: ' ' ::
      'f' :: 'r' :: 'o' :: 'm' :: ' ' :: '"' :: (src ++ '"' :: [';'])) = none := by
    unfold parse_default_export
    rw [(ns_searches_none_T src hq).2]
    rfl
  have hns : parse_namespace_export ('e' :: 'x' :: 'p' :: 'o' :: 'r' :: 't' :: ' ' ::
      't' :: 'y' :: 'p' :: 'e' :: ' ' :: '*' :: ' ' ::
      'f' :: 'r' :: 'o' :: 'm' :: ' ' :: '"' :: (src ++ '"' :: [';'])) = some ([starChar], src) := by
    unfold parse_namespace_export
    rw [searchNamespace_cons (matchNs_T src hne hq)]
    rfl
  unfold parse_line
  simp only [htrim, hpre, Bool.not_true, Bool.false_eq_true, if_false, hcsub,
    hnamed, hdef, hns]
  rfl

theorem parse_line_nsVAs (w src : List Char) (n : Nat) (hwne : w ≠ [])
    (hw : ∀ c ∈ w, isWordChar c = true) (hne : src ≠ [])
    (hq : ∀ c ∈ src, isQuote c = false)
    (hET : ¬ (exportTypeChars <:+: src)) :
    parse_line ('e' :: 'x' :: 'p' :: 'o' :: 'r' :: 't' :: ' ' :: '*' :: ' ' ::
        'a' :: 's' :: ' ' ::
        (w ++ ' ' :: 'f' :: 'r' :: 'o' :: 'm' :: ' ' :: '"' :: (src ++ '"' :: [';']))) n
      = [⟨String.mk w, String.mk src, "namespace", false, n % 4294967296⟩] := by
  have hl : ('e' :: 'x' :: 'p' :: 'o' :: 'r' :: 't' :: ' ' :: '*' :: ' ' ::
      'a' :: 's' :: ' ' ::
      (w ++ ' ' :: 'f' :: 'r' :: 'o' :: 'm' :: ' ' :: '"' :: (src ++ '"' :: [';']))).getLast?
      = some ';' := by
    show (['e', 'x', 'p', 'o', 'r', 't', ' ', '*', ' ', 'a', 's', ' ']
        ++ (w ++ ([' ', 'f', 'r', 'o', 'm', ' ', '"'] ++ (src ++ ['"', ';'])))).getLast?
      = some ';'
    rw [List.getLast?_append_of_ne_nil _ (by simp),
      List.getLast?_append_of_ne_nil _ (by simp)]
    exact getLast?_two [' ', 'f', 'r', 'o', 'm', ' ', '"'] src
  have htrim := rsTrim_template _ hl rfl
  have hpre : isPrefixL exportChars ('e' :: 'x' :: 'p' :: 'o' :: 'r' :: 't' :: ' ' ::
      '*' :: ' ' :: 'a' :: 's' :: ' ' ::
      (w ++ ' ' :: 'f' :: 'r' :: 'o' :: 'm' :: ' ' :: '"' :: (src ++ '"' :: [';']))) = true :=
    isPrefixL_iff.mpr ⟨_, rfl⟩
  have hcsub : containsSub exportTypeChars ('e' :: 'x' :: 'p' :: 'o' :: 'r' :: 't' :: ' ' ::
      '*' :: ' ' :: 'a' :: 's' :: ' ' ::
      (w ++ ' ' :: 'f' :: 'r' :: 'o' :: 'm' :: ' ' :: '"' :: (src ++ '"' :: [';']))) = false :=
    Bool.eq_false_iff.mpr (fun h => no_et_nsVAs w src hw hET (containsSub_iff.mp h))
  have hnamed : parse_named_export ('e' :: 'x' :: 'p' :: 'o' :: 'r' :: 't' :: ' ' ::
      '*' :: ' ' :: 'a' :: 's' :: ' ' ::
      (w ++ ' ' :: 'f' :: 'r' :: 'o' :: 'm' :: ' ' :: '"' :: (src ++ '"' :: [';']))) = none := by
    unfold parse_named_export
    rw [(ns_searches_none_VAs w src hw hq).1]
  have hdef : parse_default_export ('e' :: 'x' :: 'p' :: 'o' :: 'r' :: 't' :: ' ' ::
      '*' :: ' ' :: 'a' :: 's' :: ' ' ::
      (w ++ ' ' :: 'f' :: 'r' :: 'o' :: 'm' :: ' ' :: '"' :: (src ++ '"' :: [';']))) = none := by
    unfold parse_default_export
    rw [(ns_searches_none_VAs w src hw hq).2]
    rfl
  have hns : parse_namespace_export ('e' :: 'x' :: 'p' :: 'o' :: 'r' :: 't' :: ' ' ::
      '*' :: ' ' :: 'a' :: 's' :: ' ' ::
      (w ++ ' ' :: 'f' :: 'r' :: 'o' :: 'm' :: ' ' :: '"' :: (src ++ '"' :: [';']))) = some (w, src) := by
    unfold parse_namespace_export
    rw [searchNamespace_cons (matchNs_VAs w src hwne hw hne hq)]
    rfl
  unfold parse_line
  simp only [htrim, hpre, Bool.not_true, Bool.false_eq_true, if_false, hcsub,
    hnamed, hdef, hns]

theorem parse_line_nsTAs (w src : List Char) (n : Nat) (hwne : w ≠ [])
    (hw : ∀ c ∈ w, isWordChar c = true) (hne : src ≠ [])
    (hq : ∀ c ∈ src, isQuote c = false) :
    parse_line ('e' :: 'x' :: 'p' :: 'o' :: 'r' :: 't' :: ' ' ::
        't' :: 'y' :: 'p' :: 'e' :: ' ' :: '*' :: ' ' :: 'a' :: 's' :: ' ' ::
        (w ++ ' ' :: 'f' :: 'r' :: 'o' :: 'm' :: ' ' :: '"' :: (src ++ '"' :: [';']))) n
      = [⟨String.mk w, String.mk src, "namespace", true, n % 4294967296⟩] := by
  have hl : ('e' :: 'x' :: 'p' :: 'o' :: 'r' :: 't' :: ' ' ::
      't' :: 'y' :: 'p' :: 'e' :: ' ' :: '*' :: ' ' :: 'a' :: 's' :: ' ' ::
      (w ++ ' ' :: 'f' :: 'r' :: 'o' :: 'm' :: ' ' :: '"' :: (src ++ '"' :: [';']))).getLast?
      = some ';' := by
    show (['e', 'x', 'p', 'o', 'r', 't', ' ', 't', 'y', 'p', 'e', ' ', '*', ' ', 'a', 's', ' ']
        ++ (w ++ ([' ', 'f', 'r', 'o', 'm', ' ', '"'] ++ (src ++ ['"', ';'])))).getLast?
      = some ';'
    rw [List.getLast?_append_of_ne_nil _ (by simp),
      List.getLast?_append_of_ne_nil _ (by simp)]
    exact getLast?_two [' ', 'f', 'r', 'o', 'm', ' ', '"'] src
  have htrim := rsTrim_template _ hl rfl
  have hpre : isPrefixL exportChars ('e' :: 'x' :: 'p' :: 'o' :: 'r' :: 't' :: ' ' ::
      't' :: 'y' :: 'p' :: 'e' :: ' ' :: '*' :: ' ' :: 'a' :: 's' :: ' ' ::
      (w ++ ' ' :: 'f' :: 'r' :: 'o' :: 'm' :: ' ' :: '"' :: (src ++ '"' :: [';']))) = true :=
    isPrefixL_iff.mpr ⟨_, rfl⟩
  have hcsub : containsSub exportTypeChars ('e' :: 'x' :: 'p' :: 'o' :: 'r' :: 't' :: ' ' ::
      't' :: 'y' :: 'p' :: 'e' :: ' ' :: '*' :: ' ' :: 'a' :: 's' :: ' ' ::
      (w ++ ' ' :: 'f' :: 'r' :: 'o' :: 'm' :: ' ' :: '"' :: (src ++ '"' :: [';']))) = true :=
    containsSub_iff.mpr ⟨[], _, rfl⟩
  have hnamed : parse_named_export ('e' :: 'x' :: 'p' :: 'o' :: 'r' :: 't' :: ' ' ::
      't' :: 'y' :: 'p' :: 'e' :: ' ' :: '*' :: ' ' :: 'a' :: 's' :: ' ' ::
      (w ++ ' ' :: 'f' :: 'r' :: 'o' :: 'm' :: ' ' :: '"' :: (src ++ '"' :: [';']))) = none := by
    unfold parse_named_export
    rw [(ns_searches_none_TAs w src hw hq).1]
  have hdef : parse_default_export ('e' :: 'x' :: 'p' :: 'o' :: 'r' :: 't' :: ' ' ::
      't' :: 'y' :: 'p' :: 'e' :: ' ' :: '*' :: ' ' :: 'a' :: 's' :: ' ' ::
      (w ++ ' ' :: 'f' :: 'r' :: 'o' :: 'm' :: ' ' :: '"' :: (src ++ '"' :: [';']))) = none := by
    unfold parse_default_export
    rw [(ns_searches_none_TAs w src hw hq).2]
    rfl
  have hns : parse_namespace_export ('e' :: 'x' :: 'p' :: 'o' :: 'r' :: 't' :: ' ' ::
      't' :: 'y' :: 'p' :: 'e' :: ' ' :: '*' :: ' ' :: 'a' :: 's' :: ' ' ::
      (w ++ ' ' :: 'f' :: 'r' :: 'o' :: 'm' :: ' ' :: '"' :: (src ++ '"' :: [';'])))
      = some (w, src) := by
    unfold parse_namespace_export
    rw [searchNamespace_cons (matchNs_TAs w src hwne hw hne hq)]
    rfl
  unfold parse_line
  simp only [htrim, hpre, Bool.not_true, Bool.false_eq_true, if_false, hcsub,
    hnamed, hdef, hns]

theorem parse_line_namedV (specs : List (List Char)) (src : List Char) (n : Nat)
    (hne : src ≠ []) (hq : ∀ c ∈ src, isQuote c = false)
    (hspne : specs ≠ [])
    (hsp : ∀ s ∈ specs, s ≠ [] ∧ rsTrim s = s ∧ ',' ∉ s ∧ rb ∉ s)
    (hET : ¬ (exportTypeChars <:+: src))
    (hETs : ∀ s ∈ specs, ¬ (exportTypeChars <:+: s)) :
    parse_line ('e' :: 'x' :: 'p' :: 'o' :: 'r' :: 't' :: ' ' :: '\x7b' :: ' ' ::
        (intercalateC [',', ' '] specs ++ ' ' :: '\x7d' :: ' ' ::
          'f' :: 'r' :: 'o' :: 'm' :: ' ' :: '"' :: (src ++ '"' :: [';']))) n
      = specs.map (fun s =>
          ⟨String.mk s, String.mk src, "named", false, n % 4294967296⟩) := by
  have hJne : intercalateC [',', ' '] specs ≠ [] :=
    intercalateC_ne_nil hspne (fun l hl => (hsp l hl).1)
  have hJrb : rb ∉ intercalateC [',', ' '] specs := by
    intro hmem
    rcases mem_intercalateC hmem with h | ⟨l, hl, hc⟩
    · revert h; decide
    · exact (hsp l hl).2.2.2 hc
  have hl : ('e' :: 'x' :: 'p' :: 'o' :: 'r' :: 't' :: ' ' :: '\x7b' :: ' ' ::
      (intercalateC [',', ' '] specs ++ ' ' :: '\x7d' :: ' ' ::
        'f' :: 'r' :: 'o' :: 'm' :: ' ' :: '"' :: (src ++ '"' :: [';']))).getLast?
      = some ';' := by
    show (['e', 'x', 'p', 'o', 'r', 't', ' ', '\x7b', ' ']
        ++ (intercalateC [',', ' '] specs
          ++ ([' ', '\x7d', ' ', 'f', 'r', 'o', 'm', ' ', '"'] ++ (src ++ ['"', ';'])))).getLast?
      = some ';'
    rw [List.getLast?_append_of_ne_nil _ (by simp),
      List.getLast?_append_of_ne_nil _ (by simp)]
    exact getLast?_two [' ', '\x7d', ' ', 'f', 'r', 'o', 'm', ' ', '"'] src
  have htrim := rsTrim_template _ hl rfl
  have hpre : isPrefixL exportChars ('e' :: 'x' :: 'p' :: 'o' :: 'r' :: 't' :: ' ' ::
      '\x7b' :: ' ' :: (intercalateC [',', ' '] specs ++ ' ' :: '\x7d' :: ' ' ::
        'f' :: 'r' :: 'o' :: 'm' :: ' ' :: '"' :: (src ++ '"' :: [';']))) = true :=
    isPrefixL_iff.mpr ⟨_, rfl⟩
  have hcsub : containsSub exportTypeChars ('e' :: 'x' :: 'p' :: 'o' :: 'r' :: 't' :: ' ' ::
      '\x7b' :: ' ' :: (intercalateC [',', ' '] specs ++ ' ' :: '\x7d' :: ' ' ::
        'f' :: 'r' :: 'o' :: 'm' :: ' ' :: '"' :: (src ++ '"' :: [';']))) = false :=
    Bool.eq_false_iff.mpr (fun h =>
      no_et_namedV (intercalateC [',', ' '] specs) src
        (no_et_joined specs hETs) hET (containsSub_iff.mp h))
  have hnamed : parse_named_export ('e' :: 'x' :: 'p' :: 'o' :: 'r' :: 't' :: ' ' ::
      '\x7b' :: ' ' :: (intercalateC [',', ' '] specs ++ ' ' :: '\x7d' :: ' ' ::
        'f' :: 'r' :: 'o' :: 'm' :: ' ' :: '"' :: (src ++ '"' :: [';'])))
      = some (specs.map (fun s => (s, src))) := by
    unfold parse_named_export
    rw [searchNamed_cons (matchNamed_V (intercalateC [',', ' '] specs) src hJne hJrb hne hq)]
    simp only []
    rw [show (' ' :: (intercalateC [',', ' '] specs ++ [' ']))
        = (' ' :: (intercalateC [',', ' '] specs ++ [' '])) from rfl]
    rw [split_trim_joined specs hspne
      (fun s hsm => ⟨(hsp s hsm).1, (hsp s hsm).2.1, (hsp s hsm).2.2.1⟩)]
    rw [if_neg (by simp [hspne])]
  unfold parse_line
  simp only [htrim, hpre, Bool.not_true, Bool.false_eq_true, if_false, hcsub, hnamed]
  simp [List.map_map]

theorem parse_line_namedT (specs : List (List Char)) (src : List Char) (n : Nat)
    (hne : src ≠ []) (hq : ∀ c ∈ src, isQuote c = false)
    (hspne : specs ≠ [])
    (hsp : ∀ s ∈ specs, s ≠ [] ∧ rsTrim s = s ∧ ',' ∉ s ∧ rb ∉ s) :
    parse_line ('e' :: 'x' :: 'p' :: 'o' :: 'r' :: 't' :: ' ' ::
        't' :: 'y' :: 'p' :: 'e' :: ' ' :: '\x7b' :: ' ' ::
        (intercalateC [',', ' '] specs ++ ' ' :: '\x7d' :: ' ' ::
          'f' :: 'r' :: 'o' :: 'm' :: ' ' :: '"' :: (src ++ '"' :: [';']))) n
      = specs.map (fun s =>
          ⟨String.mk s, String.mk src, "named", true, n % 4294967296⟩) := by
  have hJne : intercalateC [',', ' '] specs ≠ [] :=
    intercalateC_ne_nil hspne (fun l hl => (hsp l hl).1)
  have hJrb : rb ∉ intercalateC [',', ' '] specs := by
    intro hmem
    rcases mem_intercalateC hmem with h | ⟨l, hl, hc⟩
    · revert h; decide
    · exact (hsp l hl).2.2.2 hc
  have hl : ('e' :: 'x' :: 'p' :: 'o' :: 'r' :: 't' :: ' ' ::
      't' :: 'y' :: 'p' :: 'e' :: ' ' :: '\x7b' :: ' ' ::
      (intercalateC [',', ' '] specs ++ ' ' :: '\x7d' :: ' ' ::
        'f' :: 'r' :: 'o' :: 'm' :: ' ' :: '"' :: (src ++ '"' :: [';']))).getLast?
      = some ';' := by
    show (['e', 'x', 'p', 'o', 'r', 't', ' ', 't', 'y', 'p', 'e', ' ', '\x7b', ' ']
        ++ (intercalateC [',', ' '] specs
          ++ ([' ', '\x7d', ' ', 'f', 'r', 'o', 'm', ' ', '"'] ++ (src ++ ['"', ';'])))).getLast?
      = some ';'
    rw [List.getLast?_append_of_ne_nil _ (by simp),
      List.getLast?_append_of_ne_nil _ (by simp)]
    exact getLast?_two [' ', '\x7d', ' ', 'f', 'r', 'o', 'm', ' ', '"'] src
  have htrim := rsTrim_template _ hl rfl
  have hpre : isPrefixL exportChars ('e' :: 'x' :: 'p' :: 'o' :: 'r' :: 't' :: ' ' ::
      't' :: 'y' :: 'p' :: 'e' :: ' ' :: '\x7b' :: ' ' ::
      (intercalateC [',', ' '] specs ++ ' ' :: '\x7d' :: ' ' ::
        'f' :: 'r' :: 'o' :: 'm' :: ' ' :: '"' :: (src ++ '"' :: [';']))) = true :=
    isPrefixL_iff.mpr ⟨_, rfl⟩
  have hcsub : containsSub exportTypeChars ('e' :: 'x' :: 'p' :: 'o' :: 'r' :: 't' :: ' ' ::
      't' :: 'y' :: 'p' :: 'e' :: ' ' :: '\x7b' :: ' ' ::
      (intercalateC [',', ' '] specs ++ ' ' :: '\x7d' :: ' ' ::
        'f' :: 'r' :: 'o' :: 'm' :: ' ' :: '"' :: (src ++ '"' :: [';']))) = true :=
    containsSub_iff.mpr ⟨[], _, rfl⟩
  have hnamed : parse_named_export ('e' :: 'x' :: 'p' :: 'o' :: 'r' :: 't' :: ' ' ::
      't' :: 'y' :: 'p' :: 'e' :: ' ' :: '\x7b' :: ' ' ::
      (intercalateC [',', ' '] specs ++ ' ' :: '\x7d' :: ' ' ::
        'f' :: 'r' :: 'o' :: 'm' :: ' ' :: '"' :: (src ++ '"' :: [';'])))
      = some (specs.map (fun s => (s, src))) := by
    unfold parse_named_export
    rw [searchNamed_cons (matchNamed_T (intercalateC [',', ' '] specs) src hJne hJrb hne hq)]
    simp only []
    rw [split_trim_joined specs hspne
      (fun s hsm => ⟨(hsp s hsm).1, (hsp s hsm).2.1, (hsp s hsm).2.2.1⟩)]
    rw [if_neg (by simp [hspne])]
  unfold parse_line
  simp only [htrim, hpre, Bool.not_true, Bool.false_eq_true, if_false, hcsub, hnamed]
  simp [List.map_map]

/-! ## Joining and re-splitting the reconstructed text -/

theorem splitOnChar_intercalate (sep : Char) :
    ∀ L : List (List Char), L ≠ [] → (∀ l ∈ L, sep ∉ l) →
      splitOnChar sep (intercalateC [sep] L) = L := by
  intro L
  induction L with
  | nil => intro h; exact absurd rfl h
  | cons x xs ih =>
    intro _ hl
    cases xs with
    | nil => exact splitOnChar_no_sep sep x (hl x (List.mem_cons_self _ _))
    | cons y ys =>
      rw [intercalateC, List.append_assoc]
      rw [show ([sep] ++ intercalateC [sep] (y :: ys)) = sep :: intercalateC [sep] (y :: ys)
        from rfl]
      rw [splitOnChar_append_sep sep x _ (hl x (List.mem_cons_self _ _))]
      rw [ih (by simp) (fun l h => hl l (List.mem_cons_of_mem _ h))]

theorem stripCR_eq_self {l : List Char} (h : l.getLast? ≠ some '\r') :
    stripCR l = l := by
  unfold stripCR
  cases hg : l.getLast? with
  | none => rfl
  | some c =>
    simp only []
    rw [if_neg]
    intro hc
    exact h (hc ▸ hg)

theorem rustLinesAux_append_final :
    ∀ L : List (List Char), (∀ l ∈ L, l.getLast? ≠ some '\r') →
      rustLinesAux (L ++ [[]]) = L := by
  intro L
  induction L with
  | nil => intro _; rfl
  | cons x xs ih =>
    intro h
    cases xs with
    | nil =>
      show rustLinesAux [x, []] = [x]
      rw [show rustLinesAux [x, []] = stripCR x :: rustLinesAux [[]] from rfl]
      rw [stripCR_eq_self (h x (List.mem_cons_self _ _))]
      rfl
    | cons y ys =>
      show rustLinesAux (x :: ((y :: ys) ++ [[]])) = x :: y :: ys
      rw [show rustLinesAux (x :: ((y :: ys) ++ [[]]))
          = stripCR x :: rustLinesAux ((y :: ys) ++ [[]]) from rfl]
      rw [stripCR_eq_self (h x (List.mem_cons_self _ _)),
        ih (fun l hl => h l (List.mem_cons_of_mem _ hl))]

theorem rustLines_join (L : List (List Char))
    (hn : ∀ l ∈ L, '\n' ∉ l) (hcr : ∀ l ∈ L, l.getLast? ≠ some '\r') :
    rustLines (intercalateC ['\n'] (L ++ [[]])) = L := by
  unfold rustLines
  rw [splitOnChar_intercalate '\n' (L ++ [[]]) (by simp) ?hmem]
  case hmem =>
    intro l hl
    rcases List.mem_append.mp hl with h | h
    · exact hn l h
    · rw [List.mem_singleton] at h; subst h; simp
  exact rustLinesAux_append_final L hcr

/-! ## Preserved-prefix lemmas -/

theorem preservedPrefix_mem :
    ∀ (ls : List (List Char)) (l : List Char), l ∈ preservedPrefix ls →
      isPrefixL exportChars (rsTrim l) = false ∧ keepLine l = true := by
  intro ls
  induction ls with
  | nil => intro l h; simp [preservedPrefix] at h
  | cons x xs ih =>
    intro l h
    unfold preservedPrefix at h
    by_cases h1 : isPrefixL exportChars (rsTrim x) = true
    · rw [if_pos h1] at h
      simp at h
    · rw [if_neg h1] at h
      by_cases h2 : keepLine x = true
      · rw [if_pos h2] at h
        rcases List.mem_cons.mp h with h | h
        · subst h
          exact ⟨Bool.eq_false_iff.mpr h1, h2⟩
        · exact ih l h
      · rw [if_neg h2] at h
        exact ih l h

theorem preservedPrefix_append_gen :
    ∀ (P : List (List Char)) (g : List Char) (gs : List (List Char)),
      (∀ l ∈ P, isPrefixL exportChars (rsTrim l) = false ∧ keepLine l = true) →
      isPrefixL exportChars (rsTrim g) = true →
      preservedPrefix (P ++ g :: gs) = P := by
  intro P
  induction P with
  | nil =>
    intro g gs _ hg
    show preservedPrefix (g :: gs) = []
    simp only [preservedPrefix]
    rw [if_pos hg]
  | cons x xs ih =>
    intro g gs hP hg
    have hx := hP x (List.mem_cons_self _ _)
    show preservedPrefix (x :: (xs ++ g :: gs)) = x :: xs
    simp only [preservedPrefix]
    rw [if_neg (by rw [hx.1]; exact Bool.false_ne_true), if_pos hx.2]
    rw [ih g gs (fun l hl => hP l (List.mem_cons_of_mem _ hl)) hg]


/-! ## Line-number erasure: every stage after parsing ignores the line field -/

/-- Erase the diagnostic line number. -/
def setLine0 (e : ExportInfo) : ExportInfo :=
  ⟨e.specifier, e.source, e.export_type, e.is_type_export, 0⟩

theorem dedupKey_setLine0 (e : ExportInfo) : dedupKey (setLine0 e) = dedupKey e := rfl

theorem specDedup_map_setLine0 :
    ∀ l : List ExportInfo, specDedup (l.map setLine0) = (specDedup l).map setLine0 := by
  intro l
  induction l using specDedup.induct with
  | case1 => simp [specDedup]
  | case2 e es ih =>
    rw [List.map_cons, specDedup_cons, specDedup_cons, List.map_cons]
    congr 1
    rw [← ih]
    congr 1
    rw [List.filter_map]
    congr 1

theorem insertGrouped_cons_ne (k : String) (vs ts : List ExportInfo)
    (rest : List (String × List ExportInfo × List ExportInfo)) (e : ExportInfo)
    (hk : ¬ k = e.source) :
    insertGrouped ((k, vs, ts) :: rest) e = (k, vs, ts) :: insertGrouped rest e := by
  rw [insertGrouped.eq_def]
  simp only []
  rw [if_neg hk]

theorem isEmpty_map_setLine0 (l : List ExportInfo) :
    (l.map setLine0).isEmpty = l.isEmpty := by
  cases l <;> rfl

theorem insertGrouped_map_setLine0 (e : ExportInfo) :
    ∀ m : List (String × List ExportInfo × List ExportInfo),
      insertGrouped (m.map (fun g => (g.1, g.2.1.map setLine0, g.2.2.map setLine0)))
          (setLine0 e)
        = (insertGrouped m e).map (fun g => (g.1, g.2.1.map setLine0, g.2.2.map setLine0)) := by
  intro m
  induction m with
  | nil => cases ht : e.is_type_export <;> simp [insertGrouped, setLine0, ht]
  | cons gm rest ih =>
    obtain ⟨k, vs, ts⟩ := gm
    by_cases hk : k = e.source
    · cases ht : e.is_type_export <;> simp [insertGrouped, setLine0, hk, ht]
    · simp only [List.map_cons]
      rw [insertGrouped_cons_ne k _ _ _ (setLine0 e) hk,
        insertGrouped_cons_ne k vs ts _ e hk, List.map_cons]
      exact congrArg _ ih

theorem groupBySource_map_setLine0 :
    ∀ (l : List ExportInfo) (m : List (String × List ExportInfo × List ExportInfo)),
      (l.map setLine0).foldl insertGrouped
          (m.map (fun g => (g.1, g.2.1.map setLine0, g.2.2.map setLine0)))
        = (l.foldl insertGrouped m).map
            (fun g => (g.1, g.2.1.map setLine0, g.2.2.map setLine0)) := by
  intro l
  induction l with
  | nil => intro m; simp
  | cons e es ih =>
    intro m
    simp only [List.map_cons, List.foldl_cons]
    rw [insertGrouped_map_setLine0]
    exact ih (insertGrouped m e)

theorem genValueExports_map_setLine0 (exps : List ExportInfo) (src : String) :
    genValueExports (exps.map setLine0) src = genValueExports exps src := by
  rw [genValueExports_eq, genValueExports_eq]
  rw [List.filter_map, List.filter_map, List.filter_map]
  simp only [List.map_map, isEmpty_map_setLine0]
  rfl

theorem genTypeExports_map_setLine0 (exps : List ExportInfo) (src : String) :
    genTypeExports (exps.map setLine0) src = genTypeExports exps src := by
  rw [genTypeExports_eq, genTypeExports_eq]
  rw [List.filter_map, List.filter_map, List.filter_map]
  simp only [List.map_map, isEmpty_map_setLine0]
  rfl

theorem reconstruct_source_map_setLine0 (orig : String) (l : List ExportInfo) :
    reconstruct_source orig (l.map setLine0) = reconstruct_source orig l := by
  unfold reconstruct_source
  have he : (l.map setLine0).isEmpty = l.isEmpty := by cases l <;> rfl
  rw [he]
  by_cases hl : l.isEmpty
  · rw [if_pos hl, if_pos hl]
  · rw [if_neg hl, if_neg hl]
    have hg : groupBySource (l.map setLine0)
        = (groupBySource l).map (fun g => (g.1, g.2.1.map setLine0, g.2.2.map setLine0)) := by
      have h := groupBySource_map_setLine0 l []
      simpa [groupBySource] using h
    simp only [hg, List.foldl_map, genValueExports_map_setLine0, genTypeExports_map_setLine0]

theorem parse_line_setLine0 (l : List Char) (n : Nat) :
    (parse_line l n).map setLine0 = parse_line l 0 := by
  unfold parse_line
  by_cases hp : isPrefixL exportChars (rsTrim l)
  · simp only [hp, Bool.not_true, if_neg (by simp : ¬ (false = true))]
    cases hn : parse_named_export (rsTrim l) with
    | some pairs => simp [setLine0, List.map_map, Function.comp]
    | none =>
      simp only []
      cases hd : parse_default_export (rsTrim l) with
      | some p => simp [setLine0]
      | none =>
        simp only []
        cases hns : parse_namespace_export (rsTrim l) with
        | some p => simp [setLine0]
        | none => rfl
  · simp only [eq_false_of_ne_true (by simpa using hp), Bool.not_false, if_pos rfl]
    rfl

theorem parseAll_setLine0 :
    ∀ (ls : List (List Char)) (i : Nat),
      (parseAll i ls).map setLine0 = (ls.map (fun l => parse_line l 0)).flatten := by
  intro ls
  induction ls with
  | nil => intro i; rfl
  | cons l ls ih =>
    intro i
    simp only [parseAll, List.map_append, List.map_cons, List.flatten_cons]
    rw [parse_line_setLine0, ih]

/-! ## Structure of split segments and parsed lines -/

theorem splitOnChar_struct (sep : Char) :
    ∀ cs : List Char, ∃ g0 gs, splitOnChar sep cs = g0 :: gs ∧ g0 <+: cs ∧
      (∀ g ∈ gs, g <:+: cs) ∧ (∀ g ∈ g0 :: gs, sep ∉ g) := by
  intro cs
  induction cs with
  | nil =>
    exact ⟨[], [], rfl, List.nil_prefix, by simp, by simp⟩
  | cons c cs ih =>
    obtain ⟨g0, gs, heq, hpre, hinf, hmem⟩ := ih
    by_cases hc : c = sep
    · refine ⟨[], g0 :: gs, ?_, List.nil_prefix, ?_, ?_⟩
      · rw [splitOnChar, heq]
        simp only []
        rw [if_pos hc]
      · intro g hg
        rcases List.mem_cons.mp hg with h | h
        · subst h
          exact hpre.isInfix.trans (List.infix_cons (List.infix_refl cs))
        · exact (hinf g h).trans (List.infix_cons (List.infix_refl cs))
      · intro g hg
        rcases List.mem_cons.mp hg with h | h
        · subst h; simp
        · exact hmem g h
    · refine ⟨c :: g0, gs, ?_, ?_, ?_, ?_⟩
      · rw [splitOnChar, heq]
        simp only []
        rw [if_neg hc]
      · exact List.cons_prefix_cons.mpr ⟨rfl, hpre⟩
      · intro g hg
        exact (hinf g hg).trans (List.infix_cons (List.infix_refl cs))
      · intro g hg
        rcases List.mem_cons.mp hg with h | h
        · subst h
          intro hs
          rcases List.mem_cons.mp hs with h2 | h2
          · exact hc h2.symm
          · exact hmem g0 (List.mem_cons_self _ _) h2
        · exact hmem g (List.mem_cons_of_mem _ h)

theorem splitOnChar_mem_infix {sep : Char} {cs g : List Char}
    (h : g ∈ splitOnChar sep cs) : g <:+: cs := by
  obtain ⟨g0, gs, heq, hpre, hinf, _⟩ := splitOnChar_struct sep cs
  rw [heq] at h
  rcases List.mem_cons.mp h with h1 | h1
  · exact h1 ▸ hpre.isInfix
  · exact hinf g h1

theorem splitOnChar_mem_no_sep {sep : Char} {cs g : List Char}
    (h : g ∈ splitOnChar sep cs) : sep ∉ g := by
  obtain ⟨g0, gs, heq, _, _, hmem⟩ := splitOnChar_struct sep cs
  exact hmem g (heq ▸ h)

theorem stripCR_subset (l : List Char) : ∀ c ∈ stripCR l, c ∈ l := by
  intro c hc
  unfold stripCR at hc
  cases hg : l.getLast? with
  | none => rw [hg] at hc; exact hc
  | some x =>
    rw [hg] at hc
    simp only [] at hc
    by_cases hx : x = '\r'
    · rw [if_pos hx] at hc
      exact List.dropLast_subset l hc
    · rw [if_neg hx] at hc
      exact hc

theorem rustLinesAux_mem :
    ∀ (segs : List (List Char)) (l : List Char), l ∈ rustLinesAux segs →
      ∃ g ∈ segs, l = stripCR g ∨ l = g := by
  intro segs
  induction segs with
  | nil => intro l h; simp [rustLinesAux] at h
  | cons x xs ih =>
    intro l h
    cases xs with
    | nil =>
      by_cases hx : x = []
      · subst hx; simp [rustLinesAux] at h
      · rw [show rustLinesAux [x] = if x = [] then [] else [x] from rfl, if_neg hx] at h
        rw [List.mem_singleton] at h
        exact ⟨x, List.mem_cons_self _ _, Or.inr h⟩
    | cons y ys =>
      rw [show rustLinesAux (x :: y :: ys) = stripCR x :: rustLinesAux (y :: ys) from rfl] at h
      rcases List.mem_cons.mp h with h1 | h1
      · exact ⟨x, List.mem_cons_self _ _, Or.inl h1⟩
      · obtain ⟨g, hg, hor⟩ := ih l h1
        exact ⟨g, List.mem_cons_of_mem _ hg, hor⟩

theorem rustLines_no_nl {cs l : List Char} (h : l ∈ rustLines cs) : '\n' ∉ l := by
  unfold rustLines at h
  obtain ⟨g, hg, hor⟩ := rustLinesAux_mem _ l h
  have hns : '\n' ∉ g := splitOnChar_mem_no_sep hg
  intro hl
  rcases hor with h1 | h1
  · exact hns (stripCR_subset g _ (h1 ▸ hl))
  · exact hns (h1 ▸ hl)

theorem rsTrim_infix (l : List Char) : rsTrim l <:+: l := by
  unfold rsTrim
  have h1 : l.dropWhile rsIsWs <:+ l := List.dropWhile_suffix _
  have h2 : (l.dropWhile rsIsWs).reverse.dropWhile rsIsWs <:+ (l.dropWhile rsIsWs).reverse :=
    List.dropWhile_suffix _
  have h3 : ((l.dropWhile rsIsWs).reverse.dropWhile rsIsWs).reverse <+: l.dropWhile rsIsWs := by
    obtain ⟨u, hu⟩ := h2
    refine ⟨u.reverse, ?_⟩
    rw [← List.reverse_append, hu, List.reverse_reverse]
  exact h3.isInfix.trans h1.isInfix

theorem searchNamed_some :
    ∀ {cs : List Char} {r : List Char × List Char}, searchNamed cs = some r →
      ∃ t, t <:+ cs ∧ matchNamedAt t = some r := by
  intro cs
  induction cs with
  | nil => intro r h; simp [searchNamed] at h
  | cons c cs ih =>
    intro r h
    rw [searchNamed] at h
    cases hm : matchNamedAt (c :: cs) with
    | some r2 =>
      rw [hm] at h
      simp only [Option.some.injEq] at h
      exact ⟨c :: cs, List.suffix_refl _, h ▸ hm⟩
    | none =>
      rw [hm] at h
      obtain ⟨t, ht, hmt⟩ := ih h
      exact ⟨t, ht.trans (List.suffix_cons c cs), hmt⟩

theorem searchNamespace_some :
    ∀ {cs : List Char} {r : Option (List Char) × List Char}, searchNamespace cs = some r →
      ∃ t, t <:+ cs ∧ matchNamespaceAt t = some r := by
  intro cs
  induction cs with
  | nil => intro r h; simp [searchNamespace] at h
  | cons c cs ih =>
    intro r h
    rw [searchNamespace] at h
    cases hm : matchNamespaceAt (c :: cs) with
    | some r2 =>
      rw [hm] at h
      simp only [Option.some.injEq] at h
      exact ⟨c :: cs, List.suffix_refl _, h ▸ hm⟩
    | none =>
      rw [hm] at h
      obtain ⟨t, ht, hmt⟩ := ih h
      exact ⟨t, ht.trans (List.suffix_cons c cs), hmt⟩

theorem matchNamedAt_inv {cs inner src : List Char}
    (h : matchNamedAt cs = some (inner, src)) :
    inner ≠ [] ∧ rb ∉ inner ∧ inner <:+: cs ∧
    src ≠ [] ∧ (∀ c ∈ src, isQuote c = false) ∧ src <:+: cs := by
  unfold matchNamedAt at h
  cases h1 : stripLit exportChars cs with
  | none => simp [h1] at h
  | some cs1 =>
    simp only [h1, Option.some_bind] at h
    cases h2 : ws1 cs1 with
    | none => simp [h2] at h
    | some cs2 =>
      simp only [h2, Option.some_bind] at h
      cases h3 : expectChar lb (typeOpt cs2) with
      | none => simp [h3] at h
      | some cs4 =>
        simp only [h3, Option.some_bind] at h
        by_cases hemp : cs4.takeWhile (fun c => !(c == rb)) = []
        · simp [hemp] at h
        · rw [if_neg hemp] at h
          cases h4 : expectChar rb (cs4.dropWhile fun c => !(c == rb)) with
          | none => simp [h4] at h
          | some cs6 =>
            simp only [h4, Option.some_bind] at h
            cases h5 : ws1 cs6 with
            | none => simp [h5] at h
            | some cs7 =>
              simp only [h5, Option.some_bind] at h
              cases h6 : fromSource cs7 with
              | none => simp [h6] at h
              | some src0 =>
                simp only [h6, Option.some_bind, Option.some.injEq, Prod.mk.injEq] at h
                obtain ⟨hi, hs⟩ := h
                have hcs4 : cs4 <:+ cs := by
                  have h3' := expectChar_eq_some.mp h3
                  have hlb : (lb :: cs4) <:+ cs2 := h3' ▸ typeOpt_suffix cs2
                  exact (List.suffix_cons lb cs4).trans
                    ((hlb.trans (ws1_suffix h2)).trans (suffix_of_stripLit h1))
                have hs7 : cs7 <:+ cs4 := by
                  have hs5 : (cs4.dropWhile fun c => !(c == rb)) <:+ cs4 :=
                    List.dropWhile_suffix _
                  have h4' := expectChar_eq_some.mp h4
                  have hc6 : cs6 <:+ cs4 := by
                    rw [h4'] at hs5
                    exact (List.suffix_cons rb cs6).trans hs5
                  exact (ws1_suffix h5).trans hc6
                obtain ⟨hsrc_ne, hsrc_q, hsrc_inf⟩ := (fromSource_inv h6).2
                refine ⟨hi ▸ hemp, ?_, ?_, hs ▸ hsrc_ne, hs ▸ hsrc_q, ?_⟩
                · rw [← hi]
                  intro hmem
                  have := List.mem_takeWhile_imp hmem
                  simp at this
                · rw [← hi]
                  exact ((List.takeWhile_prefix _).isInfix).trans hcs4.isInfix
                · rw [← hs]
                  exact (hsrc_inf.trans hs7.isInfix).trans hcs4.isInfix

theorem matchNamespaceAt_inv {cs : List Char} {al : Option (List Char)} {src : List Char}
    (h : matchNamespaceAt cs = some (al, src)) :
    (al = none ∨ ∃ w, al = some w ∧ w ≠ [] ∧ (∀ c ∈ w, isWordChar c = true)) ∧
    src ≠ [] ∧ (∀ c ∈ src, isQuote c = false) ∧ src <:+: cs := by
  unfold matchNamespaceAt at h
  cases h1 : stripLit exportChars cs with
  | none => simp [h1] at h
  | some cs1 =>
    simp only [h1, Option.some_bind] at h
    cases h2 : ws1 cs1 with
    | none => simp [h2] at h
    | some cs2 =>
      simp only [h2, Option.some_bind] at h
      cases h3 : expectChar starChar (typeOpt cs2) with
      | none => simp [h3] at h
      | some cs3 =>
        simp only [h3, Option.some_bind] at h
        cases hw1 : ws1 cs3 with
        | none => simp [hw1] at h
        | some cs4 =>
          simp only [hw1, Option.some_bind] at h
          have hcs4 : cs4 <:+ cs := by
            have h3' := expectChar_eq_some.mp h3
            have hst : (starChar :: cs3) <:+ cs2 := h3' ▸ typeOpt_suffix cs2
            exact (ws1_suffix hw1).trans ((List.suffix_cons starChar cs3).trans
              ((hst.trans (ws1_suffix h2)).trans (suffix_of_stripLit h1)))
          cases ha : stripLit asChars cs4 with
          | none =>
            rw [ha] at h
            cases h6 : fromSource cs4 with
            | none => simp [h6] at h
            | some src0 =>
              simp only [h6, Option.some_bind, Option.some.injEq, Prod.mk.injEq] at h
              obtain ⟨hal, hs⟩ := h
              obtain ⟨hsrc_ne, hsrc_q, hsrc_inf⟩ := (fromSource_inv h6).2
              exact ⟨Or.inl hal.symm, hs ▸ hsrc_ne, hs ▸ hsrc_q,
                hs ▸ (hsrc_inf.trans hcs4.isInfix)⟩
          | some csA =>
            rw [ha] at h
            cases hB : ws1 csA with
            | none => simp [hB] at h
            | some csB =>
              simp only [hB, Option.some_bind] at h
              by_cases hw : csB.takeWhile isWordChar = []
              · simp [hw] at h
              · rw [if_neg hw] at h
                cases hD : ws1 (csB.dropWhile isWordChar) with
                | none => simp [hD] at h
                | some csD =>
                  simp only [hD, Option.some_bind] at h
                  cases h6 : fromSource csD with
                  | none => simp [h6] at h
                  | some src0 =>
                    simp only [h6, Option.some_bind, Option.some.injEq, Prod.mk.injEq] at h
                    obtain ⟨hal, hs⟩ := h
                    obtain ⟨hsrc_ne, hsrc_q, hsrc_inf⟩ := (fromSource_inv h6).2
                    have hcsD : csD <:+ cs4 := by
                      have hcA : csA <:+ cs4 := suffix_of_stripLit ha
                      have hcB : csB <:+ csA := ws1_suffix hB
                      exact ((ws1_suffix hD).trans
                        ((List.dropWhile_suffix _).trans hcB)).trans hcA
                    refine ⟨Or.inr ⟨csB.takeWhile isWordChar, hal.symm, hw, ?_⟩,
                      hs ▸ hsrc_ne, hs ▸ hsrc_q,
                      hs ▸ ((hsrc_inf.trans hcsD.isInfix).trans hcs4.isInfix)⟩
                    intro c hc
                    exact List.mem_takeWhile_imp hc

/-- The well-formedness facts that every parsed record of kind `named` or
`namespace` enjoys, provided the source line contained no newline. -/
def RecOK (e : ExportInfo) : Prop :=
  e.source.data ≠ [] ∧ (∀ c ∈ e.source.data, isQuote c = false) ∧
  '\n' ∉ e.source.data ∧
  (e.is_type_export = false → ¬ (exportTypeChars <:+: e.source.data)) ∧
  (e.export_type = "namespace" →
    (e.specifier = "*" ∨
      (e.specifier.data ≠ [] ∧ ∀ c ∈ e.specifier.data, isWordChar c = true))) ∧
  (e.export_type = "named" →
    (e.specifier.data ≠ [] ∧ rsTrim e.specifier.data = e.specifier.data ∧
     ',' ∉ e.specifier.data ∧ rb ∉ e.specifier.data ∧ '\n' ∉ e.specifier.data ∧
     (e.is_type_export = false → ¬ (exportTypeChars <:+: e.specifier.data))))

theorem parse_line_RecOK {l : List Char} (hnl : '\n' ∉ l) (n : Nat) :
    ∀ e ∈ parse_line l n, e.export_type ≠ "default" → RecOK e := by
  intro e he hnd
  have hTl : rsTrim l <:+: l := rsTrim_infix l
  simp only [parse_line] at he
  split at he
  · exact absurd he (List.not_mem_nil e)
  · split at he
    · -- named branch
      next pairs hpairs =>
      obtain ⟨p, hp_mem, rfl⟩ := List.mem_map.mp he
      unfold parse_named_export at hpairs
      cases hsn : searchNamed (rsTrim l) with
      | none => rw [hsn] at hpairs; exact absurd hpairs (by simp)
      | some r =>
        obtain ⟨inner, src⟩ := r
        rw [hsn] at hpairs
        simp only [] at hpairs
        split at hpairs
        · exact absurd hpairs (by simp)
        · simp only [Option.some.injEq] at hpairs
          subst hpairs
          obtain ⟨s, hs_mem, hp_eq⟩ := List.mem_map.mp hp_mem
          subst hp_eq
          obtain ⟨hs_mem2, hs_ne⟩ := List.mem_filter.mp hs_mem
          obtain ⟨seg, hseg_mem, hs_eq⟩ := List.mem_map.mp hs_mem2
          obtain ⟨t, ht_suf, hmt⟩ := searchNamed_some hsn
          obtain ⟨hin_ne, hin_rb, hin_inf, hsrc_ne, hsrc_q, hsrc_inf⟩ := matchNamedAt_inv hmt
          have hsrc_T : src <:+: rsTrim l := hsrc_inf.trans ht_suf.isInfix
          have hsrc_l : src <:+: l := hsrc_T.trans hTl
          have hseg_in : seg <:+: inner := splitOnChar_mem_infix hseg_mem
          have hs_seg : s <:+: seg := hs_eq ▸ rsTrim_infix seg
          have hs_T : s <:+: rsTrim l :=
            ((hs_seg.trans hseg_in).trans hin_inf).trans ht_suf.isInfix
          have hs_l : s <:+: l := hs_T.trans hTl
          refine ⟨hsrc_ne, hsrc_q, fun hc => hnl (hsrc_l.subset hc), ?_,
            fun hcontra => absurd (show ("named" : String) = "namespace" from hcontra)
              (by decide),
            fun _ => ?_⟩
          · intro hisT hET
            have h1 : containsSub exportTypeChars (rsTrim l) = false := hisT
            have h2 : containsSub exportTypeChars (rsTrim l) = true :=
              containsSub_iff.mpr (hET.trans hsrc_T)
            rw [h2] at h1
            exact absurd h1 (by decide)
          · refine ⟨?_, ?_, ?_, ?_, ?_, ?_⟩
            · show s ≠ []
              intro hnil
              rw [hnil] at hs_ne
              exact absurd hs_ne (by decide)
            · show rsTrim s = s
              rw [← hs_eq]
              exact rsTrim_idem seg
            · show ',' ∉ s
              exact fun hc => splitOnChar_mem_no_sep hseg_mem (hs_seg.subset hc)
            · show rb ∉ s
              exact fun hc => hin_rb ((hs_seg.trans hseg_in).subset hc)
            · show '\n' ∉ s
              exact fun hc => hnl (hs_l.subset hc)
            · intro hisT hET
              have h1 : containsSub exportTypeChars (rsTrim l) = false := hisT
              have hET' : exportTypeChars <:+: s := hET
              have h2 : containsSub exportTypeChars (rsTrim l) = true :=
                containsSub_iff.mpr (hET'.trans hs_T)
              rw [h2] at h1
              exact absurd h1 (by decide)
    · split at he
      · -- default branch: excluded by the kind hypothesis
        rw [List.mem_singleton] at he
        subst he
        exact absurd rfl hnd
      · split at he
        · -- namespace branch
          next p hns =>
          rw [List.mem_singleton] at he
          subst he
          unfold parse_namespace_export at hns
          cases hsn : searchNamespace (rsTrim l) with
          | none => rw [hsn] at hns; exact absurd hns (by simp)
          | some r =>
            obtain ⟨al, src⟩ := r
            rw [hsn] at hns
            have hns2 : (al.getD [starChar], src) = p := by simpa using hns
            subst hns2
            obtain ⟨t, ht_suf, hmt⟩ := searchNamespace_some hsn
            obtain ⟨hal, hsrc_ne, hsrc_q, hsrc_inf⟩ := matchNamespaceAt_inv hmt
            have hsrc_T : src <:+: rsTrim l := hsrc_inf.trans ht_suf.isInfix
            have hsrc_l : src <:+: l := hsrc_T.trans hTl
            refine ⟨hsrc_ne, hsrc_q, fun hc => hnl (hsrc_l.subset hc), ?_, fun _ => ?_,
              fun hcontra => absurd (show ("namespace" : String) = "named" from hcontra)
                (by decide)⟩
            · intro hisT hET
              have h1 : containsSub exportTypeChars (rsTrim l) = false := hisT
              have h2 : containsSub exportTypeChars (rsTrim l) = true :=
                containsSub_iff.mpr (hET.trans hsrc_T)
              rw [h2] at h1
              exact absurd h1 (by decide)
            · rcases hal with h | ⟨w, hw_eq, hw_ne, hw⟩
              · subst h
                exact Or.inl (show String.mk [starChar] = "*" by decide)
              · subst hw_eq
                refine Or.inr ⟨?_, ?_⟩
                · show w ≠ []
                  exact hw_ne
                · show ∀ c ∈ w, isWordChar c = true
                  exact hw
        · exact absurd he (List.not_mem_nil e)

theorem parseAll_RecOK :
    ∀ (ls : List (List Char)) (i : Nat), (∀ l ∈ ls, '\n' ∉ l) →
      ∀ e ∈ parseAll i ls, e.export_type ≠ "default" → RecOK e := by
  intro ls
  induction ls with
  | nil => intro i _ e he; exact absurd he (List.not_mem_nil e)
  | cons l ls ih =>
    intro i hnl e he hnd
    simp only [parseAll] at he
    rcases List.mem_append.mp he with h | h
    · exact parse_line_RecOK (hnl l (List.mem_cons_self _ _)) i e h hnd
    · exact ih (i + 1) (fun x hx => hnl x (List.mem_cons_of_mem _ hx)) e h hnd

theorem parsedRecords_RecOK (s : String) :
    ∀ e ∈ parsedRecords s, e.export_type ≠ "default" → RecOK e := by
  intro e he hnd
  exact parseAll_RecOK (rustLines s.data) 1
    (fun x hx => rustLines_no_nl hx) e he hnd

/-! ## Structure of the source grouping -/

theorem insertGrouped_sound (e : ExportInfo) :
    ∀ m, (∀ g ∈ m, (∀ x ∈ g.2.1, x.source = g.1 ∧ x.is_type_export = false) ∧
                   (∀ x ∈ g.2.2, x.source = g.1 ∧ x.is_type_export = true) ∧
                   g.2.1 ++ g.2.2 ≠ []) →
      ∀ g ∈ insertGrouped m e,
        (∀ x ∈ g.2.1, x.source = g.1 ∧ x.is_type_export = false) ∧
        (∀ x ∈ g.2.2, x.source = g.1 ∧ x.is_type_export = true) ∧
        g.2.1 ++ g.2.2 ≠ [] := by
  intro m
  induction m with
  | nil =>
    intro _ g hg
    unfold insertGrouped at hg
    by_cases ht : e.is_type_export
    · rw [if_pos ht, List.mem_singleton] at hg
      subst hg
      refine ⟨by simp, ?_, by simp⟩
      intro x hx
      rw [List.mem_singleton] at hx
      subst hx
      exact ⟨rfl, ht⟩
    · rw [if_neg ht, List.mem_singleton] at hg
      subst hg
      refine ⟨?_, by simp, by simp⟩
      intro x hx
      rw [List.mem_singleton] at hx
      subst hx
      exact ⟨rfl, Bool.eq_false_iff.mpr ht⟩
  | cons gm m ih =>
    intro hm g hg
    obtain ⟨k, vs, ts⟩ := gm
    unfold insertGrouped at hg
    by_cases hk : k = e.source
    · rw [if_pos hk] at hg
      have hhead := hm (k, vs, ts) (List.mem_cons_self _ _)
      by_cases ht : e.is_type_export
      · rw [if_pos ht] at hg
        rcases List.mem_cons.mp hg with h | h
        · subst h
          refine ⟨hhead.1, ?_, by simp⟩
          intro x hx
          rcases List.mem_append.mp hx with h1 | h1
          · exact hhead.2.1 x h1
          · rw [List.mem_singleton] at h1
            subst h1
            exact ⟨hk.symm, ht⟩
        · exact hm g (List.mem_cons_of_mem _ h)
      · rw [if_neg ht] at hg
        rcases List.mem_cons.mp hg with h | h
        · subst h
          refine ⟨?_, hhead.2.1, by simp⟩
          intro x hx
          rcases List.mem_append.mp hx with h1 | h1
          · exact hhead.1 x h1
          · rw [List.mem_singleton] at h1
            subst h1
            exact ⟨hk.symm, Bool.eq_false_iff.mpr ht⟩
        · exact hm g (List.mem_cons_of_mem _ h)
    · rw [if_neg hk] at hg
      rcases List.mem_cons.mp hg with h | h
      · exact h ▸ hm (k, vs, ts) (List.mem_cons_self _ _)
      · exact ih (fun g' hg' => hm g' (List.mem_cons_of_mem _ hg')) g h

theorem groupBySource_sound :
    ∀ (l : List ExportInfo)
      (m : List (String × List ExportInfo × List ExportInfo)),
      (∀ g ∈ m, (∀ x ∈ g.2.1, x.source = g.1 ∧ x.is_type_export = false) ∧
                (∀ x ∈ g.2.2, x.source = g.1 ∧ x.is_type_export = true) ∧
                g.2.1 ++ g.2.2 ≠ []) →
      ∀ g ∈ l.foldl insertGrouped m,
        (∀ x ∈ g.2.1, x.source = g.1 ∧ x.is_type_export = false) ∧
        (∀ x ∈ g.2.2, x.source = g.1 ∧ x.is_type_export = true) ∧
        g.2.1 ++ g.2.2 ≠ [] := by
  intro l
  induction l with
  | nil => intro m hm; simpa using hm
  | cons e es ih =>
    intro m hm
    simp only [List.foldl_cons]
    exact ih _ (insertGrouped_sound e m hm)

theorem insertGrouped_keys_sub (e : ExportInfo) :
    ∀ m, ∀ k ∈ (insertGrouped m e).map (fun g => g.1),
      k ∈ m.map (fun g => g.1) ∨ k = e.source := by
  intro m
  induction m with
  | nil =>
    intro k hk
    unfold insertGrouped at hk
    split at hk <;> simpa using hk
  | cons gm m ih =>
    intro k hk
    obtain ⟨k0, vs, ts⟩ := gm
    unfold insertGrouped at hk
    by_cases hk0 : k0 = e.source
    · rw [if_pos hk0] at hk
      refine Or.inl ?_
      simp only [List.map_cons, List.mem_cons]
      split at hk <;> simp only [List.map_cons, List.mem_cons] at hk <;> exact hk
    · rw [if_neg hk0] at hk
      simp only [List.map_cons, List.mem_cons] at hk
      rcases hk with h | h
      · exact Or.inl (by simp only [List.map_cons, List.mem_cons]; exact Or.inl h)
      · rcases ih k h with h1 | h1
        · exact Or.inl (by simp only [List.map_cons, List.mem_cons]; exact Or.inr h1)
        · exact Or.inr h1

theorem insertGrouped_keys_nodup (e : ExportInfo) :
    ∀ m, ((m.map (fun g => g.1)).Nodup) →
      ((insertGrouped m e).map (fun g => g.1)).Nodup := by
  intro m
  induction m with
  | nil =>
    intro _
    unfold insertGrouped
    split <;> simp
  | cons gm m ih =>
    intro hnd
    obtain ⟨k0, vs, ts⟩ := gm
    simp only [List.map_cons, List.nodup_cons] at hnd
    unfold insertGrouped
    by_cases hk0 : k0 = e.source
    · rw [if_pos hk0]
      split <;> simp only [List.map_cons, List.nodup_cons] <;> exact ⟨hnd.1, hnd.2⟩
    · rw [if_neg hk0]
      simp only [List.map_cons, List.nodup_cons]
      refine ⟨?_, ih hnd.2⟩
      intro hmem
      rcases insertGrouped_keys_sub e m k0 hmem with h | h
      · exact hnd.1 h
      · exact hk0 h

theorem groupBySource_keys_nodup :
    ∀ (l : List ExportInfo) (m : List (String × List ExportInfo × List ExportInfo)),
      ((m.map (fun g => g.1)).Nodup) →
      (((l.foldl insertGrouped m).map (fun g => g.1)).Nodup) := by
  intro l
  induction l with
  | nil => intro m hm; simpa using hm
  | cons e es ih =>
    intro m hm
    simp only [List.foldl_cons]
    exact ih _ (insertGrouped_keys_nodup e m hm)

theorem insertGrouped_perm (e : ExportInfo) :
    ∀ m, ((insertGrouped m e).map (fun g => g.2.1 ++ g.2.2)).flatten.Perm
      ((m.map (fun g => g.2.1 ++ g.2.2)).flatten ++ [e]) := by
  intro m
  induction m with
  | nil =>
    unfold insertGrouped
    split <;> simp
  | cons gm m ih =>
    obtain ⟨k, vs, ts⟩ := gm
    unfold insertGrouped
    by_cases hk : k = e.source
    · rw [if_pos hk]
      by_cases ht : e.is_type_export
      · rw [if_pos ht]
        simp only [List.map_cons, List.flatten_cons, List.append_assoc,
          List.singleton_append]
        refine List.Perm.append_left vs (List.Perm.append_left ts ?_)
        exact (List.perm_append_singleton e _).symm
      · rw [if_neg ht]
        simp only [List.map_cons, List.flatten_cons, List.append_assoc,
          List.singleton_append]
        refine List.Perm.append_left vs ?_
        have h1 := (List.perm_append_singleton e
          (ts ++ (m.map (fun g => g.2.1 ++ g.2.2)).flatten)).symm
        rw [List.append_assoc] at h1
        exact h1
    · rw [if_neg hk]
      simp only [List.map_cons, List.flatten_cons, List.append_assoc]
      exact List.Perm.append_left vs (List.Perm.append_left ts ih)

theorem groupBySource_perm (l : List ExportInfo) :
    ((groupBySource l).map (fun g => g.2.1 ++ g.2.2)).flatten.Perm l := by
  have key : ∀ (l : List ExportInfo) (m : List (String × List ExportInfo × List ExportInfo)),
      ((l.foldl insertGrouped m).map (fun g => g.2.1 ++ g.2.2)).flatten.Perm
        ((m.map (fun g => g.2.1 ++ g.2.2)).flatten ++ l) := by
    intro l
    induction l with
    | nil => intro m; simp
    | cons e es ih =>
      intro m
      simp only [List.foldl_cons]
      refine (ih (insertGrouped m e)).trans ?_
      have h1 := (insertGrouped_perm e m).append_right es
      rw [List.append_assoc, List.singleton_append] at h1
      exact h1
  have h := key l []
  simpa [groupBySource] using h

theorem specDedup_keys_nodup : ∀ l : List ExportInfo,
    ((specDedup l).map dedupKey).Nodup := by
  intro l
  induction l using specDedup.induct with
  | case1 => simp [specDedup]
  | case2 e es ih =>
    rw [specDedup_cons, List.map_cons, List.nodup_cons]
    refine ⟨?_, ih⟩
    intro hmem
    obtain ⟨x, hx, hkey⟩ := List.mem_map.mp hmem
    have hx2 := specDedup_sublist _ |>.subset hx
    have := List.of_mem_filter hx2
    rw [hkey] at this
    simp at this

theorem specDedup_eq_self_of_nodup :
    ∀ l : List ExportInfo, (l.map dedupKey).Nodup → specDedup l = l := by
  intro l
  induction l using specDedup.induct with
  | case1 => intro _; exact specDedup_nil
  | case2 e es ih =>
    intro hnd
    rw [List.map_cons, List.nodup_cons] at hnd
    have hf : es.filter (fun x => !(dedupKey x == dedupKey e)) = es := by
      apply List.filter_eq_self.mpr
      intro x hx
      rw [Bool.not_eq_true', beq_eq_false_iff_ne]
      intro hkey
      exact hnd.1 (List.mem_map.mpr ⟨x, hx, hkey⟩)
    rw [specDedup_cons, hf]
    rw [hf] at ih
    exact congrArg _ (ih hnd.2)

theorem filter_pair_perm {p q : ExportInfo → Bool} :
    ∀ l : List ExportInfo,
      (∀ e ∈ l, (p e = true ∧ q e = false) ∨ (p e = false ∧ q e = true)) →
      (l.filter p ++ l.filter q).Perm l := by
  intro l
  induction l with
  | nil => intro _; simp
  | cons e es ih =>
    intro h
    have hrest := fun x hx => h x (List.mem_cons_of_mem _ hx)
    rcases h e (List.mem_cons_self _ _) with ⟨hp, hq⟩ | ⟨hp, hq⟩
    · rw [List.filter_cons_of_pos hp, List.filter_cons_of_neg (by rw [hq]; exact Bool.false_ne_true)]
      exact (ih hrest).cons e
    · rw [List.filter_cons_of_neg (by rw [hp]; exact Bool.false_ne_true),
        List.filter_cons_of_pos hq]
      exact List.perm_middle.trans ((ih hrest).cons e)

theorem foldl_insert_uniform (k : String) :
    ∀ (b : List ExportInfo) (vs ts : List ExportInfo), (∀ x ∈ b, x.source = k) →
      b.foldl insertGrouped [(k, vs, ts)]
        = [(k, vs ++ b.filter (fun e => !(e.is_type_export)),
            ts ++ b.filter (fun e => e.is_type_export))] := by
  intro b
  induction b with
  | nil => intro vs ts _; simp
  | cons e es ih =>
    intro vs ts hb
    have hek : k = e.source := (hb e (List.mem_cons_self _ _)).symm
    simp only [List.foldl_cons]
    rw [show insertGrouped [(k, vs, ts)] e
        = if e.is_type_export then [(k, vs, ts ++ [e])] else [(k, vs ++ [e], ts)] from by
      unfold insertGrouped
      rw [if_pos hek]
      split <;> rfl]
    by_cases ht : e.is_type_export
    · rw [if_pos ht, ih _ _ (fun x hx => hb x (List.mem_cons_of_mem _ hx))]
      rw [List.filter_cons_of_neg (by rw [ht]; simp), List.filter_cons_of_pos (by rw [ht])]
      simp [List.append_assoc]
    · rw [if_neg ht, ih _ _ (fun x hx => hb x (List.mem_cons_of_mem _ hx))]
      have ht' : e.is_type_export = false := Bool.eq_false_iff.mpr ht
      rw [List.filter_cons_of_pos (by rw [ht']; simp),
        List.filter_cons_of_neg (by rw [ht']; simp)]
      simp [List.append_assoc]

theorem foldl_insert_skip (k : String) (g : List ExportInfo × List ExportInfo) :
    ∀ (l : List ExportInfo) (m : List (String × List ExportInfo × List ExportInfo)),
      (∀ x ∈ l, x.source ≠ k) →
      l.foldl insertGrouped ((k, g) :: m) = (k, g) :: l.foldl insertGrouped m := by
  intro l
  induction l with
  | nil => intro m _; rfl
  | cons e es ih =>
    intro m hl
    simp only [List.foldl_cons]
    rw [insertGrouped_cons_ne k g.1 g.2 m e
      (fun hc => hl e (List.mem_cons_self _ _) hc.symm)]
    exact ih _ (fun x hx => hl x (List.mem_cons_of_mem _ hx))

theorem groupBySource_blocks :
    ∀ (bs : List (String × List ExportInfo)),
      (∀ b ∈ bs, b.2 ≠ [] ∧ ∀ x ∈ b.2, x.source = b.1) →
      ((bs.map (fun b => b.1)).Nodup) →
      groupBySource ((bs.map (fun b => b.2)).flatten)
        = bs.map (fun b => (b.1, b.2.filter (fun e => !(e.is_type_export)),
            b.2.filter (fun e => e.is_type_export))) := by
  intro bs
  induction bs with
  | nil => intro _ _; rfl
  | cons b rest ih =>
    intro hb hnd
    obtain ⟨k, b1⟩ := b
    have hb1 := hb (k, b1) (List.mem_cons_self _ _)
    simp only [List.map_cons, List.flatten_cons]
    unfold groupBySource
    rw [List.foldl_append]
    cases hb1rec : b1 with
    | nil => exact absurd hb1rec hb1.1
    | cons e es =>
      have hek : e.source = k := hb1.2 e (hb1rec ▸ List.mem_cons_self _ _)
      have hstep : insertGrouped [] e
          = [(k, [e].filter (fun x => !(x.is_type_export)),
              [e].filter (fun x => x.is_type_export))] := by
        unfold insertGrouped
        by_cases ht : e.is_type_export
        · rw [if_pos ht, List.filter_cons_of_neg (by rw [ht]; simp),
            List.filter_cons_of_pos (by rw [ht]), hek]
          rfl
        · have ht' : e.is_type_export = false := Bool.eq_false_iff.mpr ht
          rw [if_neg ht, List.filter_cons_of_pos (by rw [ht']; simp),
            List.filter_cons_of_neg (by rw [ht']; simp), hek]
          rfl
      rw [show (e :: es).foldl insertGrouped [] = es.foldl insertGrouped (insertGrouped [] e)
          from rfl]
      rw [hstep]
      rw [foldl_insert_uniform k es _ _
        (fun x hx => hb1.2 x (hb1rec ▸ List.mem_cons_of_mem _ hx))]
      have hkeys : ∀ x ∈ (rest.map (fun b => b.2)).flatten, x.source ≠ k := by
        intro x hx hxk
        obtain ⟨l2, hl2, hxl2⟩ := List.mem_flatten.mp hx
        obtain ⟨b2, hb2, hb2eq⟩ := List.mem_map.mp hl2
        have := (hb b2 (List.mem_cons_of_mem _ hb2)).2 x (hb2eq ▸ hxl2)
        rw [List.map_cons, List.nodup_cons] at hnd
        exact hnd.1 (List.mem_map.mpr ⟨b2, hb2, by rw [← this, hxk]⟩)
      rw [foldl_insert_skip k _ _ _ hkeys]
      rw [show ((rest.map (fun b => b.2)).flatten).foldl insertGrouped []
          = groupBySource ((rest.map (fun b => b.2)).flatten) from rfl]
      rw [ih (fun b2 hb2 => hb b2 (List.mem_cons_of_mem _ hb2))
        (by rw [List.map_cons, List.nodup_cons] at hnd; exact hnd.2)]
      simp only [← List.filter_append, List.singleton_append]

theorem flatten_map_singleton {α β : Type} (f : α → β) :
    ∀ l : List α, ((l.map (fun e => [f e])).flatten) = l.map f := by
  intro l
  induction l with
  | nil => rfl
  | cons e es ih => simp [ih]

theorem parse_line_not_export {l : List Char}
    (h : isPrefixL exportChars (rsTrim l) = false) (n : Nat) :
    parse_line l n = [] := by
  simp [parse_line, h]

/-! ## Statement builders in template form -/

theorem nsStmtV_star (k : String) (e : ExportInfo) (he : e.specifier = "*") :
    nsStmtV k e = 'e' :: 'x' :: 'p' :: 'o' :: 'r' :: 't' :: ' ' :: '*' :: ' ' ::
      'f' :: 'r' :: 'o' :: 'm' :: ' ' :: '"' :: (k.data ++ '"' :: [';']) := by
  unfold nsStmtV
  rw [if_pos (show (e.specifier == "*") = true by rw [he]; decide)]
  simp only [List.append_assoc]
  rfl

theorem nsStmtV_as (k : String) (e : ExportInfo) (he : ¬ (e.specifier == "*") = true) :
    nsStmtV k e = 'e' :: 'x' :: 'p' :: 'o' :: 'r' :: 't' :: ' ' :: '*' :: ' ' ::
      'a' :: 's' :: ' ' ::
      (e.specifier.data ++ ' ' :: 'f' :: 'r' :: 'o' :: 'm' :: ' ' :: '"' ::
        (k.data ++ '"' :: [';'])) := by
  unfold nsStmtV
  rw [if_neg he]
  simp only [List.append_assoc]
  rfl

theorem nsStmtT_star (k : String) (e : ExportInfo) (he : e.specifier = "*") :
    nsStmtT k e = 'e' :: 'x' :: 'p' :: 'o' :: 'r' :: 't' :: ' ' ::
      't' :: 'y' :: 'p' :: 'e' :: ' ' :: '*' :: ' ' ::
      'f' :: 'r' :: 'o' :: 'm' :: ' ' :: '"' :: (k.data ++ '"' :: [';']) := by
  unfold nsStmtT
  rw [if_pos (show (e.specifier == "*") = true by rw [he]; decide)]
  simp only [List.append_assoc]
  rfl

theorem nsStmtT_as (k : String) (e : ExportInfo) (he : ¬ (e.specifier == "*") = true) :
    nsStmtT k e = 'e' :: 'x' :: 'p' :: 'o' :: 'r' :: 't' :: ' ' ::
      't' :: 'y' :: 'p' :: 'e' :: ' ' :: '*' :: ' ' :: 'a' :: 's' :: ' ' ::
      (e.specifier.data ++ ' ' :: 'f' :: 'r' :: 'o' :: 'm' :: ' ' :: '"' ::
        (k.data ++ '"' :: [';'])) := by
  unfold nsStmtT
  rw [if_neg he]
  simp only [List.append_assoc]
  rfl

theorem namedStmtV_eq (k : String) (S : List String) :
    namedStmtV k S = 'e' :: 'x' :: 'p' :: 'o' :: 'r' :: 't' :: ' ' :: '\x7b' :: ' ' ::
      (intercalateC [',', ' '] (S.map String.data) ++ ' ' :: '\x7d' :: ' ' ::
        'f' :: 'r' :: 'o' :: 'm' :: ' ' :: '"' :: (k.data ++ '"' :: [';'])) := by
  unfold namedStmtV
  simp only [List.append_assoc]
  rfl

theorem namedStmtT_eq (k : String) (S : List String) :
    namedStmtT k S = 'e' :: 'x' :: 'p' :: 'o' :: 'r' :: 't' :: ' ' ::
      't' :: 'y' :: 'p' :: 'e' :: ' ' :: '\x7b' :: ' ' ::
      (intercalateC [',', ' '] (S.map String.data) ++ ' ' :: '\x7d' :: ' ' ::
        'f' :: 'r' :: 'o' :: 'm' :: ' ' :: '"' :: (k.data ++ '"' :: [';'])) := by
  unfold namedStmtT
  simp only [List.append_assoc]
  rfl

/-! ## Reparsing the generated statements -/

theorem parse_nsV (k : String) (e : ExportInfo) (hOK : RecOK e)
    (hkind : e.export_type = "namespace") (hsrc : e.source = k)
    (hty : e.is_type_export = false) :
    parse_line (nsStmtV k e) 0 = [setLine0 e] := by
  have hkne : k.data ≠ [] := by rw [← hsrc]; exact hOK.1
  have hkq : ∀ c ∈ k.data, isQuote c = false := by rw [← hsrc]; exact hOK.2.1
  have hkET : ¬ (exportTypeChars <:+: k.data) := by rw [← hsrc]; exact hOK.2.2.2.1 hty
  rcases hOK.2.2.2.2.1 hkind with hstar | ⟨hwne, hw⟩
  · rw [nsStmtV_star k e hstar, parse_line_nsV k.data 0 hkne hkq hkET]
    congr 1
    simp only [setLine0]
    rw [← hsrc, ← hkind, ← hty, ← hstar]
  · have hnstar : ¬ (e.specifier == "*") = true := by
      intro hb
      have hb2 : e.specifier = "*" := by simpa using hb
      have h2 := hw '*' (by rw [hb2]; decide)
      exact absurd h2 (by decide)
    rw [nsStmtV_as k e hnstar,
      parse_line_nsVAs e.specifier.data k.data 0 hwne hw hkne hkq hkET]
    congr 1
    simp only [setLine0]
    rw [← hsrc, ← hkind, ← hty]

theorem parse_nsT (k : String) (e : ExportInfo) (hOK : RecOK e)
    (hkind : e.export_type = "namespace") (hsrc : e.source = k)
    (hty : e.is_type_export = true) :
    parse_line (nsStmtT k e) 0 = [setLine0 e] := by
  have hkne : k.data ≠ [] := by rw [← hsrc]; exact hOK.1
  have hkq : ∀ c ∈ k.data, isQuote c = false := by rw [← hsrc]; exact hOK.2.1
  rcases hOK.2.2.2.2.1 hkind with hstar | ⟨hwne, hw⟩
  · rw [nsStmtT_star k e hstar, parse_line_nsT k.data 0 hkne hkq]
    congr 1
    simp only [setLine0]
    rw [← hsrc, ← hkind, ← hty, ← hstar]
  · have hnstar : ¬ (e.specifier == "*") = true := by
      intro hb
      have hb2 : e.specifier = "*" := by simpa using hb
      have h2 := hw '*' (by rw [hb2]; decide)
      exact absurd h2 (by decide)
    rw [nsStmtT_as k e hnstar,
      parse_line_nsTAs e.specifier.data k.data 0 hwne hw hkne hkq]
    congr 1
    simp only [setLine0]
    rw [← hsrc, ← hkind, ← hty]

theorem parse_namedV (k : String) (es : List ExportInfo) (hne : es ≠ [])
    (hOK : ∀ e ∈ es, RecOK e) (hkind : ∀ e ∈ es, e.export_type = "named")
    (hsrc : ∀ e ∈ es, e.source = k) (hty : ∀ e ∈ es, e.is_type_export = false)
    (hk : k.data ≠ []) (hkq : ∀ c ∈ k.data, isQuote c = false)
    (hkET : ¬ (exportTypeChars <:+: k.data)) :
    parse_line (namedStmtV k (es.map (fun e => e.specifier))) 0 = es.map setLine0 := by
  rw [namedStmtV_eq k (es.map (fun e => e.specifier))]
  rw [parse_line_namedV ((es.map (fun e => e.specifier)).map String.data) k.data 0 hk hkq
    (by intro h; exact hne (by simpa using h))
    (by
      intro s hs
      rw [List.map_map] at hs
      obtain ⟨e, he, rfl⟩ := List.mem_map.mp hs
      have h := (hOK e he).2.2.2.2.2 (hkind e he)
      exact ⟨h.1, h.2.1, h.2.2.1, h.2.2.2.1⟩)
    hkET
    (by
      intro s hs
      rw [List.map_map] at hs
      obtain ⟨e, he, rfl⟩ := List.mem_map.mp hs
      exact (hOK e he).2.2.2.2.2 (hkind e he) |>.2.2.2.2.2 (hty e he))]
  rw [List.map_map, List.map_map]
  apply List.map_congr_left
  intro e he
  simp only [Function.comp, setLine0]
  rw [← hsrc e he, ← hkind e he, ← hty e he]

theorem parse_namedT (k : String) (es : List ExportInfo) (hne : es ≠ [])
    (hOK : ∀ e ∈ es, RecOK e) (hkind : ∀ e ∈ es, e.export_type = "named")
    (hsrc : ∀ e ∈ es, e.source = k) (hty : ∀ e ∈ es, e.is_type_export = true)
    (hk : k.data ≠ []) (hkq : ∀ c ∈ k.data, isQuote c = false) :
    parse_line (namedStmtT k (es.map (fun e => e.specifier))) 0 = es.map setLine0 := by
  rw [namedStmtT_eq k (es.map (fun e => e.specifier))]
  rw [parse_line_namedT ((es.map (fun e => e.specifier)).map String.data) k.data 0 hk hkq
    (by intro h; exact hne (by simpa using h))
    (by
      intro s hs
      rw [List.map_map] at hs
      obtain ⟨e, he, rfl⟩ := List.mem_map.mp hs
      have h := (hOK e he).2.2.2.2.2 (hkind e he)
      exact ⟨h.1, h.2.1, h.2.2.1, h.2.2.2.1⟩)]
  rw [List.map_map, List.map_map]
  apply List.map_congr_left
  intro e he
  simp only [Function.comp, setLine0]
  rw [← hsrc e he, ← hkind e he, ← hty e he]

/-! ## Shape of the generated statements -/

theorem genV_mem_shape (k : String) (vs : List ExportInfo)
    (hOK : ∀ e ∈ vs, RecOK e)
    (hkinds : ∀ e ∈ vs, e.export_type = "namespace" ∨ e.export_type = "named")
    (hknl : '\n' ∉ k.data) :
    ∀ l ∈ genValueExports vs k,
      l.head? = some 'e' ∧ isPrefixL exportChars l = true ∧
        l.getLast? = some ';' ∧ '\n' ∉ l := by
  intro l hl
  rw [genValueExports_eq] at hl
  have hdef : vs.filter isDefaultK = [] := List.filter_eq_nil_iff.mpr (by
    intro e he
    rcases hkinds e he with h | h <;> simp [isDefaultK, h])
  rw [hdef, List.map_nil] at hl
  rcases List.mem_append.mp hl with h1 | h1
  · rcases List.mem_append.mp h1 with h2 | h2
    · obtain ⟨e, he, rfl⟩ := List.mem_map.mp h2
      have heOK := hOK e (List.mem_filter.mp he).1
      have hns : e.export_type = "namespace" := by
        have := (List.mem_filter.mp he).2
        simpa [isNsK] using this
      rcases heOK.2.2.2.2.1 hns with hstar | ⟨hwne, hw⟩
      · rw [nsStmtV_star k e hstar]
        refine ⟨rfl, isPrefixL_iff.mpr ⟨_, rfl⟩, ?_, ?_⟩
        · exact getLast?_two ['e', 'x', 'p', 'o', 'r', 't', ' ', '*', ' ',
            'f', 'r', 'o', 'm', ' ', '"'] k.data
        · intro hmem
          have hmem2 : '\n' ∈ ['e', 'x', 'p', 'o', 'r', 't', ' ', '*', ' ',
              'f', 'r', 'o', 'm', ' ', '"'] ++ (k.data ++ ['"', ';']) := hmem
          rcases List.mem_append.mp hmem2 with h | h
          · revert h; decide
          · rcases List.mem_append.mp h with h | h
            · exact hknl h
            · revert h; decide
      · have hnstar : ¬ (e.specifier == "*") = true := by
          intro hb
          have hb2 : e.specifier = "*" := by simpa using hb
          have h2 := hw '*' (by rw [hb2]; decide)
          exact absurd h2 (by decide)
        rw [nsStmtV_as k e hnstar]
        refine ⟨rfl, isPrefixL_iff.mpr ⟨_, rfl⟩, ?_, ?_⟩
        · show (['e', 'x', 'p', 'o', 'r', 't', ' ', '*', ' ', 'a', 's', ' ']
            ++ (e.specifier.data ++ ([' ', 'f', 'r', 'o', 'm', ' ', '"']
              ++ (k.data ++ ['"', ';'])))).getLast? = some ';'
          rw [List.getLast?_append_of_ne_nil _ (by simp),
            List.getLast?_append_of_ne_nil _ (by simp)]
          exact getLast?_two [' ', 'f', 'r', 'o', 'm', ' ', '"'] k.data
        · intro hmem
          have hmem2 : '\n' ∈ ['e', 'x', 'p', 'o', 'r', 't', ' ', '*', ' ', 'a', 's', ' ']
              ++ (e.specifier.data ++ ([' ', 'f', 'r', 'o', 'm', ' ', '"']
                ++ (k.data ++ ['"', ';']))) := hmem
          rcases List.mem_append.mp hmem2 with h | h
          · revert h; decide
          · rcases List.mem_append.mp h with h | h
            · have := hw '\n' h
              revert this; decide
            · rcases List.mem_append.mp h with h | h
              · revert h; decide
              · rcases List.mem_append.mp h with h | h
                · exact hknl h
                · revert h; decide
    · exact absurd h2 (List.not_mem_nil l)
  · split at h1
    · exact absurd h1 (List.not_mem_nil l)
    · rw [List.mem_singleton] at h1
      subst h1
      rw [namedStmtV_eq]
      have hspec : ∀ s ∈ ((vs.filter isNamedK).map (fun e => e.specifier)).map String.data,
          '\n' ∉ s := by
        intro s hs
        rw [List.map_map] at hs
        obtain ⟨e, he, rfl⟩ := List.mem_map.mp hs
        have heOK := hOK e (List.mem_filter.mp he).1
        have hnm : e.export_type = "named" := by
          have := (List.mem_filter.mp he).2
          simpa [isNamedK] using this
        exact (heOK.2.2.2.2.2 hnm).2.2.2.2.1
      refine ⟨rfl, isPrefixL_iff.mpr ⟨_, rfl⟩, ?_, ?_⟩
      · show (['e', 'x', 'p', 'o', 'r', 't', ' ', '\x7b', ' ']
          ++ (intercalateC [',', ' ']
              (((vs.filter isNamedK).map (fun e => e.specifier)).map String.data)
            ++ ([' ', '\x7d', ' ', 'f', 'r', 'o', 'm', ' ', '"']
              ++ (k.data ++ ['"', ';'])))).getLast? = some ';'
        rw [List.getLast?_append_of_ne_nil _ (by simp),
          List.getLast?_append_of_ne_nil _ (by simp)]
        exact getLast?_two [' ', '\x7d', ' ', 'f', 'r', 'o', 'm', ' ', '"'] k.data
      · intro hmem
        have hmem2 : '\n' ∈ ['e', 'x', 'p', 'o', 'r', 't', ' ', '\x7b', ' ']
            ++ (intercalateC [',', ' ']
                (((vs.filter isNamedK).map (fun e => e.specifier)).map String.data)
              ++ ([' ', '\x7d', ' ', 'f', 'r', 'o', 'm', ' ', '"']
                ++ (k.data ++ ['"', ';']))) := hmem
        rcases List.mem_append.mp hmem2 with h | h
        · revert h; decide
        · rcases List.mem_append.mp h with h | h
          · rcases mem_intercalateC h with h2 | ⟨l2, hl2, hc⟩
            · revert h2; decide
            · exact hspec l2 hl2 hc
          · rcases List.mem_append.mp h with h | h
            · revert h; decide
            · rcases List.mem_append.mp h with h | h
              · exact hknl h
              · revert h; decide

theorem genT_mem_shape (k : String) (ts : List ExportInfo)
    (hOK : ∀ e ∈ ts, RecOK e)
    (hkinds : ∀ e ∈ ts, e.export_type = "namespace" ∨ e.export_type = "named")
    (hknl : '\n' ∉ k.data) :
    ∀ l ∈ genTypeExports ts k,
      l.head? = some 'e' ∧ isPrefixL exportChars l = true ∧
        l.getLast? = some ';' ∧ '\n' ∉ l := by
  intro l hl
  rw [genTypeExports_eq] at hl
  have hdef : ts.filter isDefaultK = [] := List.filter_eq_nil_iff.mpr (by
    intro e he
    rcases hkinds e he with h | h <;> simp [isDefaultK, h])
  rw [hdef, List.map_nil] at hl
  rcases List.mem_append.mp hl with h1 | h1
  · rcases List.mem_append.mp h1 with h2 | h2
    · obtain ⟨e, he, rfl⟩ := List.mem_map.mp h2
      have heOK := hOK e (List.mem_filter.mp he).1
      have hns : e.export_type = "namespace" := by
        have := (List.mem_filter.mp he).2
        simpa [isNsK] using this
      rcases heOK.2.2.2.2.1 hns with hstar | ⟨hwne, hw⟩
      · rw [nsStmtT_star k e hstar]
        refine ⟨rfl, isPrefixL_iff.mpr ⟨_, rfl⟩, ?_, ?_⟩
        · exact getLast?_two ['e', 'x', 'p', 'o', 'r', 't', ' ', 't', 'y', 'p', 'e', ' ',
            '*', ' ', 'f', 'r', 'o', 'm', ' ', '"'] k.data
        · intro hmem
          have hmem2 : '\n' ∈ ['e', 'x', 'p', 'o', 'r', 't', ' ', 't', 'y', 'p', 'e', ' ',
              '*', ' ', 'f', 'r', 'o', 'm', ' ', '"'] ++ (k.data ++ ['"', ';']) := hmem
          rcases List.mem_append.mp hmem2 with h | h
          · revert h; decide
          · rcases List.mem_append.mp h with h | h
            · exact hknl h
            · revert h; decide
      · have hnstar : ¬ (e.specifier == "*") = true := by
          intro hb
          have hb2 : e.specifier = "*" := by simpa using hb
          have h2 := hw '*' (by rw [hb2]; decide)
          exact absurd h2 (by decide)
        rw [nsStmtT_as k e hnstar]
        refine ⟨rfl, isPrefixL_iff.mpr ⟨_, rfl⟩, ?_, ?_⟩
        · show (['e', 'x', 'p', 'o', 'r', 't', ' ', 't', 'y', 'p', 'e', ' ', '*', ' ',
            'a', 's', ' ']
            ++ (e.specifier.data ++ ([' ', 'f', 'r', 'o', 'm', ' ', '"']
              ++ (k.data ++ ['"', ';'])))).getLast? = some ';'
          rw [List.getLast?_append_of_ne_nil _ (by simp),
            List.getLast?_append_of_ne_nil _ (by simp)]
          exact getLast?_two [' ', 'f', 'r', 'o', 'm', ' ', '"'] k.data
        · intro hmem
          have hmem2 : '\n' ∈ ['e', 'x', 'p', 'o', 'r', 't', ' ', 't', 'y', 'p', 'e', ' ',
              '*', ' ', 'a', 's', ' ']
              ++ (e.specifier.data ++ ([' ', 'f', 'r', 'o', 'm', ' ', '"']
                ++ (k.data ++ ['"', ';']))) := hmem
          rcases List.mem_append.mp hmem2 with h | h
          · revert h; decide
          · rcases List.mem_append.mp h with h | h
            · have := hw '\n' h
              revert this; decide
            · rcases List.mem_append.mp h with h | h
              · revert h; decide
              · rcases List.mem_append.mp h with h | h
                · exact hknl h
                · revert h; decide
    · exact absurd h2 (List.not_mem_nil l)
  · split at h1
    · exact absurd h1 (List.not_mem_nil l)
    · rw [List.mem_singleton] at h1
      subst h1
      rw [namedStmtT_eq]
      have hspec : ∀ s ∈ ((ts.filter isNamedK).map (fun e => e.specifier)).map String.data,
          '\n' ∉ s := by
        intro s hs
        rw [List.map_map] at hs
        obtain ⟨e, he, rfl⟩ := List.mem_map.mp hs
        have heOK := hOK e (List.mem_filter.mp he).1
        have hnm : e.export_type = "named" := by
          have := (List.mem_filter.mp he).2
          simpa [isNamedK] using this
        exact (heOK.2.2.2.2.2 hnm).2.2.2.2.1
      refine ⟨rfl, isPrefixL_iff.mpr ⟨_, rfl⟩, ?_, ?_⟩
      · show (['e', 'x', 'p', 'o', 'r', 't', ' ', 't', 'y', 'p', 'e', ' ', '\x7b', ' ']
          ++ (intercalateC [',', ' ']
              (((ts.filter isNamedK).map (fun e => e.specifier)).map String.data)
            ++ ([' ', '\x7d', ' ', 'f', 'r', 'o', 'm', ' ', '"']
              ++ (k.data ++ ['"', ';'])))).getLast? = some ';'
        rw [List.getLast?_append_of_ne_nil _ (by simp),
          List.getLast?_append_of_ne_nil _ (by simp)]
        exact getLast?_two [' ', '\x7d', ' ', 'f', 'r', 'o', 'm', ' ', '"'] k.data
      · intro hmem
        have hmem2 : '\n' ∈ ['e', 'x', 'p', 'o', 'r', 't', ' ', 't', 'y', 'p', 'e', ' ',
            '\x7b', ' ']
            ++ (intercalateC [',', ' ']
                (((ts.filter isNamedK).map (fun e => e.specifier)).map String.data)
              ++ ([' ', '\x7d', ' ', 'f', 'r', 'o', 'm', ' ', '"']
                ++ (k.data ++ ['"', ';']))) := hmem
        rcases List.mem_append.mp hmem2 with h | h
        · revert h; decide
        · rcases List.mem_append.mp h with h | h
          · rcases mem_intercalateC h with h2 | ⟨l2, hl2, hc⟩
            · revert h2; decide
            · exact hspec l2 hl2 hc
          · rcases List.mem_append.mp h with h | h
            · revert h; decide
            · rcases List.mem_append.mp h with h | h
              · exact hknl h
              · revert h; decide

theorem genValueExports_ne_nil (vs : List ExportInfo) (k : String) (hne : vs ≠ [])
    (hkinds : ∀ e ∈ vs, e.export_type = "namespace" ∨ e.export_type = "named") :
    genValueExports vs k ≠ [] := by
  rw [genValueExports_eq]
  obtain ⟨e, he⟩ := List.exists_mem_of_ne_nil vs hne
  intro hc
  rcases List.append_eq_nil.mp hc with ⟨h1, h3⟩
  rcases List.append_eq_nil.mp h1 with ⟨h2, _⟩
  rcases hkinds e he with h | h
  · have hmem : e ∈ vs.filter isNsK := List.mem_filter.mpr ⟨he, by simp [isNsK, h]⟩
    rw [List.map_eq_nil] at h2
    rw [h2] at hmem
    exact absurd hmem (List.not_mem_nil e)
  · have hmem : e ∈ vs.filter isNamedK := List.mem_filter.mpr ⟨he, by simp [isNamedK, h]⟩
    have hie : (vs.filter isNamedK).isEmpty = false := by
      cases hrec : vs.filter isNamedK with
      | nil => rw [hrec] at hmem; exact absurd hmem (List.not_mem_nil e)
      | cons a b => rfl
    rw [hie] at h3
    simp at h3

theorem genTypeExports_ne_nil (ts : List ExportInfo) (k : String) (hne : ts ≠ [])
    (hkinds : ∀ e ∈ ts, e.export_type = "namespace" ∨ e.export_type = "named") :
    genTypeExports ts k ≠ [] := by
  rw [genTypeExports_eq]
  obtain ⟨e, he⟩ := List.exists_mem_of_ne_nil ts hne
  intro hc
  rcases List.append_eq_nil.mp hc with ⟨h1, h3⟩
  rcases List.append_eq_nil.mp h1 with ⟨h2, _⟩
  rcases hkinds e he with h | h
  · have hmem : e ∈ ts.filter isNsK := List.mem_filter.mpr ⟨he, by simp [isNsK, h]⟩
    rw [List.map_eq_nil] at h2
    rw [h2] at hmem
    exact absurd hmem (List.not_mem_nil e)
  · have hmem : e ∈ ts.filter isNamedK := List.mem_filter.mpr ⟨he, by simp [isNamedK, h]⟩
    have hie : (ts.filter isNamedK).isEmpty = false := by
      cases hrec : ts.filter isNamedK with
      | nil => rw [hrec] at hmem; exact absurd hmem (List.not_mem_nil e)
      | cons a b => rfl
    rw [hie] at h3
    simp at h3

theorem parse_genV (k : String) (vs : List ExportInfo)
    (hOK : ∀ e ∈ vs, RecOK e)
    (hkinds : ∀ e ∈ vs, e.export_type = "namespace" ∨ e.export_type = "named")
    (hsv : ∀ e ∈ vs, e.source = k) (htv : ∀ e ∈ vs, e.is_type_export = false)
    (hk : k.data ≠ []) (hkq : ∀ c ∈ k.data, isQuote c = false) :
    ((genValueExports vs k).map (fun l => parse_line l 0)).flatten
      = (vs.filter isNsK).map setLine0 ++ (vs.filter isNamedK).map setLine0 := by
  have hdef : vs.filter isDefaultK = [] := List.filter_eq_nil_iff.mpr (by
    intro e he
    rcases hkinds e he with h | h <;> simp [isDefaultK, h])
  rw [genValueExports_eq, hdef, List.map_nil]
  rw [List.map_append, List.map_append, List.flatten_append, List.flatten_append]
  have hns : ((List.map (nsStmtV k) (vs.filter isNsK)).map (fun l => parse_line l 0)).flatten
      = (vs.filter isNsK).map setLine0 := by
    rw [List.map_map]
    rw [show (vs.filter isNsK).map ((fun l => parse_line l 0) ∘ nsStmtV k)
        = (vs.filter isNsK).map (fun e => [setLine0 e]) from ?_]
    · exact flatten_map_singleton setLine0 (vs.filter isNsK)
    · apply List.map_congr_left
      intro e he
      obtain ⟨hemem, hens⟩ := List.mem_filter.mp he
      have hkind : e.export_type = "namespace" := by simpa [isNsK] using hens
      exact parse_nsV k e (hOK e hemem) hkind (hsv e hemem) (htv e hemem)
  rw [hns]
  by_cases hie : (vs.filter isNamedK).isEmpty
  · have hnil : vs.filter isNamedK = [] := by
      cases hrec : vs.filter isNamedK with
      | nil => rfl
      | cons a b => rw [hrec] at hie; exact absurd hie (by simp)
    rw [if_pos hie, hnil]
    simp
  · rw [if_neg hie]
    have hnamedne : vs.filter isNamedK ≠ [] := by
      intro hc
      rw [hc] at hie
      exact hie rfl
    obtain ⟨e0, he0⟩ := List.exists_mem_of_ne_nil _ hnamedne
    obtain ⟨he0mem, he0named⟩ := List.mem_filter.mp he0
    have hkET : ¬ (exportTypeChars <:+: k.data) := by
      rw [← hsv e0 he0mem]
      exact (hOK e0 he0mem).2.2.2.1 (htv e0 he0mem)
    have hparse := parse_namedV k (vs.filter isNamedK) hnamedne
      (fun e he => hOK e (List.mem_filter.mp he).1)
      (fun e he => by simpa [isNamedK] using (List.mem_filter.mp he).2)
      (fun e he => hsv e (List.mem_filter.mp he).1)
      (fun e he => htv e (List.mem_filter.mp he).1)
      hk hkq hkET
    simp only [List.map_cons, List.map_nil, List.flatten_cons, List.flatten_nil,
      List.append_nil]
    rw [hparse]

theorem parse_genT (k : String) (ts : List ExportInfo)
    (hOK : ∀ e ∈ ts, RecOK e)
    (hkinds : ∀ e ∈ ts, e.export_type = "namespace" ∨ e.export_type = "named")
    (hst : ∀ e ∈ ts, e.source = k) (htt : ∀ e ∈ ts, e.is_type_export = true)
    (hk : k.data ≠ []) (hkq : ∀ c ∈ k.data, isQuote c = false) :
    ((genTypeExports ts k).map (fun l => parse_line l 0)).flatten
      = (ts.filter isNsK).map setLine0 ++ (ts.filter isNamedK).map setLine0 := by
  have hdef : ts.filter isDefaultK = [] := List.filter_eq_nil_iff.mpr (by
    intro e he
    rcases hkinds e he with h | h <;> simp [isDefaultK, h])
  rw [genTypeExports_eq, hdef, List.map_nil]
  rw [List.map_append, List.map_append, List.flatten_append, List.flatten_append]
  have hns : ((List.map (nsStmtT k) (ts.filter isNsK)).map (fun l => parse_line l 0)).flatten
      = (ts.filter isNsK).map setLine0 := by
    rw [List.map_map]
    rw [show (ts.filter isNsK).map ((fun l => parse_line l 0) ∘ nsStmtT k)
        = (ts.filter isNsK).map (fun e => [setLine0 e]) from ?_]
    · exact flatten_map_singleton setLine0 (ts.filter isNsK)
    · apply List.map_congr_left
      intro e he
      obtain ⟨hemem, hens⟩ := List.mem_filter.mp he
      have hkind : e.export_type = "namespace" := by simpa [isNsK] using hens
      exact parse_nsT k e (hOK e hemem) hkind (hst e hemem) (htt e hemem)
  rw [hns]
  by_cases hie : (ts.filter isNamedK).isEmpty
  · have hnil : ts.filter isNamedK = [] := by
      cases hrec : ts.filter isNamedK with
      | nil => rfl
      | cons a b => rw [hrec] at hie; exact absurd hie (by simp)
    rw [if_pos hie, hnil]
    simp
  · rw [if_neg hie]
    have hnamedne : ts.filter isNamedK ≠ [] := by
      intro hc
      rw [hc] at hie
      exact hie rfl
    have hparse := parse_namedT k (ts.filter isNamedK) hnamedne
      (fun e he => hOK e (List.mem_filter.mp he).1)
      (fun e he => by simpa [isNamedK] using (List.mem_filter.mp he).2)
      (fun e he => hst e (List.mem_filter.mp he).1)
      (fun e he => htt e (List.mem_filter.mp he).1)
      hk hkq
    simp only [List.map_cons, List.map_nil, List.flatten_cons, List.flatten_nil,
      List.append_nil]
    rw [hparse]

/-! ## Assembly helpers -/

theorem foldl_blocks :
    ∀ (G : List (String × List ExportInfo × List ExportInfo)) (acc : List (List Char)),
      G.foldl (fun acc g => acc ++ genValueExports g.2.1 g.1 ++ genTypeExports g.2.2 g.1) acc
        = acc ++ (G.map
            (fun g => genValueExports g.2.1 g.1 ++ genTypeExports g.2.2 g.1)).flatten := by
  intro G
  induction G with
  | nil => intro acc; simp
  | cons g G ih =>
    intro acc
    simp only [List.foldl_cons, List.map_cons, List.flatten_cons]
    rw [ih]
    simp [List.append_assoc]

theorem flatten_nil_of_all_nil {α : Type} :
    ∀ L : List (List α), (∀ l ∈ L, l = []) → L.flatten = [] := by
  intro L
  induction L with
  | nil => intro _; rfl
  | cons x xs ih =>
    intro h
    rw [List.flatten_cons, h x (List.mem_cons_self _ _),
      ih (fun l hl => h l (List.mem_cons_of_mem _ hl))]
    rfl

theorem flatten_map_flatten {α β : Type} (f : α → List β) :
    ∀ M : List (List α),
      ((M.flatten).map f).flatten = (M.map (fun b => ((b.map f).flatten))).flatten := by
  intro M
  induction M with
  | nil => rfl
  | cons b M ih =>
    simp only [List.flatten_cons, List.map_append, List.flatten_append, ih, List.map_cons]

theorem flatten_perm_of_forall {α β : Type}
    (f g : α → List β) :
    ∀ G : List α, (∀ x ∈ G, (f x).Perm (g x)) →
      ((G.map f).flatten).Perm ((G.map g).flatten) := by
  intro G
  induction G with
  | nil => intro _; exact List.Perm.refl _
  | cons x G ih =>
    intro h
    simp only [List.map_cons, List.flatten_cons]
    exact (h x (List.mem_cons_self _ _)).append
      (ih (fun y hy => h y (List.mem_cons_of_mem _ hy)))

theorem genValueExports_filter_pair (vs : List ExportInfo) (k : String)
    (hkinds : ∀ e ∈ vs, e.export_type = "namespace" ∨ e.export_type = "named") :
    genValueExports (vs.filter isNsK ++ vs.filter isNamedK) k = genValueExports vs k := by
  have hns : ∀ e ∈ vs.filter isNsK,
      isNsK e = true ∧ isNamedK e = false ∧ isDefaultK e = false := by
    intro e he
    have h := (List.mem_filter.mp he).2
    have h2 : e.export_type = "namespace" := by simpa [isNsK] using h
    exact ⟨h, by simp [isNamedK, h2], by simp [isDefaultK, h2]⟩
  have hnm : ∀ e ∈ vs.filter isNamedK,
      isNsK e = false ∧ isNamedK e = true ∧ isDefaultK e = false := by
    intro e he
    have h := (List.mem_filter.mp he).2
    have h2 : e.export_type = "named" := by simpa [isNamedK] using h
    exact ⟨by simp [isNsK, h2], h, by simp [isDefaultK, h2]⟩
  have ha : List.filter isNsK (vs.filter isNsK) = vs.filter isNsK :=
    List.filter_eq_self.mpr (fun e he => (hns e he).1)
  have hb : List.filter isNsK (vs.filter isNamedK) = [] :=
    List.filter_eq_nil_iff.mpr
      (fun e he => by rw [(hnm e he).1]; exact Bool.false_ne_true)
  have hc : List.filter isNamedK (vs.filter isNsK) = [] :=
    List.filter_eq_nil_iff.mpr
      (fun e he => by rw [(hns e he).2.1]; exact Bool.false_ne_true)
  have hd : List.filter isNamedK (vs.filter isNamedK) = vs.filter isNamedK :=
    List.filter_eq_self.mpr (fun e he => (hnm e he).2.1)
  have he1 : List.filter isDefaultK (vs.filter isNsK) = [] :=
    List.filter_eq_nil_iff.mpr
      (fun e he => by rw [(hns e he).2.2]; exact Bool.false_ne_true)
  have hf : List.filter isDefaultK (vs.filter isNamedK) = [] :=
    List.filter_eq_nil_iff.mpr
      (fun e he => by rw [(hnm e he).2.2]; exact Bool.false_ne_true)
  have h1 : (vs.filter isNsK ++ vs.filter isNamedK).filter isNsK
      = vs.filter isNsK := by
    rw [List.filter_append, ha, hb, List.append_nil]
  have h2 : (vs.filter isNsK ++ vs.filter isNamedK).filter isNamedK
      = vs.filter isNamedK := by
    rw [List.filter_append, hc, hd, List.nil_append]
  have h3 : (vs.filter isNsK ++ vs.filter isNamedK).filter isDefaultK = [] := by
    rw [List.filter_append, he1, hf, List.append_nil]
  have h4 : vs.filter isDefaultK = [] := List.filter_eq_nil_iff.mpr (by
    intro e he
    rcases hkinds e he with h | h <;> simp [isDefaultK, h])
  rw [genValueExports_eq, genValueExports_eq, h1, h2, h3, h4]

theorem genTypeExports_filter_pair (ts : List ExportInfo) (k : String)
    (hkinds : ∀ e ∈ ts, e.export_type = "namespace" ∨ e.export_type = "named") :
    genTypeExports (ts.filter isNsK ++ ts.filter isNamedK) k = genTypeExports ts k := by
  have hns : ∀ e ∈ ts.filter isNsK,
      isNsK e = true ∧ isNamedK e = false ∧ isDefaultK e = false := by
    intro e he
    have h := (List.mem_filter.mp he).2
    have h2 : e.export_type = "namespace" := by simpa [isNsK] using h
    exact ⟨h, by simp [isNamedK, h2], by simp [isDefaultK, h2]⟩
  have hnm : ∀ e ∈ ts.filter isNamedK,
      isNsK e = false ∧ isNamedK e = true ∧ isDefaultK e = false := by
    intro e he
    have h := (List.mem_filter.mp he).2
    have h2 : e.export_type = "named" := by simpa [isNamedK] using h
    exact ⟨by simp [isNsK, h2], h, by simp [isDefaultK, h2]⟩
  have ha : List.filter isNsK (ts.filter isNsK) = ts.filter isNsK :=
    List.filter_eq_self.mpr (fun e he => (hns e he).1)
  have hb : List.filter isNsK (ts.filter isNamedK) = [] :=
    List.filter_eq_nil_iff.mpr
      (fun e he => by rw [(hnm e he).1]; exact Bool.false_ne_true)
  have hc : List.filter isNamedK (ts.filter isNsK) = [] :=
    List.filter_eq_nil_iff.mpr
      (fun e he => by rw [(hns e he).2.1]; exact Bool.false_ne_true)
  have hd : List.filter isNamedK (ts.filter isNamedK) = ts.filter isNamedK :=
    List.filter_eq_self.mpr (fun e he => (hnm e he).2.1)
  have he1 : List.filter isDefaultK (ts.filter isNsK) = [] :=
    List.filter_eq_nil_iff.mpr
      (fun e he => by rw [(hns e he).2.2]; exact Bool.false_ne_true)
  have hf : List.filter isDefaultK (ts.filter isNamedK) = [] :=
    List.filter_eq_nil_iff.mpr
      (fun e he => by rw [(hnm e he).2.2]; exact Bool.false_ne_true)
  have h1 : (ts.filter isNsK ++ ts.filter isNamedK).filter isNsK
      = ts.filter isNsK := by
    rw [List.filter_append, ha, hb, List.append_nil]
  have h2 : (ts.filter isNsK ++ ts.filter isNamedK).filter isNamedK
      = ts.filter isNamedK := by
    rw [List.filter_append, hc, hd, List.nil_append]
  have h3 : (ts.filter isNsK ++ ts.filter isNamedK).filter isDefaultK = [] := by
    rw [List.filter_append, he1, hf, List.append_nil]
  have h4 : ts.filter isDefaultK = [] := List.filter_eq_nil_iff.mpr (by
    intro e he
    rcases hkinds e he with h | h <;> simp [isDefaultK, h])
  rw [genTypeExports_eq, genTypeExports_eq, h1, h2, h3, h4]

/-! ## Facts about the deduplicated pass-1 records and their grouping -/

theorem D_facts (s : String)
    (hnd : ∀ e ∈ parsedRecords s, e.export_type ≠ "default") :
    ∀ e ∈ specDedup (parsedRecords s),
      RecOK e ∧ (e.export_type = "namespace" ∨ e.export_type = "named") := by
  intro e he
  have heE : e ∈ parsedRecords s := (specDedup_sublist _).subset he
  refine ⟨parsedRecords_RecOK s e heE (hnd e heE), ?_⟩
  rcases parseAll_mem_kinds (rustLines s.data) 1 e heE with h | h | h
  · exact Or.inr h
  · exact absurd h (hnd e heE)
  · exact Or.inl h

theorem G_facts (s : String)
    (hnd : ∀ e ∈ parsedRecords s, e.export_type ≠ "default") :
    ∀ g ∈ groupBySource (specDedup (parsedRecords s)),
      (∀ x ∈ g.2.1, x ∈ specDedup (parsedRecords s) ∧ x.source = g.1 ∧
        x.is_type_export = false) ∧
      (∀ x ∈ g.2.2, x ∈ specDedup (parsedRecords s) ∧ x.source = g.1 ∧
        x.is_type_export = true) ∧
      g.2.1 ++ g.2.2 ≠ [] ∧
      g.1.data ≠ [] ∧ (∀ c ∈ g.1.data, isQuote c = false) ∧ '\n' ∉ g.1.data := by
  intro g hg
  have hsound := groupBySource_sound (specDedup (parsedRecords s)) []
    (fun g' hg' => absurd hg' (List.not_mem_nil g')) g hg
  have hmem := groupBySource_pres (· ∈ specDedup (parsedRecords s))
    (specDedup (parsedRecords s)) [] (fun e he => he)
    (fun g' hg' => absurd hg' (List.not_mem_nil g')) g hg
  have hv : ∀ x ∈ g.2.1, x ∈ specDedup (parsedRecords s) ∧ x.source = g.1 ∧
      x.is_type_export = false :=
    fun x hx => ⟨hmem.1 x hx, (hsound.1 x hx).1, (hsound.1 x hx).2⟩
  have ht : ∀ x ∈ g.2.2, x ∈ specDedup (parsedRecords s) ∧ x.source = g.1 ∧
      x.is_type_export = true :=
    fun x hx => ⟨hmem.2 x hx, (hsound.2.1 x hx).1, (hsound.2.1 x hx).2⟩
  refine ⟨hv, ht, hsound.2.2, ?_⟩
  have hk : ∃ e, e ∈ specDedup (parsedRecords s) ∧ e.source = g.1 := by
    rcases hrec : g.2.1 with _ | ⟨x, xs⟩
    · rcases hrec2 : g.2.2 with _ | ⟨y, ys⟩
      · rw [hrec, hrec2] at hsound
        exact absurd rfl hsound.2.2
      · have hy := ht y (by rw [hrec2]; exact List.mem_cons_self _ _)
        exact ⟨y, hy.1, hy.2.1⟩
    · have hx := hv x (by rw [hrec]; exact List.mem_cons_self _ _)
      exact ⟨x, hx.1, hx.2.1⟩
  obtain ⟨e, heD, hes⟩ := hk
  have hOK := (D_facts s hnd e heD).1
  rw [← hes]
  exact ⟨hOK.1, hOK.2.1, hOK.2.2.1⟩

theorem blocks_shape (s : String)
    (hnd : ∀ e ∈ parsedRecords s, e.export_type ≠ "default") :
    ∀ l ∈ ((groupBySource (specDedup (parsedRecords s))).map
        (fun g => genValueExports g.2.1 g.1 ++ genTypeExports g.2.2 g.1)).flatten,
      l.head? = some 'e' ∧ isPrefixL exportChars l = true ∧
        l.getLast? = some ';' ∧ '\n' ∉ l := by
  intro l hl
  obtain ⟨b, hb, hlb⟩ := List.mem_flatten.mp hl
  obtain ⟨g, hg, rfl⟩ := List.mem_map.mp hb
  obtain ⟨hv, ht, hne', hk1, hk2, hk3⟩ := G_facts s hnd g hg
  rcases List.mem_append.mp hlb with h | h
  · exact genV_mem_shape g.1 g.2.1
      (fun e he => (D_facts s hnd e (hv e he).1).1)
      (fun e he => (D_facts s hnd e (hv e he).1).2) hk3 l h
  · exact genT_mem_shape g.1 g.2.2
      (fun e he => (D_facts s hnd e (ht e he).1).1)
      (fun e he => (D_facts s hnd e (ht e he).1).2) hk3 l h

theorem blocks_ne (s : String)
    (hnd : ∀ e ∈ parsedRecords s, e.export_type ≠ "default")
    (hne : parsedRecords s ≠ []) :
    ((groupBySource (specDedup (parsedRecords s))).map
        (fun g => genValueExports g.2.1 g.1 ++ genTypeExports g.2.2 g.1)).flatten ≠ [] := by
  have hD_ne : specDedup (parsedRecords s) ≠ [] := by
    cases hrec : parsedRecords s with
    | nil => exact absurd hrec hne
    | cons e es => rw [specDedup_cons]; exact List.cons_ne_nil _ _
  have hG_ne : groupBySource (specDedup (parsedRecords s)) ≠ [] := by
    intro hc
    have hperm := groupBySource_perm (specDedup (parsedRecords s))
    rw [hc] at hperm
    simp only [List.map_nil, List.flatten_nil] at hperm
    exact hD_ne (hperm.symm.eq_nil)
  cases hGrec : groupBySource (specDedup (parsedRecords s)) with
  | nil => exact absurd hGrec hG_ne
  | cons g0 G' =>
    rw [List.map_cons, List.flatten_cons]
    intro hc
    rcases List.append_eq_nil.mp hc with ⟨h1, _⟩
    rcases List.append_eq_nil.mp h1 with ⟨hV, hT⟩
    obtain ⟨hv, ht, hne', _, _, _⟩ := G_facts s hnd g0 (hGrec ▸ List.mem_cons_self _ _)
    rcases hrecv : g0.2.1 with _ | ⟨x, xs⟩
    · rcases hrect : g0.2.2 with _ | ⟨y, ys⟩
      · rw [hrecv, hrect] at hne'
        exact absurd rfl hne'
      · exact genTypeExports_ne_nil g0.2.2 g0.1 (by rw [hrect]; exact List.cons_ne_nil _ _)
          (fun e he => (D_facts s hnd e (ht e he).1).2) hT
    · exact genValueExports_ne_nil g0.2.1 g0.1 (by rw [hrecv]; exact List.cons_ne_nil _ _)
        (fun e he => (D_facts s hnd e (hv e he).1).2) hV

theorem roundtrip_data (s : String)
    (hnd : ∀ e ∈ parsedRecords s, e.export_type ≠ "default")
    (hne : parsedRecords s ≠ []) :
    (reconstruct_source s (specDedup (parsedRecords s))).data
      = intercalateC ['\n']
          ((preservedPrefix (rustLines s.data)
            ++ ((groupBySource (specDedup (parsedRecords s))).map
              (fun g => genValueExports g.2.1 g.1 ++ genTypeExports g.2.2 g.1)).flatten)
            ++ [[]]) := by
  have hD_ne : specDedup (parsedRecords s) ≠ [] := by
    cases hrec : parsedRecords s with
    | nil => exact absurd hrec hne
    | cons e es => rw [specDedup_cons]; exact List.cons_ne_nil _ _
  have hD_nie : (specDedup (parsedRecords s)).isEmpty ≠ true := by
    cases hrec : specDedup (parsedRecords s) with
    | nil => exact absurd hrec hD_ne
    | cons e es => simp
  simp only [reconstruct_source]
  rw [if_neg hD_nie]
  rw [foldl_blocks]
  have hlines_ne : (preservedPrefix (rustLines s.data)
      ++ ((groupBySource (specDedup (parsedRecords s))).map
        (fun g => genValueExports g.2.1 g.1 ++ genTypeExports g.2.2 g.1)).flatten).isEmpty
      ≠ true := by
    have hbne := blocks_ne s hnd hne
    cases hrec : preservedPrefix (rustLines s.data)
        ++ ((groupBySource (specDedup (parsedRecords s))).map
          (fun g => genValueExports g.2.1 g.1 ++ genTypeExports g.2.2 g.1)).flatten with
    | nil =>
      rcases List.append_eq_nil.mp hrec with ⟨_, h2⟩
      exact absurd h2 hbne
    | cons x xs => simp
  rw [if_neg hlines_ne]

theorem preservedPrefix_subset :
    ∀ (ls : List (List Char)) (l : List Char), l ∈ preservedPrefix ls → l ∈ ls := by
  intro ls
  induction ls with
  | nil => intro l h; simp [preservedPrefix] at h
  | cons x xs ih =>
    intro l h
    unfold preservedPrefix at h
    by_cases h1 : isPrefixL exportChars (rsTrim x) = true
    · rw [if_pos h1] at h
      simp at h
    · rw [if_neg h1] at h
      by_cases h2 : keepLine x = true
      · rw [if_pos h2] at h
        rcases List.mem_cons.mp h with h3 | h3
        · exact h3 ▸ List.mem_cons_self _ _
        · exact List.mem_cons_of_mem _ (ih l h3)
      · rw [if_neg h2] at h
        exact List.mem_cons_of_mem _ (ih l h)

theorem roundtrip_lines (s : String)
    (hnd : ∀ e ∈ parsedRecords s, e.export_type ≠ "default")
    (hcr : ∀ l ∈ preservedPrefix (rustLines s.data), l.getLast? ≠ some '\r')
    (hne : parsedRecords s ≠ []) :
    rustLines (reconstruct_source s (specDedup (parsedRecords s))).data
      = preservedPrefix (rustLines s.data)
        ++ ((groupBySource (specDedup (parsedRecords s))).map
          (fun g => genValueExports g.2.1 g.1 ++ genTypeExports g.2.2 g.1)).flatten := by
  rw [roundtrip_data s hnd hne]
  apply rustLines_join
  · intro l hl
    rcases List.mem_append.mp hl with h | h
    · exact rustLines_no_nl (preservedPrefix_subset _ l h)
    · exact (blocks_shape s hnd l h).2.2.2
  · intro l hl
    rcases List.mem_append.mp hl with h | h
    · exact hcr l h
    · intro hc
      have := (blocks_shape s hnd l h).2.2.1
      rw [this] at hc
      simp at hc

theorem roundtrip_records (s : String)
    (hnd : ∀ e ∈ parsedRecords s, e.export_type ≠ "default")
    (hcr : ∀ l ∈ preservedPrefix (rustLines s.data), l.getLast? ≠ some '\r')
    (hne : parsedRecords s ≠ []) :
    (parsedRecords (reconstruct_source s (specDedup (parsedRecords s)))).map setLine0
      = ((groupBySource (specDedup (parsedRecords s))).map
          (fun g => ((g.2.1.filter isNsK ++ g.2.1.filter isNamedK)
            ++ (g.2.2.filter isNsK ++ g.2.2.filter isNamedK)).map setLine0)).flatten := by
  show (parseAll 1
      (rustLines (reconstruct_source s (specDedup (parsedRecords s))).data)).map setLine0 = _
  rw [roundtrip_lines s hnd hcr hne]
  rw [parseAll_setLine0]
  rw [List.map_append, List.flatten_append]
  have hP : ((preservedPrefix (rustLines s.data)).map (fun l => parse_line l 0)).flatten
      = [] := by
    apply flatten_nil_of_all_nil
    intro l hl
    obtain ⟨l0, hl0, rfl⟩ := List.mem_map.mp hl
    exact parse_line_not_export (preservedPrefix_mem (rustLines s.data) l0 hl0).1 0
  rw [hP, List.nil_append]
  rw [flatten_map_flatten]
  rw [List.map_map]
  congr 1
  apply List.map_congr_left
  intro g hg
  obtain ⟨hv, ht, hne', hk1, hk2, hk3⟩ := G_facts s hnd g hg
  show ((genValueExports g.2.1 g.1 ++ genTypeExports g.2.2 g.1).map
      (fun l => parse_line l 0)).flatten = _
  rw [List.map_append, List.flatten_append]
  rw [parse_genV g.1 g.2.1
    (fun e he => (D_facts s hnd e (hv e he).1).1)
    (fun e he => (D_facts s hnd e (hv e he).1).2)
    (fun e he => (hv e he).2.1) (fun e he => (hv e he).2.2) hk1 hk2]
  rw [parse_genT g.1 g.2.2
    (fun e he => (D_facts s hnd e (ht e he).1).1)
    (fun e he => (D_facts s hnd e (ht e he).1).2)
    (fun e he => (ht e he).2.1) (fun e he => (ht e he).2.2) hk1 hk2]
  simp [List.map_append]

theorem roundtrip_perm (s : String)
    (hnd : ∀ e ∈ parsedRecords s, e.export_type ≠ "default")
    (hcr : ∀ l ∈ preservedPrefix (rustLines s.data), l.getLast? ≠ some '\r')
    (hne : parsedRecords s ≠ []) :
    ((parsedRecords (reconstruct_source s (specDedup (parsedRecords s)))).map setLine0).Perm
      ((specDedup (parsedRecords s)).map setLine0) := by
  rw [roundtrip_records s hnd hcr hne]
  have hstep : (((groupBySource (specDedup (parsedRecords s))).map
      (fun g => ((g.2.1.filter isNsK ++ g.2.1.filter isNamedK)
        ++ (g.2.2.filter isNsK ++ g.2.2.filter isNamedK)).map setLine0)).flatten).Perm
      (((groupBySource (specDedup (parsedRecords s))).map
        (fun g => (g.2.1 ++ g.2.2).map setLine0)).flatten) := by
    apply flatten_perm_of_forall
    intro g hg
    obtain ⟨hv, ht, _, _, _, _⟩ := G_facts s hnd g hg
    apply List.Perm.map
    refine (filter_pair_perm g.2.1 ?_).append (filter_pair_perm g.2.2 ?_)
    · intro e he
      rcases (D_facts s hnd e (hv e he).1).2 with h | h
      · exact Or.inl ⟨by simp [isNsK, h], by simp [isNamedK, h]⟩
      · exact Or.inr ⟨by simp [isNsK, h], by simp [isNamedK, h]⟩
    · intro e he
      rcases (D_facts s hnd e (ht e he).1).2 with h | h
      · exact Or.inl ⟨by simp [isNsK, h], by simp [isNamedK, h]⟩
      · exact Or.inr ⟨by simp [isNsK, h], by simp [isNamedK, h]⟩
  refine hstep.trans ?_
  have hXeq : ((groupBySource (specDedup (parsedRecords s))).map
      (fun g => (g.2.1 ++ g.2.2).map setLine0)).flatten
      = (((groupBySource (specDedup (parsedRecords s))).map
        (fun g => g.2.1 ++ g.2.2)).flatten).map setLine0 := by
    rw [List.map_flatten, List.map_map]
    rfl
  rw [hXeq]
  exact (groupBySource_perm (specDedup (parsedRecords s))).map setLine0

theorem roundtrip_ne (s : String)
    (hnd : ∀ e ∈ parsedRecords s, e.export_type ≠ "default")
    (hcr : ∀ l ∈ preservedPrefix (rustLines s.data), l.getLast? ≠ some '\r')
    (hne : parsedRecords s ≠ []) :
    parsedRecords (reconstruct_source s (specDedup (parsedRecords s))) ≠ [] := by
  intro hc
  have hperm := roundtrip_perm s hnd hcr hne
  rw [hc] at hperm
  simp only [List.map_nil] at hperm
  have hD := hperm.symm.eq_nil
  rw [List.map_eq_nil] at hD
  cases hrec : parsedRecords s with
  | nil => exact hne hrec
  | cons e es =>
    rw [hrec, specDedup_cons] at hD
    exact List.cons_ne_nil _ _ hD

theorem roundtrip_dedup (s : String)
    (hnd : ∀ e ∈ parsedRecords s, e.export_type ≠ "default")
    (hcr : ∀ l ∈ preservedPrefix (rustLines s.data), l.getLast? ≠ some '\r')
    (hne : parsedRecords s ≠ []) :
    specDedup (parsedRecords (reconstruct_source s (specDedup (parsedRecords s))))
      = parsedRecords (reconstruct_source s (specDedup (parsedRecords s))) := by
  apply specDedup_eq_self_of_nodup
  have h1 : (parsedRecords (reconstruct_source s (specDedup (parsedRecords s)))).map dedupKey
      = ((parsedRecords (reconstruct_source s (specDedup (parsedRecords s)))).map
          setLine0).map dedupKey := by
    rw [List.map_map]
    apply List.map_congr_left
    intro e _
    exact (dedupKey_setLine0 e).symm
  rw [h1]
  refine (List.Perm.nodup_iff ((roundtrip_perm s hnd hcr hne).map dedupKey)).mpr ?_
  have h2 : ((specDedup (parsedRecords s)).map setLine0).map dedupKey
      = (specDedup (parsedRecords s)).map dedupKey := by
    rw [List.map_map]
    apply List.map_congr_left
    intro e _
    exact dedupKey_setLine0 e
  rw [h2]
  exact specDedup_keys_nodup (parsedRecords s)

theorem roundtrip_pres (s : String)
    (hnd : ∀ e ∈ parsedRecords s, e.export_type ≠ "default")
    (hcr : ∀ l ∈ preservedPrefix (rustLines s.data), l.getLast? ≠ some '\r')
    (hne : parsedRecords s ≠ []) :
    preservedPrefix
        (rustLines (reconstruct_source s (specDedup (parsedRecords s))).data)
      = preservedPrefix (rustLines s.data) := by
  rw [roundtrip_lines s hnd hcr hne]
  cases hrec : ((groupBySource (specDedup (parsedRecords s))).map
      (fun g => genValueExports g.2.1 g.1 ++ genTypeExports g.2.2 g.1)).flatten with
  | nil => exact absurd hrec (blocks_ne s hnd hne)
  | cons g0 gs =>
    apply preservedPrefix_append_gen
    · intro l hl
      exact preservedPrefix_mem _ l hl
    · have hs := blocks_shape s hnd g0 (hrec ▸ List.mem_cons_self _ _)
      rw [rsTrim_template g0 hs.2.2.1 hs.1]
      exact hs.2.1

theorem reconstruct_abstract (t : String) (E' : List ExportInfo)
    (G : List (String × List ExportInfo × List ExportInfo)) (P : List (List Char))
    (hmap : E'.map setLine0
      = (G.map (fun g => ((g.2.1.filter isNsK ++ g.2.1.filter isNamedK)
          ++ (g.2.2.filter isNsK ++ g.2.2.filter isNamedK)).map setLine0)).flatten)
    (hGs : ∀ g ∈ G,
      (∀ x ∈ g.2.1, x.source = g.1 ∧ x.is_type_export = false ∧
        (x.export_type = "namespace" ∨ x.export_type = "named")) ∧
      (∀ x ∈ g.2.2, x.source = g.1 ∧ x.is_type_export = true ∧
        (x.export_type = "namespace" ∨ x.export_type = "named")) ∧
      g.2.1 ++ g.2.2 ≠ [])
    (hkeys : (G.map (fun g => g.1)).Nodup)
    (hpres : preservedPrefix (rustLines t.data) = P)
    (hE'ne : E' ≠ [])
    (htdata : t.data = intercalateC ['\n']
      ((P ++ (G.map
          (fun g => genValueExports g.2.1 g.1 ++ genTypeExports g.2.2 g.1)).flatten)
        ++ [[]])) :
    reconstruct_source t E' = t := by
  have hBBne : (G.map (fun g => ((g.2.1.filter isNsK ++ g.2.1.filter isNamedK)
      ++ (g.2.2.filter isNsK ++ g.2.2.filter isNamedK)).map setLine0)).flatten ≠ [] := by
    rw [← hmap]
    intro hc
    rw [List.map_eq_nil] at hc
    exact hE'ne hc
  have hG_ne : G ≠ [] := by
    intro hc
    rw [hc] at hBBne
    exact hBBne rfl
  rw [← reconstruct_source_map_setLine0, hmap]
  simp only [reconstruct_source]
  rw [if_neg (by
    cases hrec : (G.map (fun g => ((g.2.1.filter isNsK ++ g.2.1.filter isNamedK)
        ++ (g.2.2.filter isNsK ++ g.2.2.filter isNamedK)).map setLine0)).flatten with
    | nil => exact absurd hrec hBBne
    | cons x xs => simp)]
  have hgroup : groupBySource ((G.map
      (fun g => ((g.2.1.filter isNsK ++ g.2.1.filter isNamedK)
        ++ (g.2.2.filter isNsK ++ g.2.2.filter isNamedK)).map setLine0)).flatten)
      = (G.map (fun g => (g.1, ((g.2.1.filter isNsK ++ g.2.1.filter isNamedK)
          ++ (g.2.2.filter isNsK ++ g.2.2.filter isNamedK)).map setLine0))).map
        (fun b => (b.1, b.2.filter (fun e => !(e.is_type_export)),
          b.2.filter (fun e => e.is_type_export))) := by
    rw [show (G.map (fun g => ((g.2.1.filter isNsK ++ g.2.1.filter isNamedK)
        ++ (g.2.2.filter isNsK ++ g.2.2.filter isNamedK)).map setLine0))
        = (G.map (fun g => (g.1, ((g.2.1.filter isNsK ++ g.2.1.filter isNamedK)
          ++ (g.2.2.filter isNsK ++ g.2.2.filter isNamedK)).map setLine0))).map
            (fun b => b.2) from by rw [List.map_map]; rfl]
    apply groupBySource_blocks
    · intro b hb
      obtain ⟨g, hg, rfl⟩ := List.mem_map.mp hb
      obtain ⟨hv, ht, hne'⟩ := hGs g hg
      have hpairv : ∀ e ∈ g.2.1, (isNsK e = true ∧ isNamedK e = false) ∨
          (isNsK e = false ∧ isNamedK e = true) := by
        intro e he
        rcases (hv e he).2.2 with h | h
        · exact Or.inl ⟨by simp [isNsK, h], by simp [isNamedK, h]⟩
        · exact Or.inr ⟨by simp [isNsK, h], by simp [isNamedK, h]⟩
      have hpairt : ∀ e ∈ g.2.2, (isNsK e = true ∧ isNamedK e = false) ∨
          (isNsK e = false ∧ isNamedK e = true) := by
        intro e he
        rcases (ht e he).2.2 with h | h
        · exact Or.inl ⟨by simp [isNsK, h], by simp [isNamedK, h]⟩
        · exact Or.inr ⟨by simp [isNsK, h], by simp [isNamedK, h]⟩
      constructor
      · show ((g.2.1.filter isNsK ++ g.2.1.filter isNamedK)
          ++ (g.2.2.filter isNsK ++ g.2.2.filter isNamedK)).map setLine0 ≠ []
        intro hc
        rw [List.map_eq_nil] at hc
        have hperm : (((g.2.1.filter isNsK ++ g.2.1.filter isNamedK)
            ++ (g.2.2.filter isNsK ++ g.2.2.filter isNamedK))).Perm (g.2.1 ++ g.2.2) :=
          (filter_pair_perm g.2.1 hpairv).append (filter_pair_perm g.2.2 hpairt)
        rw [hc] at hperm
        exact hne' hperm.symm.eq_nil
      · show ∀ x ∈ ((g.2.1.filter isNsK ++ g.2.1.filter isNamedK)
          ++ (g.2.2.filter isNsK ++ g.2.2.filter isNamedK)).map setLine0,
            x.source = g.1
        intro x hx
        obtain ⟨y, hy, rfl⟩ := List.mem_map.mp hx
        show y.source = g.1
        rcases List.mem_append.mp hy with h | h
        · rcases List.mem_append.mp h with h2 | h2 <;>
            exact (hv y (List.mem_filter.mp h2).1).1
        · rcases List.mem_append.mp h with h2 | h2 <;>
            exact (ht y (List.mem_filter.mp h2).1).1
    · rw [List.map_map]
      exact hkeys
  rw [hgroup, hpres, foldl_blocks, List.map_map]
  have hpoint : (G.map (fun g => (g.1, ((g.2.1.filter isNsK ++ g.2.1.filter isNamedK)
      ++ (g.2.2.filter isNsK ++ g.2.2.filter isNamedK)).map setLine0))).map
        ((fun g => genValueExports g.2.1 g.1 ++ genTypeExports g.2.2 g.1) ∘
          (fun b => (b.1, b.2.filter (fun e => !(e.is_type_export)),
            b.2.filter (fun e => e.is_type_export))))
      = G.map (fun g => genValueExports g.2.1 g.1 ++ genTypeExports g.2.2 g.1) := by
    rw [List.map_map]
    apply List.map_congr_left
    intro g hg
    obtain ⟨hv, ht, hne'⟩ := hGs g hg
    show genValueExports ((((g.2.1.filter isNsK ++ g.2.1.filter isNamedK)
        ++ (g.2.2.filter isNsK ++ g.2.2.filter isNamedK)).map setLine0).filter
          (fun e => !(e.is_type_export))) g.1
      ++ genTypeExports ((((g.2.1.filter isNsK ++ g.2.1.filter isNamedK)
        ++ (g.2.2.filter isNsK ++ g.2.2.filter isNamedK)).map setLine0).filter
          (fun e => e.is_type_export)) g.1
      = genValueExports g.2.1 g.1 ++ genTypeExports g.2.2 g.1
    have hVmem : ∀ x ∈ (g.2.1.filter isNsK ++ g.2.1.filter isNamedK).map setLine0,
        x.is_type_export = false := by
      intro x hx
      obtain ⟨y, hy, rfl⟩ := List.mem_map.mp hx
      show y.is_type_export = false
      rcases List.mem_append.mp hy with h2 | h2 <;>
        exact (hv y (List.mem_filter.mp h2).1).2.1
    have hTmem : ∀ x ∈ (g.2.2.filter isNsK ++ g.2.2.filter isNamedK).map setLine0,
        x.is_type_export = true := by
      intro x hx
      obtain ⟨y, hy, rfl⟩ := List.mem_map.mp hx
      show y.is_type_export = true
      rcases List.mem_append.mp hy with h2 | h2 <;>
        exact (ht y (List.mem_filter.mp h2).1).2.1
    have ha : (((g.2.1.filter isNsK ++ g.2.1.filter isNamedK)).map setLine0).filter
          (fun e => !(e.is_type_export))
        = ((g.2.1.filter isNsK ++ g.2.1.filter isNamedK)).map setLine0 :=
      List.filter_eq_self.mpr (fun x hx => by rw [hVmem x hx]; rfl)
    have hb : (((g.2.2.filter isNsK ++ g.2.2.filter isNamedK)).map setLine0).filter
          (fun e => !(e.is_type_export)) = [] :=
      List.filter_eq_nil_iff.mpr (fun x hx => by rw [hTmem x hx]; simp)
    have hc : (((g.2.1.filter isNsK ++ g.2.1.filter isNamedK)).map setLine0).filter
          (fun e => e.is_type_export) = [] :=
      List.filter_eq_nil_iff.mpr (fun x hx => by rw [hVmem x hx]; simp)
    have hd2 : (((g.2.2.filter isNsK ++ g.2.2.filter isNamedK)).map setLine0).filter
          (fun e => e.is_type_export)
        = ((g.2.2.filter isNsK ++ g.2.2.filter isNamedK)).map setLine0 :=
      List.filter_eq_self.mpr (fun x hx => hTmem x hx)
    have hfV : (((g.2.1.filter isNsK ++ g.2.1.filter isNamedK)
        ++ (g.2.2.filter isNsK ++ g.2.2.filter isNamedK)).map setLine0).filter
          (fun e => !(e.is_type_export))
        = (g.2.1.filter isNsK ++ g.2.1.filter isNamedK).map setLine0 := by
      rw [List.map_append, List.filter_append, ha, hb, List.append_nil]
    have hfT : (((g.2.1.filter isNsK ++ g.2.1.filter isNamedK)
        ++ (g.2.2.filter isNsK ++ g.2.2.filter isNamedK)).map setLine0).filter
          (fun e => e.is_type_export)
        = (g.2.2.filter isNsK ++ g.2.2.filter isNamedK).map setLine0 := by
      rw [List.map_append, List.filter_append, hc, hd2, List.nil_append]
    rw [hfV, hfT]
    rw [genValueExports_map_setLine0, genTypeExports_map_setLine0]
    rw [genValueExports_filter_pair g.2.1 g.1 (fun e he => (hv e he).2.2),
      genTypeExports_filter_pair g.2.2 g.1 (fun e he => (ht e he).2.2)]
  rw [hpoint]
  have hblocksne : (G.map
      (fun g => genValueExports g.2.1 g.1 ++ genTypeExports g.2.2 g.1)).flatten ≠ [] := by
    cases hGrec : G with
    | nil => exact absurd hGrec hG_ne
    | cons g0 G' =>
      rw [List.map_cons, List.flatten_cons]
      intro hc
      rcases List.append_eq_nil.mp hc with ⟨h1, _⟩
      rcases List.append_eq_nil.mp h1 with ⟨hV, hT⟩
      obtain ⟨hv, ht, hne'⟩ := hGs g0 (hGrec ▸ List.mem_cons_self _ _)
      rcases hrecv : g0.2.1 with _ | ⟨x, xs⟩
      · rcases hrect : g0.2.2 with _ | ⟨y, ys⟩
        · rw [hrecv, hrect] at hne'
          exact absurd rfl hne'
        · exact genTypeExports_ne_nil g0.2.2 g0.1
            (by rw [hrect]; exact List.cons_ne_nil _ _)
            (fun e he => (ht e he).2.2) hT
      · exact genValueExports_ne_nil g0.2.1 g0.1
          (by rw [hrecv]; exact List.cons_ne_nil _ _)
          (fun e he => (hv e he).2.2) hV
  rw [if_neg (by
    cases hrec : P ++ (G.map
        (fun g => genValueExports g.2.1 g.1 ++ genTypeExports g.2.2 g.1)).flatten with
    | nil =>
      rcases List.append_eq_nil.mp hrec with ⟨_, h2⟩
      exact absurd h2 hblocksne
    | cons x xs => simp)]
  rw [← htdata]

theorem roundtrip_reconstruct (s : String)
    (hnd : ∀ e ∈ parsedRecords s, e.export_type ≠ "default")
    (hcr : ∀ l ∈ preservedPrefix (rustLines s.data), l.getLast? ≠ some '\r')
    (hne : parsedRecords s ≠ []) :
    reconstruct_source (reconstruct_source s (specDedup (parsedRecords s)))
        (parsedRecords (reconstruct_source s (specDedup (parsedRecords s))))
      = reconstruct_source s (specDedup (parsedRecords s)) := by
  apply reconstruct_abstract _ _
    (groupBySource (specDedup (parsedRecords s)))
    (preservedPrefix (rustLines s.data))
  · exact roundtrip_records s hnd hcr hne
  · intro g hg
    obtain ⟨hv, ht, hne', _, _, _⟩ := G_facts s hnd g hg
    exact ⟨fun x hx => ⟨(hv x hx).2.1, (hv x hx).2.2, (D_facts s hnd x (hv x hx).1).2⟩,
      fun x hx => ⟨(ht x hx).2.1, (ht x hx).2.2, (D_facts s hnd x (ht x hx).1).2⟩, hne'⟩
  · exact groupBySource_keys_nodup _ [] (by simp)
  · exact roundtrip_pres s hnd hcr hne
  · exact roundtrip_ne s hnd hcr hne
  · exact roundtrip_data s hnd hne

theorem process_eval (s p : String) (hb : is_barrel_file p = true)
    (hE : (parsedRecords s).isEmpty = false) :
    process {} s p = Except.ok (reconstruct_source s (specDedup (parsedRecords s))) := by
  simp only [process, hb, Bool.not_true]
  rw [if_neg Bool.false_ne_true]
  rw [show parse_exports s = Except.ok (parsedRecords s) from rfl]
  simp only []
  rw [if_neg (by rw [hE]; exact Bool.false_ne_true)]
  rw [show (({} : BarrelLoaderOptions).remove_duplicates.getD true) = true from rfl]
  rw [show (({} : BarrelLoaderOptions).sort.getD false) = false from rfl]
  rw [if_pos rfl, if_neg Bool.false_ne_true]
  rw [remove_duplicates_eq_specDedup]

theorem process_empty (s p : String) (hb : is_barrel_file p = true)
    (hE : (parsedRecords s).isEmpty = true) :
    process {} s p = Except.ok s := by
  simp only [process, hb, Bool.not_true]
  rw [if_neg Bool.false_ne_true]
  rw [show parse_exports s = Except.ok (parsedRecords s) from rfl]
  simp only []
  rw [if_pos hE]

theorem process_not_barrel (s p : String) (hb : is_barrel_file p = false) :
    process {} s p = Except.ok s := by
  simp only [process, hb, Bool.not_false]
  rw [if_pos trivial]

theorem c3_helper_idempotent (s p t : String)
    (hnd : ∀ e ∈ parsedRecords s, e.export_type ≠ "default")
    (hcr : ∀ l ∈ preservedPrefix (rustLines s.data), l.getLast? ≠ some '\r')
    (hpr : process {} s p = Except.ok t) :
    process {} t p = Except.ok t := by
  by_cases hb : is_barrel_file p = true
  · by_cases hE : (parsedRecords s).isEmpty = true
    · rw [process_empty s p hb hE] at hpr
      injection hpr with h
      subst h
      exact process_empty s p hb hE
    · have hEf : (parsedRecords s).isEmpty = false := Bool.eq_false_iff.mpr hE
      have hne : parsedRecords s ≠ [] := by
        intro hc
        rw [hc] at hEf
        simp at hEf
      rw [process_eval s p hb hEf] at hpr
      injection hpr with h
      subst h
      have hE'ne := roundtrip_ne s hnd hcr hne
      have hE'f : (parsedRecords
          (reconstruct_source s (specDedup (parsedRecords s)))).isEmpty = false := by
        cases hrec : parsedRecords (reconstruct_source s (specDedup (parsedRecords s))) with
        | nil => exact absurd hrec hE'ne
        | cons a b => rfl
      rw [process_eval _ p hb hE'f]
      rw [roundtrip_dedup s hnd hcr hne]
      rw [roundtrip_reconstruct s hnd hcr hne]
  · have hbf : is_barrel_file p = false := Bool.eq_false_iff.mpr hb
    rw [process_not_barrel s p hbf] at hpr
    injection hpr with h
    subst h
    exact process_not_barrel s p hbf

/-- C3 counterexample: under the default configuration (dedupe on, sort off) and
the barrel path `index.ts`, `process` is not idempotent.  First input: a line
whose named braces are all-blank followed by `export \x7b default as App \x7d ...`
parses to a `default` record plus a `named` record; the regenerated text parses
to two `named` records with one common module, which the second pass merges into
a single combined statement, so the second output differs from the first.
Second input: a preserved (non-export) leading line ending in a bare carriage
return survives pass one but loses its `\r` when pass two splits lines, so the
second output again differs. -/
theorem c3_counterexample :
    is_barrel_file "index.ts" = true ∧
    (process {} "export \x7b  \x7d from \"m\"; export \x7b default as App \x7d from \"./App\";\nexport \x7b Other \x7d from \"./App\";" "index.ts"
      = Except.ok "export \x7b default as App \x7d from \"./App\";\nexport \x7b Other \x7d from \"./App\";\n"
    ∧ process {} "export \x7b default as App \x7d from \"./App\";\nexport \x7b Other \x7d from \"./App\";\n" "index.ts"
      = Except.ok "export \x7b default as App, Other \x7d from \"./App\";\n"
    ∧ ("export \x7b default as App \x7d from \"./App\";\nexport \x7b Other \x7d from \"./App\";\n" : String)
      ≠ "export \x7b default as App, Other \x7d from \"./App\";\n")
    ∧ (process {} "const x = 1;\r\r\nexport \x7b A \x7d from \"./m\";" "index.ts"
      = Except.ok "const x = 1;\r\nexport \x7b A \x7d from \"./m\";\n"
    ∧ process {} "const x = 1;\r\nexport \x7b A \x7d from \"./m\";\n" "index.ts"
      = Except.ok "const x = 1;\nexport \x7b A \x7d from \"./m\";\n"
    ∧ ("const x = 1;\r\nexport \x7b A \x7d from \"./m\";\n" : String)
      ≠ "const x = 1;\nexport \x7b A \x7d from \"./m\";\n") :=
  ⟨rfl, ⟨rfl, rfl, by decide⟩, ⟨rfl, rfl, by decide⟩⟩

/-- C3 (amended): under the default configuration (dedupe on, sort off),
`process` is idempotent provided the first parse of the input yields no
`default`-kind record and no line of the preserved leading block ends in a
carriage return: any output `t` of `process` on such an input is itself a fixed
point of `process` (on every path, barrel or not). -/
theorem c3_idempotent_amended (s p t : String)
    (hnd : ∀ e ∈ parsedRecords s, e.export_type ≠ "default")
    (hcr : ∀ l ∈ preservedPrefix (rustLines s.data), l.getLast? ≠ some '\r')
    (hpr : process {} s p = Except.ok t) :
    process {} t p = Except.ok t :=
  c3_helper_idempotent s p t hnd hcr hpr

theorem c3_amended_witness :
    (∀ e ∈ parsedRecords "export \x7b A \x7d from \"./m\";", e.export_type ≠ "default") ∧
    (∀ l ∈ preservedPrefix (rustLines ("export \x7b A \x7d from \"./m\";" : String).data),
      l.getLast? ≠ some '\r') ∧
    process {} "export \x7b A \x7d from \"./m\";\n" "index.ts"
      = Except.ok "export \x7b A \x7d from \"./m\";\n" :=
  ⟨by decide, by decide,
    c3_idempotent_amended "export \x7b A \x7d from \"./m\";" "index.ts"
      "export \x7b A \x7d from \"./m\";\n" (by decide) (by decide) rfl⟩
